import Mathlib

/-!
# The agent and the deterministic file editor of `code-editing-agent`

A shallow embedding of `src/main.go`: the content hasher `fileHash`, the safe path
resolver `safePath`, the tool functions `ReadFile` and `EditFile`, the parts of the
Go standard library and of the operating system they call, and the loop of the
agent (`Agent.Run`, `Agent.executeTool`) with the model service and the user as
givens.

Conventions.
* A Go `string` or `[]byte` is a list of bytes, each byte a natural number below 256.
* A Go `int` that is only compared, never computed with, is an `Int`.
* The file system is explicit state: a tool function takes the state before the call
  and returns its result, the state after the call and the list of file-system calls
  it made, in order.
* `json.Unmarshal` and `json.Marshal` are not modelled: `EditFile` starts from the
  decoded `EditFileInput` and ends with the `EditResult` that is marshalled, and a
  raw payload (`RawMessage`) comes with what `json.Unmarshal` makes of it.
* Paths follow the Unix rules of `path/filepath` (separator `/`, no volume names).
* The operating system is the tree of files and nothing else: a read, a `MkdirAll` or
  a write fails only for what the tree holds, a regular file where a directory is
  needed or a directory where a file is. The failures that come from elsewhere
  (permissions, limits on names, a full disk) are not in the model, in which a
  write-back therefore cannot fail after a successful read of the same path. No
  theorem rests on that: what a read answers and that a write-back succeeds are
  hypotheses wherever a conclusion needs them.
* The walk of a directory tree in `ListFiles` is a given (`Library.walkListing`).
* A panic is an outcome of its own: of a tool function (`ToolReturn.panic`) and of a
  run (`RunResult.panicked`). `Run` is observed for a bounded number of turns of its
  loop, which need not end; printing to the terminal is left out.
-/

namespace CodeEditingAgent

/-- A Go string or byte slice. -/
abbrev Bytes := List Nat

/-- The UTF-8 bytes of a string literal. -/
def str (s : String) : Bytes :=
  s.toList.flatMap (fun c => (String.utf8EncodeChar c).map UInt8.toNat)

/-! ## Content hasher: `crypto/sha256` and `encoding/hex` -/

/-- Truncation to a 32-bit word. -/
def w32 (n : Nat) : Nat := n % 4294967296

/-- Rotate the 32-bit word `x` right by `n` bits. -/
def rotr (x n : Nat) : Nat := w32 ((x >>> n) ||| (x <<< (32 - n)))

/-- The 64 round constants of SHA-256. -/
def sha256K : List Nat :=
  [0x428a2f98, 0x71374491, 0xb5c0fbcf, 0xe9b5dba5, 0x3956c25b, 0x59f111f1, 0x923f82a4, 0xab1c5ed5,
   0xd807aa98, 0x12835b01, 0x243185be, 0x550c7dc3, 0x72be5d74, 0x80deb1fe, 0x9bdc06a7, 0xc19bf174,
   0xe49b69c1, 0xefbe4786, 0x0fc19dc6, 0x240ca1cc, 0x2de92c6f, 0x4a7484aa, 0x5cb0a9dc, 0x76f988da,
   0x983e5152, 0xa831c66d, 0xb00327c8, 0xbf597fc7, 0xc6e00bf3, 0xd5a79147, 0x06ca6351, 0x14292967,
   0x27b70a85, 0x2e1b2138, 0x4d2c6dfc, 0x53380d13, 0x650a7354, 0x766a0abb, 0x81c2c92e, 0x92722c85,
   0xa2bfe8a1, 0xa81a664b, 0xc24b8b70, 0xc76c51a3, 0xd192e819, 0xd6990624, 0xf40e3585, 0x106aa070,
   0x19a4c116, 0x1e376c08, 0x2748774c, 0x34b0bcb5, 0x391c0cb3, 0x4ed8aa4a, 0x5b9cca4f, 0x682e6ff3,
   0x748f82ee, 0x78a5636f, 0x84c87814, 0x8cc70208, 0x90befffa, 0xa4506ceb, 0xbef9a3f7, 0xc67178f2]

/-- Message padding: the byte 0x80, zero bytes up to 56 modulo 64, then the bit
length as eight big-endian bytes. -/
def sha256Pad (b : Bytes) : Bytes :=
  let l := b.length
  let z := (64 - (l + 9) % 64) % 64
  let bits := 8 * l
  b.map (· % 256) ++ [0x80] ++ List.replicate z 0 ++
    [7, 6, 5, 4, 3, 2, 1, 0].map (fun i => (bits >>> (8 * i)) % 256)

/-- Big-endian 32-bit words of a byte sequence. -/
def beWords : Bytes → List Nat
  | a :: b :: c :: d :: t => (((a * 256 + b) * 256 + c) * 256 + d) :: beWords t
  | _ => []

/-- Message schedule: `n` more words; `rev` holds the words so far, newest first. -/
def schedule : Nat → List Nat → List Nat
  | 0, rev => rev
  | n + 1, rev =>
    let w2 := rev.getD 1 0
    let w7 := rev.getD 6 0
    let w15 := rev.getD 14 0
    let w16 := rev.getD 15 0
    let s0 := rotr w15 7 ^^^ rotr w15 18 ^^^ (w15 >>> 3)
    let s1 := rotr w2 17 ^^^ rotr w2 19 ^^^ (w2 >>> 10)
    schedule n (w32 (w16 + s0 + w7 + s1) :: rev)

/-- The eight working registers of SHA-256. -/
structure Regs where
  a : Nat
  b : Nat
  c : Nat
  d : Nat
  e : Nat
  f : Nat
  g : Nat
  h : Nat
deriving DecidableEq

/-- One round of the compression function. -/
def shaRound (r : Regs) (k w : Nat) : Regs :=
  let s1 := rotr r.e 6 ^^^ rotr r.e 11 ^^^ rotr r.e 25
  let ch := (r.e &&& r.f) ^^^ ((4294967295 - r.e) &&& r.g)
  let t1 := w32 (r.h + s1 + ch + k + w)
  let s0 := rotr r.a 2 ^^^ rotr r.a 13 ^^^ rotr r.a 22
  let maj := (r.a &&& r.b) ^^^ (r.a &&& r.c) ^^^ (r.b &&& r.c)
  let t2 := w32 (s0 + maj)
  ⟨w32 (t1 + t2), r.a, r.b, r.c, w32 (r.d + t1), r.e, r.f, r.g⟩

/-- The rounds of one block, one per round constant and schedule word. -/
def shaRounds : Regs → List Nat → List Nat → Regs
  | r, k :: ks, w :: ws => shaRounds (shaRound r k w) ks ws
  | r, _, _ => r

/-- Compression of one 16-word block into the chaining value `s`. -/
def compress (s : Regs) (block : List Nat) : Regs :=
  let w := (schedule 48 block.reverse).reverse
  let r := shaRounds s sha256K w
  ⟨w32 (s.a + r.a), w32 (s.b + r.b), w32 (s.c + r.c), w32 (s.d + r.d),
   w32 (s.e + r.e), w32 (s.f + r.f), w32 (s.g + r.g), w32 (s.h + r.h)⟩

/-- Compression of `n` consecutive blocks. -/
def shaBlocks : Nat → Regs → List Nat → Regs
  | 0, s, _ => s
  | n + 1, s, ws => shaBlocks n (compress s (ws.take 16)) (ws.drop 16)

/-- The function `sha256.Sum256`: the digest as eight 32-bit words. -/
def sha256 (b : Bytes) : Regs :=
  let ws := beWords (sha256Pad b)
  shaBlocks (ws.length / 16)
    ⟨0x6a09e667, 0xbb67ae85, 0x3c6ef372, 0xa54ff53a,
     0x510e527f, 0x9b05688c, 0x1f83d9ab, 0x5be0cd19⟩ ws

/-- A lower-case hexadecimal digit, as `hex.EncodeToString` writes it. -/
def hexDigit (n : Nat) : Nat := if n < 10 then 48 + n else 87 + n

/-- Eight hexadecimal digits of a 32-bit word, most significant first. -/
def hexWord (w : Nat) : Bytes :=
  [28, 24, 20, 16, 12, 8, 4, 0].map (fun s => hexDigit ((w >>> s) % 16))

/-- The function `fileHash` (main.go 294-297): the SHA-256 of `b` in hexadecimal. -/
def fileHash (b : Bytes) : Bytes :=
  let r := sha256 b
  hexWord r.a ++ hexWord r.b ++ hexWord r.c ++ hexWord r.d ++
  hexWord r.e ++ hexWord r.f ++ hexWord r.g ++ hexWord r.h

/-! ## `strings` -/

/-- The function `strings.HasPrefix`. -/
def stringsHasPrefix (s pre : Bytes) : Bool := pre.isPrefixOf s

/-- The function `strings.Index`: the position of the first occurrence of `sub` in
the string, `none` standing for `-1`. -/
def stringsIndex (sub : Bytes) : Bytes → Option Nat
  | [] => if sub.isPrefixOf [] then some 0 else none
  | c :: t => if sub.isPrefixOf (c :: t) then some 0 else (stringsIndex sub t).map (· + 1)

/-- The loop of `strings.Count`: find the next occurrence with `Index`, count it,
continue just after its end. The string loses at least one byte in every turn when
`sub` is not empty, so `fuel` above the length of the string is never used up. -/
def countLoop (sub : Bytes) : Nat → Bytes → Nat → Nat
  | 0, _, n => n
  | fuel + 1, s, n =>
    match stringsIndex sub s with
    | none => n
    | some i => countLoop sub fuel (s.drop (i + sub.length)) (n + 1)

/-- The function `strings.Count` for a non-empty `sub`. For an empty `sub` Go returns
the number of runes plus one; `EditFile` rejects an empty `old_str` before it counts
(main.go 315), and the model gives the number of bytes plus one there. -/
def stringsCount (s sub : Bytes) : Nat :=
  if sub = [] then s.length + 1 else countLoop sub (s.length + 1) s 0

/-- The loop of `strings.Replace`: `n` times, copy up to the next occurrence of
`old`, write `new`, continue after the occurrence; the caller copies the rest. -/
def replaceLoop (old new : Bytes) : Nat → Bytes → Bytes
  | 0, s => s
  | n + 1, s =>
    match stringsIndex old s with
    | none => s
    | some j => s.take j ++ new ++ replaceLoop old new n (s.drop (j + old.length))

/-- The function `strings.Replace` for a non-empty `old` (the only case `EditFile`
reaches): at most `n` replacements, all of them when `n` is negative. -/
def stringsReplace (s old new : Bytes) (n : Int) : Bytes :=
  if old = new ∨ n = 0 then s
  else
    let m := stringsCount s old
    if m = 0 then s
    else replaceLoop old new (if n < 0 ∨ (m : Int) < n then m else n.toNat) s

/-! ## `path/filepath` (Unix) -/

/-- The path elements between separators, the empty ones included. -/
def splitSep : Bytes → List Bytes
  | [] => [[]]
  | c :: t =>
    if c = 47 then [] :: splitSep t
    else
      match splitSep t with
      | [] => [[c]]
      | s :: ss => (c :: s) :: ss

/-- The backtracking loop of `Clean` on a `..` element, entered after `out.w--` with
write index `w`: step back while `w > dotdot` and the byte at `w` is no separator. -/
def backLoop (out : Bytes) (dotdot : Nat) : Nat → Nat
  | 0 => 0
  | w + 1 => if dotdot < w + 1 ∧ out.getD (w + 1) 0 ≠ 47 then backLoop out dotdot w else w + 1

/-- One turn of the main loop of `Clean`, on one path element: the state is the
output buffer and the index `dotdot` below which `..` must not remove anything. -/
def cleanStep (rooted : Bool) (st : Bytes × Nat) (seg : Bytes) : Bytes × Nat :=
  if seg = [] ∨ seg = [46] then st
  else if seg = [46, 46] then
    if st.2 < st.1.length then
      (st.1.take (backLoop st.1 st.2 (st.1.length - 1)), st.2)
    else if rooted then st
    else
      let out := (if 0 < st.1.length then st.1 ++ [47] else st.1) ++ [46, 46]
      (out, out.length)
  else
    ((if (rooted ∧ st.1.length ≠ 1) ∨ (¬ rooted ∧ st.1.length ≠ 0) then st.1 ++ [47]
      else st.1) ++ seg, st.2)

/-- The function `filepath.Clean`: the shortest path name equivalent to `path` by
purely lexical processing. -/
def filepathClean (path : Bytes) : Bytes :=
  if path = [] then [46]
  else
    let rooted := path.head? = some 47
    let out := ((splitSep path).foldl (cleanStep rooted)
      (if rooted then ([47], 1) else ([], 0))).1
    if out = [] then [46] else out

/-- The function `filepath.IsAbs`. -/
def filepathIsAbs (path : Bytes) : Bool := stringsHasPrefix path [47]

/-- The function `filepath.Dir`: all but the last element of `path`, cleaned. -/
def filepathDir (path : Bytes) : Bytes :=
  filepathClean (path.reverse.dropWhile (· ≠ 47)).reverse

/-! ## The file system -/

/-- What a path names: a regular file with its content, or a directory. -/
inductive Node where
  | file (content : Bytes)
  | dir
deriving DecidableEq

/-- A file-system state: what each path names, a relative path being taken from the
working directory. Paths are compared as texts; `EditFile` hands the system cleaned
paths only. Permissions, links and devices are not modelled. -/
abbrev FS := Bytes → Option Node

/-- Lookup of a path; the working directory `.` always is a directory. -/
def FS.node (fs : FS) (p : Bytes) : Option Node :=
  if p = [46] then some Node.dir else fs p

/-- Whether a lookup gave a regular file. -/
def isFile : Option Node → Bool
  | some (Node.file _) => true
  | _ => false

/-- The directories a path runs through: its prefixes that end before a separator. -/
def properAncestors (p : Bytes) : List Bytes :=
  ((List.range p.length).filter (fun i => 0 < i ∧ p.getD i 0 = 47)).map (fun i => p.take i)

/-- A call to the operating system, as recorded in the order of execution. -/
inductive FsOp where
  | read (path : Bytes)
  | mkdirAll (path : Bytes)
  | write (path : Bytes) (content : Bytes)
deriving DecidableEq

/-- Result of `os.ReadFile`: the content, an error for which `os.IsNotExist` holds,
or another error. -/
inductive ReadResult where
  | ok (content : Bytes)
  | notExist
  | failed
deriving DecidableEq

/-- The function `os.ReadFile`: fails when the path runs through a regular file or
names a directory, reports a missing file as such. The real call has more errors
than these (no permission, a name that is too long); theorems take what the read
answers as a hypothesis. -/
def osReadFile (fs : FS) (p : Bytes) : ReadResult :=
  if (properAncestors p).any (fun a => isFile (fs.node a)) then ReadResult.failed
  else
    match fs.node p with
    | some (Node.file c) => ReadResult.ok c
    | some Node.dir => ReadResult.failed
    | none => ReadResult.notExist

/-- The function `os.MkdirAll`: makes `d` and the missing directories above it; fails,
here without effect, when one of them is a regular file. The real call has more
errors than this one (no permission, a full disk); theorems take its success as a
hypothesis. -/
def osMkdirAll (fs : FS) (d : Bytes) : Option FS :=
  if (properAncestors d ++ [d]).any (fun a => isFile (fs.node a)) then none
  else some (fun q => if q ∈ properAncestors d ++ [d] then some Node.dir else fs q)

/-- The function `os.WriteFile`: replaces or creates the file `p` with content `c`;
fails, here without effect, when `p` is a directory or a directory above it is
missing. The real call has more errors than these (no permission, a full disk);
theorems take its success as a hypothesis. -/
def osWriteFile (fs : FS) (p c : Bytes) : Option FS :=
  if fs.node p = some Node.dir then none
  else if (properAncestors p).all (fun a => fs.node a = some Node.dir) then
    some (fun q => if q = p then some (Node.file c) else fs q)
  else none

/-! ## The tools -/

/-- The type `EditMode` (main.go 253): any string. -/
abbrev EditMode := Bytes

/-- Mode `replace_once`: replace exactly N matches (default 1). -/
def ModeReplaceOnce : EditMode := str "replace_once"

/-- Mode `write_full`: replace the entire file with the new text. -/
def ModeWriteFull : EditMode := str "write_full"

/-- Mode `append`: append the new text to the end of the file. -/
def ModeAppend : EditMode := str "append"

/-- The decoded request of `edit_file` (main.go 261-269). -/
structure EditFileInput where
  Path : Bytes
  Mode : EditMode
  OldStr : Bytes
  NewStr : Bytes
  ExpectCount : Int
  ExpectHash : Bytes
  EnsureNL : Bool
deriving DecidableEq

/-- The outcome of `edit_file` (main.go 271-277), marshalled to JSON on return. -/
structure EditResult where
  Changed : Bool
  OldHash : Bytes
  NewHash : Bytes
  Replacements : Int
  Message : Bytes
deriving DecidableEq

/-- The errors a tool function returns, with the text or origin of each. -/
inductive ToolError where
  /-- Text `path and mode are required`. -/
  | pathAndModeRequired
  /-- Text `old_str required for mode=replace_once`. -/
  | oldStrRequired
  /-- Text `new_str required for mode=` followed by the mode. -/
  | newStrRequired (mode : EditMode)
  /-- Text `path must be inside working directory`. -/
  | unsafePath
  /-- The error of `os.ReadFile`. -/
  | readFailed
  /-- The error of `os.MkdirAll`. -/
  | mkdirFailed
  /-- The error of `os.WriteFile`. -/
  | writeFailed
deriving DecidableEq

/-- What a call of a tool function leaves behind: the returned value or error, the
file-system state and the calls made to the operating system. -/
structure Outcome (α : Type) where
  result : Except ToolError α
  fs : FS
  ops : List FsOp

/-- The function `safePath` (main.go 299-305). -/
def safePath (p : Bytes) : Except ToolError Bytes :=
  let p := filepathClean p
  if stringsHasPrefix p (str "..") || filepathIsAbs p then Except.error ToolError.unsafePath
  else Except.ok p

/-- The decoded request of `read_file` (main.go 160-162). -/
structure ReadFileInput where
  Path : Bytes
deriving DecidableEq

/-- The function `ReadFile` (main.go 173-177), after the request is decoded. -/
def ReadFile (req : ReadFileInput) (fs : FS) : Outcome Bytes :=
  match osReadFile fs req.Path with
  | ReadResult.ok c => ⟨Except.ok c, fs, [FsOp.read req.Path]⟩
  | _ => ⟨Except.error ToolError.readFailed, fs, [FsOp.read req.Path]⟩

/-- The expected count after the default is applied (main.go 321-323). -/
def expectCount (req : EditFileInput) : Int :=
  if req.ExpectCount = 0 then 1 else req.ExpectCount

/-- The current content (main.go 330-335): empty for a missing file, `none` when
reading fails otherwise. -/
def currentContent (fs : FS) (p : Bytes) : Option Bytes :=
  match osReadFile fs p with
  | ReadResult.ok b => some b
  | ReadResult.notExist => some []
  | ReadResult.failed => none

/-- Where the switch on the mode ends (main.go 345-377): in a return, or with the
new content and the number of replacements. -/
inductive ModeStep where
  | done (r : EditResult)
  | candidate (newContent : Bytes) (replacements : Int)
deriving DecidableEq

/-- The text of `fmt.Sprintf` with verb `%d`. -/
def fmtInt (n : Int) : Bytes := str (toString n)

/-- The switch on the mode (main.go 345-377). -/
def applyMode (req : EditFileInput) (cur oldHash : Bytes) : ModeStep :=
  if req.Mode = ModeWriteFull then ModeStep.candidate req.NewStr 0
  else if req.Mode = ModeAppend then
    ModeStep.candidate
      ((if req.EnsureNL ∧ 0 < cur.length ∧ cur.getLast? ≠ some 10 then cur ++ [10] else cur)
        ++ req.NewStr) 0
  else if req.Mode = ModeReplaceOnce then
    let count : Int := stringsCount cur req.OldStr
    if count ≠ expectCount req then
      ModeStep.done ⟨false, oldHash, oldHash, 0,
        str "match_count_mismatch: have=" ++ fmtInt count ++ str " expect=" ++
          fmtInt (expectCount req)⟩
    else
      let newStr := stringsReplace cur req.OldStr req.NewStr (expectCount req)
      if newStr = cur then ModeStep.done ⟨false, oldHash, oldHash, 0, str "no_change"⟩
      else ModeStep.candidate newStr (expectCount req)
  else ModeStep.candidate cur 0

/-- The message of the final result (main.go 397-404). -/
def finalMessage (req : EditFileInput) (oldHash newHash : Bytes) : Bytes :=
  if newHash = oldHash then str "no_change"
  else if req.Mode = ModeWriteFull then str "wrote_full"
  else if req.Mode = ModeAppend then str "appended"
  else str "replaced"

/-- The write of the new content (main.go 382-389): the parent directory is made
unless it is `.`, then the file is written; the first error ends it. The state
reached and the calls made are returned with the outcome. -/
def writeBack (fs : FS) (p newContent : Bytes) : Except ToolError Unit × FS × List FsOp :=
  if filepathDir p ≠ str "." then
    match osMkdirAll fs (filepathDir p) with
    | none => (Except.error ToolError.mkdirFailed, fs, [FsOp.mkdirAll (filepathDir p)])
    | some fs1 =>
      match osWriteFile fs1 p newContent with
      | none => (Except.error ToolError.writeFailed, fs1,
          [FsOp.mkdirAll (filepathDir p), FsOp.write p newContent])
      | some fs2 => (Except.ok (), fs2, [FsOp.mkdirAll (filepathDir p), FsOp.write p newContent])
  else
    match osWriteFile fs p newContent with
    | none => (Except.error ToolError.writeFailed, fs, [FsOp.write p newContent])
    | some fs2 => (Except.ok (), fs2, [FsOp.write p newContent])

/-- The checks of the request (main.go 312-327): the required fields, then the path;
the cleaned path is returned. -/
def checkRequest (req : EditFileInput) : Except ToolError Bytes :=
  if req.Path = [] ∨ req.Mode = [] then Except.error ToolError.pathAndModeRequired
  else if req.Mode = ModeReplaceOnce ∧ req.OldStr = [] then
    Except.error ToolError.oldStrRequired
  else if req.Mode ≠ ModeAppend ∧ req.NewStr = [] then
    Except.error (ToolError.newStrRequired req.Mode)
  else safePath req.Path

/-- The function `EditFile` (main.go 307-407), after the request is decoded. -/
def EditFile (req : EditFileInput) (fs : FS) : Outcome EditResult :=
  match checkRequest req with
  | Except.error e => ⟨Except.error e, fs, []⟩
  | Except.ok p =>
    match currentContent fs p with
    | none => ⟨Except.error ToolError.readFailed, fs, [FsOp.read p]⟩
    | some cur =>
      if req.ExpectHash ≠ [] ∧ req.ExpectHash ≠ fileHash cur then
        ⟨Except.ok ⟨false, fileHash cur, fileHash cur, 0, str "expect_hash_mismatch"⟩,
          fs, [FsOp.read p]⟩
      else
        match applyMode req cur (fileHash cur) with
        | ModeStep.done r => ⟨Except.ok r, fs, [FsOp.read p]⟩
        | ModeStep.candidate newContent replacements =>
          if fileHash newContent ≠ fileHash cur then
            match writeBack fs p newContent with
            | (Except.error e, fs1, ops) => ⟨Except.error e, fs1, FsOp.read p :: ops⟩
            | (Except.ok _, fs1, ops) =>
              ⟨Except.ok ⟨true, fileHash cur, fileHash newContent, replacements,
                finalMessage req (fileHash cur) (fileHash newContent)⟩, fs1, FsOp.read p :: ops⟩
          else
            ⟨Except.ok ⟨false, fileHash cur, fileHash newContent, replacements,
              finalMessage req (fileHash cur) (fileHash newContent)⟩, fs, [FsOp.read p]⟩

/-! ## The replacement in the words of the specification -/

/-- The content with each occurrence of `old` replaced by `new`, the occurrences
taken from left to right without overlap: a byte that starts an occurrence gives
`new` and the rest of the occurrence is skipped (`skip` counts the bytes still to
skip), any other byte is kept. -/
def specReplaceScan (old new : Bytes) : Nat → Bytes → Bytes
  | _, [] => []
  | skip + 1, _ :: t => specReplaceScan old new skip t
  | 0, c :: t =>
    if old.isPrefixOf (c :: t) then new ++ specReplaceScan old new (old.length - 1) t
    else c :: specReplaceScan old new 0 t

/-- The candidate of `append` in the words of the specification: the current
content, one newline exactly when `ensure_trailing_newline` is set and the content
is not empty and does not end in a newline, then the new text. -/
def specAppendCandidate (ensureNL : Bool) (cur new : Bytes) : Bytes :=
  cur ++ (if ensureNL = true ∧ cur ≠ [] ∧ cur.getLast? ≠ some 10 then [10] else []) ++ new

deriving instance DecidableEq for Except

/-! ## Cleaned paths in the words of `path/filepath` -/

/-- Path elements joined by separators. -/
def joinSep : List Bytes → Bytes
  | [] => []
  | [s] => s
  | s :: t :: ts => s ++ 47 :: joinSep (t :: ts)

/-- A path element that names something: not empty, not `.`, not `..`, without a
separator. -/
def isElement (s : Bytes) : Prop := s ≠ [] ∧ s ≠ [46] ∧ s ≠ [46, 46] ∧ 47 ∉ s

/-- What holds of the state of `Clean` on a path that is not rooted: either nothing
is protected and the buffer is a sequence of naming elements, or the buffer begins
with a protected `..`. -/
def cleanInv (st : Bytes × Nat) : Prop :=
  (st.2 = 0 ∧ ∃ rs : List Bytes, (∀ r ∈ rs, isElement r) ∧ st.1 = joinSep rs) ∨
    (2 ≤ st.2 ∧ st.2 ≤ st.1.length ∧ [46, 46] <+: st.1)

/-- The path a call to the operating system is made on. -/
def FsOp.path : FsOp → Bytes
  | FsOp.read p => p
  | FsOp.mkdirAll p => p
  | FsOp.write p _ => p

/-! ## Sample states and requests -/

/-- A working directory with the files `f.txt` (content `aXbXc`) and `notes`
(content `foo`), and the file `/etc/passwd` outside of it. -/
def fsDemo : FS := fun p =>
  if p = str "f.txt" then some (Node.file (str "aXbXc"))
  else if p = str "notes" then some (Node.file (str "foo"))
  else if p = str "/etc/passwd" then some (Node.file (str "root"))
  else none

/-- Replace `X` by `Y` in `f.txt`, the given number of times, under the given hash. -/
def reqReplace (expectCount : Int) (expectHash : Bytes) : EditFileInput :=
  ⟨str "f.txt", ModeReplaceOnce, str "X", str "Y", expectCount, expectHash, false⟩

/-- Append `bar` to `notes` after a newline, under the given hash. -/
def reqAppend (expectHash : Bytes) : EditFileInput :=
  ⟨str "notes", ModeAppend, [], str "bar", 0, expectHash, true⟩

/-- Write `hello` to the given path, under the given hash. -/
def reqWrite (path expectHash : Bytes) : EditFileInput :=
  ⟨path, ModeWriteFull, [], str "hello", 0, expectHash, false⟩

/-- Replace `X` by `XY` in `f.txt`, twice. -/
def reqGrow : EditFileInput :=
  ⟨str "f.txt", ModeReplaceOnce, str "X", str "XY", 2, [], false⟩

/-! ## The agent -/

/-- The decoded request of `list_files` (main.go 202-204). -/
structure ListFilesInput where
  Path : Bytes
deriving DecidableEq

/-- A `json.RawMessage` as a tool function receives it: its text, together with what
`json.Unmarshal` makes of it for each of the three request structs, `none` standing
for an error. `json.Unmarshal` itself is not modelled. -/
structure RawMessage where
  text : Bytes
  readInput : Option ReadFileInput
  listInput : Option ListFilesInput
  editInput : Option EditFileInput
deriving DecidableEq

/-- How a call of a tool function ends: with a string, with an error (given by the
text of `err.Error()`), or in a panic. -/
inductive ToolReturn where
  | value (out : Bytes)
  | error (text : Bytes)
  | panic
deriving DecidableEq

/-- The struct `ToolDefinition` (main.go 26-31), without description and schema. -/
structure ToolDefinition where
  Name : Bytes
  Function : RawMessage → FS → ToolReturn × FS

/-- A content block of a model message, by its `Type`: `text`, `tool_use`, or any
other type. -/
inductive ContentBlock where
  | text (text : Bytes)
  | toolUse (id name : Bytes) (input : RawMessage)
  | other (type : Bytes)
deriving DecidableEq

/-- A message returned by the model. -/
structure Message where
  Content : List ContentBlock
deriving DecidableEq

/-- The role of a message of the conversation. -/
inductive Role where
  | user
  | assistant
deriving DecidableEq

/-- A content block of a message of the conversation. -/
inductive ContentBlockParam where
  | text (text : Bytes)
  | toolResult (toolUseID content : Bytes) (isError : Bool)
  | ofModel (block : ContentBlock)
deriving DecidableEq

/-- A message of the conversation. -/
structure MessageParam where
  role : Role
  content : List ContentBlockParam
deriving DecidableEq

/-- The function `anthropic.NewTextBlock`. -/
def NewTextBlock (text : Bytes) : ContentBlockParam := ContentBlockParam.text text

/-- The function `anthropic.NewToolResultBlock`. -/
def NewToolResultBlock (toolUseID content : Bytes) (isError : Bool) : ContentBlockParam :=
  ContentBlockParam.toolResult toolUseID content isError

/-- The function `anthropic.NewUserMessage`. -/
def NewUserMessage (blocks : List ContentBlockParam) : MessageParam := ⟨Role.user, blocks⟩

/-- The method `Message.ToParam`: the message of the model as a message of the
conversation. -/
def Message.ToParam (m : Message) : MessageParam :=
  ⟨Role.assistant, m.Content.map ContentBlockParam.ofModel⟩

/-- The struct `Agent` (main.go 20-24). The model service and the user are given by
what they answer: `client k conversation` is the outcome of the call number `k` of
`client.Messages.New` on that conversation (an error is given by its text), and
`getUserMessage k` is the line number `k` of the input, `none` when the scanner is
at the end (the second return value `false`). -/
structure Agent where
  client : Nat → List MessageParam → Except Bytes Message
  getUserMessage : Nat → Option Bytes
  tools : List ToolDefinition

/-- What happens during a run, in order: a read of user input, a call to the model
with the conversation sent and the answer, a call of a tool function. -/
inductive Event where
  | userRead (line : Option Bytes)
  | inference (conversation : List MessageParam) (result : Except Bytes Message)
  | toolCall (name : Bytes) (input : RawMessage) (ret : ToolReturn)
deriving DecidableEq

/-- The search loop of `executeTool` (main.go 113-119): the first tool with the
name. -/
def findTool : List ToolDefinition → Bytes → Option ToolDefinition
  | [], _ => none
  | tool :: rest, name => if tool.Name = name then some tool else findTool rest name

/-- The method `Agent.executeTool` (main.go 110-130): the result block, `none` when
the tool function panics, with the file system after the call and the call made. -/
def executeTool (a : Agent) (id name : Bytes) (input : RawMessage) (fs : FS) :
    Option ContentBlockParam × FS × List Event :=
  match findTool a.tools name with
  | none => (some (NewToolResultBlock id (str "tool not found") true), fs, [])
  | some toolDef =>
    match toolDef.Function input fs with
    | (ToolReturn.value response, fs1) =>
      (some (NewToolResultBlock id response false), fs1,
        [Event.toolCall name input (ToolReturn.value response)])
    | (ToolReturn.error text, fs1) =>
      (some (NewToolResultBlock id text true), fs1,
        [Event.toolCall name input (ToolReturn.error text)])
    | (ToolReturn.panic, fs1) => (none, fs1, [Event.toolCall name input ToolReturn.panic])

/-- The loop over the content of a model message (main.go 89-98): the tool results
collected after `acc`, `none` when a tool function panics. Printing is not
modelled. -/
def collectToolResults (a : Agent) :
    List ContentBlock → FS → List ContentBlockParam →
      Option (List ContentBlockParam) × FS × List Event
  | [], fs, acc => (some acc, fs, [])
  | ContentBlock.toolUse id name input :: rest, fs, acc =>
    match executeTool a id name input fs with
    | (none, fs1, ev) => (none, fs1, ev)
    | (some result, fs1, ev) =>
      match collectToolResults a rest fs1 (acc ++ [result]) with
      | (r, fs2, ev2) => (r, fs2, ev ++ ev2)
  | _ :: rest, fs, acc => collectToolResults a rest fs acc

/-- The variables of the loop of `Run`, with the number of lines read, the number of
calls to the model, the file system and the events so far. -/
structure RunState where
  conversation : List MessageParam
  readUserInput : Bool
  reads : Nat
  calls : Nat
  fs : FS
  trace : List Event

/-- How `Run` stands: it has returned `nil` or an error, the process has ended in a
panic, or the loop is still running. -/
inductive RunResult where
  | returned (err : Option Bytes)
  | panicked
  | running
deriving DecidableEq

/-- The first part of a turn of the loop (main.go 72-81): when user input is due, a
line is read and appended as a user message; `none` is the `break` at the end of
the input. -/
def readInput (a : Agent) (st : RunState) : Option RunState :=
  if st.readUserInput = true then
    match a.getUserMessage st.reads with
    | none => none
    | some userInput =>
      some { st with
        conversation := st.conversation ++ [NewUserMessage [NewTextBlock userInput]]
        reads := st.reads + 1
        trace := st.trace ++ [Event.userRead (some userInput)] }
  else some st

/-- One turn of the loop of `Run` (main.go 72-104): the result with which the loop
is left, or `none` when it goes on, and the variables after the turn. -/
def iteration (a : Agent) (st : RunState) : Option RunResult × RunState :=
  match readInput a st with
  | none => (some (RunResult.returned none),
      { st with trace := st.trace ++ [Event.userRead none] })
  | some st1 =>
    match a.client st1.calls st1.conversation with
    | Except.error err =>
      (some (RunResult.returned (some err)),
        { st1 with
          calls := st1.calls + 1
          trace := st1.trace ++ [Event.inference st1.conversation (Except.error err)] })
    | Except.ok message =>
      match collectToolResults a message.Content st1.fs [] with
      | (none, fs1, ev) =>
        (some RunResult.panicked,
          { st1 with
            conversation := st1.conversation ++ [message.ToParam]
            calls := st1.calls + 1
            fs := fs1
            trace := st1.trace ++ [Event.inference st1.conversation (Except.ok message)] ++ ev })
      | (some toolResults, fs1, ev) =>
        if toolResults.length = 0 then
          (none,
            { st1 with
              conversation := st1.conversation ++ [message.ToParam]
              readUserInput := true
              calls := st1.calls + 1
              fs := fs1
              trace :=
                st1.trace ++ [Event.inference st1.conversation (Except.ok message)] ++ ev })
        else
          (none,
            { st1 with
              conversation :=
                st1.conversation ++ [message.ToParam] ++ [NewUserMessage toolResults]
              readUserInput := false
              calls := st1.calls + 1
              fs := fs1
              trace :=
                st1.trace ++ [Event.inference st1.conversation (Except.ok message)] ++ ev })

/-- The loop of `Run`, for at most `fuel` turns. -/
def runLoop (a : Agent) : Nat → RunState → RunResult × RunState
  | 0, st => (RunResult.running, st)
  | fuel + 1, st =>
    match iteration a st with
    | (some result, st1) => (result, st1)
    | (none, st1) => runLoop a fuel st1

/-- The method `Agent.Run` (main.go 65-108), observed for at most `fuel` turns of its
loop, from an empty conversation. -/
def Run (a : Agent) (fuel : Nat) (fs : FS) : RunResult × RunState :=
  runLoop a fuel ⟨[], true, 0, 0, fs, []⟩

/-- What the tools take from outside the program: the text of an error
(`err.Error()`), the text of the error of `json.Unmarshal` on a payload, the JSON
text of a result (`json.Marshal`), and the walk of a directory with its listing in
JSON or the text of its error (`filepath.Walk`, main.go 220-250). -/
structure Library where
  errorText : ToolError → Bytes
  unmarshalError : RawMessage → Bytes
  marshalResult : EditResult → Bytes
  walkListing : FS → Bytes → Except Bytes Bytes

/-- The function `ReadFile` on a raw payload (main.go 166-178): a payload that does
not decode makes it panic. -/
def ReadFileFunction (lib : Library) (input : RawMessage) (fs : FS) : ToolReturn × FS :=
  match input.readInput with
  | none => (ToolReturn.panic, fs)
  | some readFileInput =>
    match (ReadFile readFileInput fs).result with
    | Except.ok content => (ToolReturn.value content, (ReadFile readFileInput fs).fs)
    | Except.error e =>
      (ToolReturn.error (lib.errorText e), (ReadFile readFileInput fs).fs)

/-- The function `ListFiles` on a raw payload (main.go 208-251): a payload that does
not decode makes it panic; the directory is the path of the request, `.` when that
is empty. -/
def ListFilesFunction (lib : Library) (input : RawMessage) (fs : FS) : ToolReturn × FS :=
  match input.listInput with
  | none => (ToolReturn.panic, fs)
  | some listFilesInput =>
    match lib.walkListing fs (if listFilesInput.Path ≠ [] then listFilesInput.Path else str ".")
      with
    | Except.ok result => (ToolReturn.value result, fs)
    | Except.error text => (ToolReturn.error text, fs)

/-- The function `EditFile` on a raw payload (main.go 307-407): a payload that does
not decode gives the error of `json.Unmarshal`. -/
def EditFileFunction (lib : Library) (input : RawMessage) (fs : FS) : ToolReturn × FS :=
  match input.editInput with
  | none => (ToolReturn.error (lib.unmarshalError input), fs)
  | some req =>
    match (EditFile req fs).result with
    | Except.ok res => (ToolReturn.value (lib.marshalResult res), (EditFile req fs).fs)
    | Except.error e => (ToolReturn.error (lib.errorText e), (EditFile req fs).fs)

/-- The tool `read_file` (main.go 153-158). -/
def ReadFileDefinition (lib : Library) : ToolDefinition :=
  ⟨str "read_file", ReadFileFunction lib⟩

/-- The tool `list_files` (main.go 195-200). -/
def ListFilesDefinition (lib : Library) : ToolDefinition :=
  ⟨str "list_files", ListFilesFunction lib⟩

/-- The tool `edit_file` (main.go 279-290). -/
def EditFileDefinition (lib : Library) : ToolDefinition :=
  ⟨str "edit_file", EditFileFunction lib⟩

/-- The tools that `main` registers (main.go 44). -/
def registeredTools (lib : Library) : List ToolDefinition :=
  [ReadFileDefinition lib, ListFilesDefinition lib, EditFileDefinition lib]

/-! ## Sample agents -/

/-- Sample texts for what the tools take from outside: every error reads `error`,
a result is given by its message, a listing is empty. -/
def libDemo : Library :=
  ⟨fun _ => str "error", fun _ => str "invalid payload", fun res => res.Message,
    fun _ _ => Except.ok (str "[]")⟩

/-- A payload that decodes as the request to read `notes`. -/
def payloadNotes : RawMessage :=
  ⟨str "\x7b\"path\":\"notes\"\x7d", some ⟨str "notes"⟩, some ⟨str "notes"⟩, none⟩

/-- The payload with a number for the path, which `json.Unmarshal` rejects for each
of the three request structs. -/
def payloadBad : RawMessage := ⟨str "\x7b\"path\":42\x7d", none, none, none⟩

/-- A model that first asks for `read_file` on `notes` and for the unknown tool
`nope`, then answers in text; a third call fails. -/
def clientDemo : Nat → List MessageParam → Except Bytes Message
  | 0, _ => Except.ok ⟨[ContentBlock.text (str "reading"),
      ContentBlock.toolUse (str "t1") (str "read_file") payloadNotes,
      ContentBlock.toolUse (str "t2") (str "nope") payloadNotes]⟩
  | 1, _ => Except.ok ⟨[ContentBlock.text (str "done")]⟩
  | _, _ => Except.error (str "overloaded")

/-- A user who types `show notes` and then closes the input. -/
def agentDemo : Agent :=
  ⟨clientDemo, fun k => if k = 0 then some (str "show notes") else none, registeredTools libDemo⟩

/-- The same with a user who types three lines. -/
def agentTalkative : Agent :=
  ⟨clientDemo, fun k => if k < 3 then some (str "more") else none, registeredTools libDemo⟩

/-- A model that asks for `read_file` with the payload that does not decode. -/
def agentBadPayload : Agent :=
  ⟨fun _ _ => Except.ok ⟨[ContentBlock.toolUse (str "t1") (str "read_file") payloadBad]⟩,
    fun _ => some (str "go"), registeredTools libDemo⟩

/-! ## Counting and outcome in the words of the specification -/

/-- The number of occurrences of `old` found by scanning from left to right and
resuming just after the end of each occurrence found (`skip` counts the bytes of
the last occurrence still to pass). -/
def specCountScan (old : Bytes) : Nat → Bytes → Nat
  | _, [] => 0
  | skip + 1, _ :: t => specCountScan old skip t
  | 0, c :: t =>
    if old.isPrefixOf (c :: t) then specCountScan old (old.length - 1) t + 1
    else specCountScan old 0 t

/-- The number of positions at which `old` occurs, overlapping occurrences
included. -/
def countPositions (old : Bytes) : Bytes → Nat
  | [] => 0
  | c :: t => (if old.isPrefixOf (c :: t) then 1 else 0) + countPositions old t

/-- The result of an edit and the content of the file after it, as they follow from
the request and the current content alone, for a request that passed the checks
and a file that was read or is missing. -/
def editOutcome (req : EditFileInput) (cur : Bytes) : EditResult × Bytes :=
  if req.ExpectHash ≠ [] ∧ req.ExpectHash ≠ fileHash cur then
    (⟨false, fileHash cur, fileHash cur, 0, str "expect_hash_mismatch"⟩, cur)
  else
    match applyMode req cur (fileHash cur) with
    | ModeStep.done r => (r, cur)
    | ModeStep.candidate newContent replacements =>
      if fileHash newContent ≠ fileHash cur then
        (⟨true, fileHash cur, fileHash newContent, replacements,
          finalMessage req (fileHash cur) (fileHash newContent)⟩, newContent)
      else
        (⟨false, fileHash cur, fileHash newContent, replacements,
          finalMessage req (fileHash cur) (fileHash newContent)⟩, cur)

/-- A working directory with the file `a.txt` (content `aaa`) and the empty file
`empty`. -/
def fsOverlap : FS := fun p =>
  if p = str "a.txt" then some (Node.file (str "aaa"))
  else if p = str "empty" then some (Node.file [])
  else none

/-- Replace `aa` by `b` in `a.txt`, the given number of times. -/
def reqOverlap (expectCount : Int) : EditFileInput :=
  ⟨str "a.txt", ModeReplaceOnce, str "aa", str "b", expectCount, [], false⟩

/-! ## Words for the properties of a run -/

/-- The identifiers of the `tool_use` blocks of a content, in order. -/
def toolUseIDs : List ContentBlock → List Bytes
  | [] => []
  | ContentBlock.toolUse id _ _ :: rest => id :: toolUseIDs rest
  | _ :: rest => toolUseIDs rest

/-- A block is a tool result that carries the identifier `id`. -/
def isResultFor (id : Bytes) (block : ContentBlockParam) : Prop :=
  ∃ content isError, block = NewToolResultBlock id content isError

/-- The result with which an event ends the run, if it does: the end of the user
input, a failed call to the model, a panic of a tool function. -/
def Event.ends : Event → Option RunResult
  | Event.userRead none => some (RunResult.returned none)
  | Event.inference _ (Except.error err) => some (RunResult.returned (some err))
  | Event.toolCall _ _ ToolReturn.panic => some RunResult.panicked
  | _ => none

/-- The roles of a conversation alternate, beginning with the user: the messages at
even positions are the user's, those at odd positions the model's. -/
def alternates (conv : List MessageParam) : Prop :=
  ∀ i m, conv[i]? = some m → m.role = if i % 2 = 0 then Role.user else Role.assistant

/-- Of two events that are calls to the model, the conversation of the first is a
prefix of the conversation of the second. -/
def Event.before (e1 e2 : Event) : Prop :=
  ∀ c1 r1 c2 r2, e1 = Event.inference c1 r1 → e2 = Event.inference c2 r2 → c1 <+: c2

/-- A payload that decodes as the request to read `nofile`, which does not exist. -/
def payloadMissing : RawMessage :=
  ⟨str "\x7b\"path\":\"nofile\"\x7d", some ⟨str "nofile"⟩, some ⟨str "nofile"⟩, none⟩

/-- A model that first asks for `read_file` on a file that does not exist, then
answers in text, with a user who types one line. -/
def agentToolError : Agent :=
  ⟨fun k _ =>
      if k = 0 then
        Except.ok ⟨[ContentBlock.toolUse (str "t1") (str "read_file") payloadMissing]⟩
      else Except.ok ⟨[ContentBlock.text (str "no such file")]⟩,
    fun k => if k = 0 then some (str "show nofile") else none, registeredTools libDemo⟩

/-! ## Lemmas on the hasher and the file system -/

set_option maxRecDepth 100000


theorem fileHash_length (b : Bytes) : (fileHash b).length = 64 := by
  simp [fileHash, hexWord]

theorem mem_properAncestors_length {p a : Bytes} (h : a ∈ properAncestors p) :
    a.length < p.length := by
  simp only [properAncestors, List.mem_map, List.mem_filter, List.mem_range] at h
  obtain ⟨i, ⟨hi, _⟩, rfl⟩ := h
  simp [List.length_take, hi]

theorem not_mem_properAncestors_self (p : Bytes) : p ∉ properAncestors p :=
  fun h => Nat.lt_irrefl _ (mem_properAncestors_length h)

/-- A file that was written is read back with the written content. -/
theorem osReadFile_of_osWriteFile {fs fs2 : FS} {p c : Bytes}
    (h : osWriteFile fs p c = some fs2) : osReadFile fs2 p = ReadResult.ok c := by
  unfold osWriteFile at h
  split at h
  · exact absurd h (by simp)
  · rename_i hdir
    split at h
    · rename_i hall
      have hfs2 : fs2 = fun q => if q = p then some (Node.file c) else fs q := by
        simpa using h.symm
      have hp : p ≠ [46] := by
        intro hp
        apply hdir
        simp [FS.node, hp]
      have hnode : fs2.node p = some (Node.file c) := by
        simp [FS.node, hp, hfs2]
      have hanc : (properAncestors p).any (fun a => isFile (fs2.node a)) = false := by
        rw [List.any_eq_false]
        intro a ha
        have hne : a ≠ p := fun e => not_mem_properAncestors_self p (e ▸ ha)
        have hd : fs.node a = some Node.dir := by
          have := List.all_eq_true.mp hall a ha
          simpa using this
        have : fs2.node a = some Node.dir := by
          simp only [FS.node] at hd ⊢
          split
          · rfl
          · rename_i h46
            simp only [h46, if_false] at hd
            simp [hfs2, hne, hd]
        simp [this, isFile]
      simp [osReadFile, hanc, hnode]
    · exact absurd h (by simp)

/-- After a successful write-back the current content is what was written. -/
theorem currentContent_of_writeBack {fs fs1 : FS} {p c : Bytes} {ops : List FsOp}
    (h : writeBack fs p c = (Except.ok (), fs1, ops)) : currentContent fs1 p = some c := by
  unfold writeBack at h
  split at h
  · split at h
    · simp at h
    · split at h
      · simp at h
      · rename_i fs2 hw
        simp only [Prod.mk.injEq, true_and] at h
        obtain ⟨rfl, _⟩ := h
        simp [currentContent, osReadFile_of_osWriteFile hw]
  · split at h
    · simp at h
    · rename_i fs2 hw
      simp only [Prod.mk.injEq, true_and] at h
      obtain ⟨rfl, _⟩ := h
      simp [currentContent, osReadFile_of_osWriteFile hw]

/-- The calls of a write-back go to the path or to its directory. -/
theorem writeBack_ops {fs : FS} {p c : Bytes} {op : FsOp}
    (h : op ∈ (writeBack fs p c).2.2) :
    op = FsOp.mkdirAll (filepathDir p) ∨ op = FsOp.write p c := by
  unfold writeBack at h
  split at h
  · split at h
    · simp at h; exact Or.inl h
    · split at h
      · simp at h; exact h
      · simp at h; exact h
  · split at h
    · simp at h; exact Or.inr h
    · simp at h; exact Or.inr h

/-- Both returns inside the switch on the mode report no change. -/
theorem applyMode_done {req : EditFileInput} {cur oldHash : Bytes} {r : EditResult}
    (h : applyMode req cur oldHash = ModeStep.done r) :
    r.Changed = false ∧ r.OldHash = oldHash ∧ r.NewHash = oldHash ∧ r.Replacements = 0 := by
  unfold applyMode at h
  split at h
  · simp at h
  · split at h
    · simp at h
    · split at h
      · simp only at h
        split at h
        · simp only [ModeStep.done.injEq] at h
          subst h
          simp
        · split at h
          · simp only [ModeStep.done.injEq] at h
            subst h
            simp
          · simp at h
      · simp at h

/-! ## The shape of a call -/

theorem EditFile_check_error {req : EditFileInput} {e : ToolError} (fs : FS)
    (h : checkRequest req = Except.error e) :
    EditFile req fs = ⟨Except.error e, fs, []⟩ := by
  simp [EditFile, h]

theorem EditFile_read_failed {req : EditFileInput} {fs : FS} {p : Bytes}
    (hv : checkRequest req = Except.ok p) (hr : currentContent fs p = none) :
    EditFile req fs = ⟨Except.error ToolError.readFailed, fs, [FsOp.read p]⟩ := by
  simp [EditFile, hv, hr]

theorem EditFile_hash_mismatch {req : EditFileInput} {fs : FS} {p cur : Bytes}
    (hv : checkRequest req = Except.ok p) (hr : currentContent fs p = some cur)
    (hne : req.ExpectHash ≠ []) (hd : req.ExpectHash ≠ fileHash cur) :
    EditFile req fs =
      ⟨Except.ok ⟨false, fileHash cur, fileHash cur, 0, str "expect_hash_mismatch"⟩,
        fs, [FsOp.read p]⟩ := by
  simp [EditFile, hv, hr, hne, hd]

theorem EditFile_done {req : EditFileInput} {fs : FS} {p cur : Bytes} {r : EditResult}
    (hv : checkRequest req = Except.ok p) (hr : currentContent fs p = some cur)
    (hh : req.ExpectHash = [] ∨ req.ExpectHash = fileHash cur)
    (hs : applyMode req cur (fileHash cur) = ModeStep.done r) :
    EditFile req fs = ⟨Except.ok r, fs, [FsOp.read p]⟩ := by
  have hg : ¬ (req.ExpectHash ≠ [] ∧ req.ExpectHash ≠ fileHash cur) := by
    rcases hh with h | h <;> simp [h]
  simp only [EditFile, hv, hr, hs, if_neg hg]

theorem EditFile_same_hash {req : EditFileInput} {fs : FS} {p cur new : Bytes} {n : Int}
    (hv : checkRequest req = Except.ok p) (hr : currentContent fs p = some cur)
    (hh : req.ExpectHash = [] ∨ req.ExpectHash = fileHash cur)
    (hs : applyMode req cur (fileHash cur) = ModeStep.candidate new n)
    (he : fileHash new = fileHash cur) :
    EditFile req fs =
      ⟨Except.ok ⟨false, fileHash cur, fileHash new, n, str "no_change"⟩, fs, [FsOp.read p]⟩ := by
  have hg : ¬ (req.ExpectHash ≠ [] ∧ req.ExpectHash ≠ fileHash cur) := by
    rcases hh with h | h <;> simp [h]
  simp [EditFile, hv, hr, hs, if_neg hg, he, finalMessage]

theorem EditFile_write_ok {req : EditFileInput} {fs fs1 : FS} {p cur new : Bytes} {n : Int}
    {ops : List FsOp}
    (hv : checkRequest req = Except.ok p) (hr : currentContent fs p = some cur)
    (hh : req.ExpectHash = [] ∨ req.ExpectHash = fileHash cur)
    (hs : applyMode req cur (fileHash cur) = ModeStep.candidate new n)
    (hd : fileHash new ≠ fileHash cur)
    (hw : writeBack fs p new = (Except.ok (), fs1, ops)) :
    EditFile req fs =
      ⟨Except.ok ⟨true, fileHash cur, fileHash new, n,
        finalMessage req (fileHash cur) (fileHash new)⟩, fs1, FsOp.read p :: ops⟩ := by
  have hg : ¬ (req.ExpectHash ≠ [] ∧ req.ExpectHash ≠ fileHash cur) := by
    rcases hh with h | h <;> simp [h]
  simp [EditFile, hv, hr, hs, if_neg hg, hd, hw]

theorem EditFile_write_error {req : EditFileInput} {fs fs1 : FS} {p cur new : Bytes} {n : Int}
    {ops : List FsOp} {e : ToolError}
    (hv : checkRequest req = Except.ok p) (hr : currentContent fs p = some cur)
    (hh : req.ExpectHash = [] ∨ req.ExpectHash = fileHash cur)
    (hs : applyMode req cur (fileHash cur) = ModeStep.candidate new n)
    (hd : fileHash new ≠ fileHash cur)
    (hw : writeBack fs p new = (Except.error e, fs1, ops)) :
    EditFile req fs = ⟨Except.error e, fs1, FsOp.read p :: ops⟩ := by
  have hg : ¬ (req.ExpectHash ≠ [] ∧ req.ExpectHash ≠ fileHash cur) := by
    rcases hh with h | h <;> simp [h]
  simp [EditFile, hv, hr, hs, if_neg hg, hd, hw]

/-- The only errors of the write-back are those of `os.MkdirAll` and `os.WriteFile`. -/
theorem writeBack_error {fs : FS} {p c : Bytes} {e : ToolError}
    (h : (writeBack fs p c).1 = Except.error e) :
    e = ToolError.mkdirFailed ∨ e = ToolError.writeFailed := by
  unfold writeBack at h
  split at h
  · split at h
    · simp only [Except.error.injEq] at h
      exact Or.inl h.symm
    · split at h
      · simp only [Except.error.injEq] at h
        exact Or.inr h.symm
      · simp at h
  · split at h
    · simp only [Except.error.injEq] at h
      exact Or.inr h.symm
    · simp at h

/-- A candidate with another hash, past the hash guard: when the write-back succeeds
the call returns `changed=true` and the file holds the candidate; the call never
returns `changed=false`, and its only errors are those of the write-back. -/
theorem EditFile_candidate_changes {req : EditFileInput} {fs : FS} {p cur new : Bytes} {n : Int}
    (hv : checkRequest req = Except.ok p) (hr : currentContent fs p = some cur)
    (hh : req.ExpectHash = [] ∨ req.ExpectHash = fileHash cur)
    (hs : applyMode req cur (fileHash cur) = ModeStep.candidate new n)
    (hd : fileHash new ≠ fileHash cur) :
    ((writeBack fs p new).1 = Except.ok () →
        (EditFile req fs).result =
            Except.ok ⟨true, fileHash cur, fileHash new, n,
              finalMessage req (fileHash cur) (fileHash new)⟩ ∧
          currentContent (EditFile req fs).fs p = some new) ∧
      (∀ r, (EditFile req fs).result = Except.ok r →
        r = ⟨true, fileHash cur, fileHash new, n,
            finalMessage req (fileHash cur) (fileHash new)⟩ ∧
          currentContent (EditFile req fs).fs p = some new) ∧
      (∀ e, (EditFile req fs).result = Except.error e →
        e = ToolError.mkdirFailed ∨ e = ToolError.writeFailed) := by
  rcases hwb : writeBack fs p new with ⟨res, fs1, ops⟩
  cases res with
  | error e =>
    have he := EditFile_write_error hv hr hh hs hd hwb
    rw [he]
    refine ⟨fun h => by simp at h, fun r h => by simp at h, ?_⟩
    intro e1 h
    simp only [Except.error.injEq] at h
    subst h
    exact writeBack_error (by rw [hwb])
  | ok u =>
    have he := EditFile_write_ok hv hr hh hs hd hwb
    rw [he]
    refine ⟨fun _ => ⟨rfl, currentContent_of_writeBack hwb⟩, ?_, fun e h => by simp at h⟩
    intro r h
    simp only [Except.ok.injEq] at h
    exact ⟨h.symm, currentContent_of_writeBack hwb⟩

/-- Appending nothing a second time adds nothing: the newline that
`ensure_trailing_newline` asks for is there after the first time. -/
theorem specAppendCandidate_twice (ensureNL : Bool) (cur : Bytes) :
    specAppendCandidate ensureNL (specAppendCandidate ensureNL cur []) [] =
      specAppendCandidate ensureNL cur [] := by
  unfold specAppendCandidate
  by_cases hc : ensureNL = true ∧ cur ≠ [] ∧ cur.getLast? ≠ some 10
  · rw [if_pos hc]
    simp
  · rw [if_neg hc]
    simp only [List.append_nil]
    rw [if_neg hc]
    simp

/-! ## The outcomes of a call, case by case -/

theorem guard_passed {req : EditFileInput} {cur : Bytes}
    (hg : ¬ (req.ExpectHash ≠ [] ∧ req.ExpectHash ≠ fileHash cur)) :
    req.ExpectHash = [] ∨ req.ExpectHash = fileHash cur := by
  by_cases h1 : req.ExpectHash = []
  · exact Or.inl h1
  · exact Or.inr (by_contra fun h2 => hg ⟨h1, h2⟩)

/-- A call that returns a result either changed nothing and only read the file, or
passed the hash guard, computed a new content with another hash and wrote it. -/
theorem EditFile_ok_cases {req : EditFileInput} {fs : FS} {r : EditResult}
    (hres : (EditFile req fs).result = Except.ok r) :
    ∃ p cur, checkRequest req = Except.ok p ∧ currentContent fs p = some cur ∧
      ((r.Changed = false ∧ EditFile req fs = ⟨Except.ok r, fs, [FsOp.read p]⟩) ∨
       (∃ new n fs1 ops, (req.ExpectHash = [] ∨ req.ExpectHash = fileHash cur) ∧
          applyMode req cur (fileHash cur) = ModeStep.candidate new n ∧
          fileHash new ≠ fileHash cur ∧ writeBack fs p new = (Except.ok (), fs1, ops) ∧
          r.Changed = true ∧ EditFile req fs = ⟨Except.ok r, fs1, FsOp.read p :: ops⟩)) := by
  cases hv : checkRequest req with
  | error e => rw [EditFile_check_error fs hv] at hres; simp at hres
  | ok p =>
    cases hr : currentContent fs p with
    | none => rw [EditFile_read_failed hv hr] at hres; simp at hres
    | some cur =>
      refine ⟨p, cur, rfl, hr, ?_⟩
      by_cases hg : req.ExpectHash ≠ [] ∧ req.ExpectHash ≠ fileHash cur
      · have he := EditFile_hash_mismatch hv hr hg.1 hg.2
        rw [he] at hres
        simp only [Except.ok.injEq] at hres
        subst hres
        exact Or.inl ⟨rfl, he⟩
      · have hh := guard_passed hg
        cases hs : applyMode req cur (fileHash cur) with
        | done r1 =>
          have he := EditFile_done hv hr hh hs
          rw [he] at hres
          simp only [Except.ok.injEq] at hres
          subst hres
          exact Or.inl ⟨(applyMode_done hs).1, he⟩
        | candidate new n =>
          by_cases hd : fileHash new = fileHash cur
          · have he := EditFile_same_hash hv hr hh hs hd
            rw [he] at hres
            simp only [Except.ok.injEq] at hres
            subst hres
            exact Or.inl ⟨rfl, he⟩
          · rcases hw : writeBack fs p new with ⟨res, fs1, ops⟩
            cases res with
            | error e => rw [EditFile_write_error hv hr hh hs hd hw] at hres; simp at hres
            | ok u =>
              have he := EditFile_write_ok hv hr hh hs hd hw
              rw [he] at hres
              simp only [Except.ok.injEq] at hres
              subst hres
              exact Or.inr ⟨new, n, fs1, ops, hh, rfl, hd, hw, rfl, he⟩

/-- Every call that `EditFile` makes to the operating system is the read of the
checked path, or belongs to the write-back to that path. -/
theorem EditFile_ops_cases {req : EditFileInput} {fs : FS} {op : FsOp}
    (h : op ∈ (EditFile req fs).ops) :
    ∃ p, checkRequest req = Except.ok p ∧
      (op = FsOp.read p ∨ ∃ c, op ∈ (writeBack fs p c).2.2) := by
  cases hv : checkRequest req with
  | error e => rw [EditFile_check_error fs hv] at h; simp at h
  | ok p =>
    refine ⟨p, rfl, ?_⟩
    cases hr : currentContent fs p with
    | none => rw [EditFile_read_failed hv hr] at h; simp at h; exact Or.inl h
    | some cur =>
      by_cases hg : req.ExpectHash ≠ [] ∧ req.ExpectHash ≠ fileHash cur
      · rw [EditFile_hash_mismatch hv hr hg.1 hg.2] at h; simp at h; exact Or.inl h
      · have hh := guard_passed hg
        cases hs : applyMode req cur (fileHash cur) with
        | done r1 => rw [EditFile_done hv hr hh hs] at h; simp at h; exact Or.inl h
        | candidate new n =>
          by_cases hd : fileHash new = fileHash cur
          · rw [EditFile_same_hash hv hr hh hs hd] at h; simp at h; exact Or.inl h
          · rcases hw : writeBack fs p new with ⟨res, fs1, ops⟩
            have hops : (writeBack fs p new).2.2 = ops := by rw [hw]
            cases res with
            | error e =>
              rw [EditFile_write_error hv hr hh hs hd hw] at h
              simp only [List.mem_cons] at h
              rcases h with h | h
              · exact Or.inl h
              · exact Or.inr ⟨new, by rw [hops]; exact h⟩
            | ok u =>
              rw [EditFile_write_ok hv hr hh hs hd hw] at h
              simp only [List.mem_cons] at h
              rcases h with h | h
              · exact Or.inl h
              · exact Or.inr ⟨new, by rw [hops]; exact h⟩

/-- A request that passes the checks has a path that `safePath` accepts. -/
theorem safePath_of_checkRequest {req : EditFileInput} {p : Bytes}
    (hv : checkRequest req = Except.ok p) : safePath req.Path = Except.ok p := by
  unfold checkRequest at hv
  split at hv
  · simp at hv
  · split at hv
    · simp at hv
    · split at hv
      · simp at hv
      · exact hv

theorem oldStr_of_checkRequest {req : EditFileInput} {p : Bytes}
    (hv : checkRequest req = Except.ok p) (hm : req.Mode = ModeReplaceOnce) :
    req.OldStr ≠ [] := by
  unfold checkRequest at hv
  split at hv
  · simp at hv
  · split at hv
    · simp at hv
    · rename_i h2
      exact fun h => h2 ⟨hm, h⟩

/-- What `safePath` accepts is the cleaned path, not absolute and not beginning with
two dots. -/
theorem safePath_ok {x p : Bytes} (h : safePath x = Except.ok p) :
    p = filepathClean x ∧ stringsHasPrefix p (str "..") = false ∧ filepathIsAbs p = false := by
  unfold safePath at h
  simp only at h
  split at h
  · simp at h
  · rename_i hn
    simp only [Except.ok.injEq] at h
    subst h
    simpa using hn

theorem applyMode_write_full {req : EditFileInput} (cur oldHash : Bytes)
    (hm : req.Mode = ModeWriteFull) :
    applyMode req cur oldHash = ModeStep.candidate req.NewStr 0 := by
  simp [applyMode, hm]

theorem applyMode_append {req : EditFileInput} (cur oldHash : Bytes)
    (hm : req.Mode = ModeAppend) :
    applyMode req cur oldHash =
      ModeStep.candidate (specAppendCandidate req.EnsureNL cur req.NewStr) 0 := by
  have h1 : ModeAppend ≠ ModeWriteFull := by decide
  unfold applyMode specAppendCandidate
  rw [if_neg (by rw [hm]; exact h1), if_pos hm]
  by_cases hc : req.EnsureNL = true ∧ cur ≠ [] ∧ cur.getLast? ≠ some 10
  · have hc2 : req.EnsureNL = true ∧ 0 < cur.length ∧ cur.getLast? ≠ some 10 :=
      ⟨hc.1, List.length_pos.mpr hc.2.1, hc.2.2⟩
    rw [if_pos hc, if_pos hc2]
  · have hc2 : ¬ (req.EnsureNL = true ∧ 0 < cur.length ∧ cur.getLast? ≠ some 10) :=
      fun h => hc ⟨h.1, List.length_pos.mp h.2.1, h.2.2⟩
    rw [if_neg hc, if_neg hc2]
    simp

theorem applyMode_mismatch {req : EditFileInput} (cur oldHash : Bytes)
    (hm : req.Mode = ModeReplaceOnce)
    (hc : (stringsCount cur req.OldStr : Int) ≠ expectCount req) :
    applyMode req cur oldHash =
      ModeStep.done ⟨false, oldHash, oldHash, 0,
        str "match_count_mismatch: have=" ++ fmtInt (stringsCount cur req.OldStr) ++
          str " expect=" ++ fmtInt (expectCount req)⟩ := by
  have h1 : ModeReplaceOnce ≠ ModeWriteFull := by decide
  have h2 : ModeReplaceOnce ≠ ModeAppend := by decide
  unfold applyMode
  rw [if_neg (by rw [hm]; exact h1), if_neg (by rw [hm]; exact h2), if_pos hm]
  simp only
  rw [if_pos hc]

theorem applyMode_match {req : EditFileInput} (cur oldHash : Bytes)
    (hm : req.Mode = ModeReplaceOnce)
    (hc : (stringsCount cur req.OldStr : Int) = expectCount req) :
    applyMode req cur oldHash =
      if stringsReplace cur req.OldStr req.NewStr (expectCount req) = cur then
        ModeStep.done ⟨false, oldHash, oldHash, 0, str "no_change"⟩
      else ModeStep.candidate (stringsReplace cur req.OldStr req.NewStr (expectCount req))
        (expectCount req) := by
  have h1 : ModeReplaceOnce ≠ ModeWriteFull := by decide
  have h2 : ModeReplaceOnce ≠ ModeAppend := by decide
  unfold applyMode
  rw [if_neg (by rw [hm]; exact h1), if_neg (by rw [hm]; exact h2), if_pos hm]
  simp only
  rw [if_neg (not_not.mpr hc)]

theorem finalMessage_write_full {req : EditFileInput} {a b : Bytes}
    (hm : req.Mode = ModeWriteFull) (h : b ≠ a) : finalMessage req a b = str "wrote_full" := by
  simp [finalMessage, h, hm]

theorem finalMessage_append {req : EditFileInput} {a b : Bytes}
    (hm : req.Mode = ModeAppend) (h : b ≠ a) : finalMessage req a b = str "appended" := by
  have h1 : ModeAppend ≠ ModeWriteFull := by decide
  unfold finalMessage
  rw [if_neg h, if_neg (by rw [hm]; exact h1), if_pos hm]

theorem finalMessage_replace {req : EditFileInput} {a b : Bytes}
    (hm : req.Mode = ModeReplaceOnce) (h : b ≠ a) : finalMessage req a b = str "replaced" := by
  have h1 : ModeReplaceOnce ≠ ModeWriteFull := by decide
  have h2 : ModeReplaceOnce ≠ ModeAppend := by decide
  unfold finalMessage
  rw [if_neg h, if_neg (by rw [hm]; exact h1), if_neg (by rw [hm]; exact h2)]

/-! ## `strings.Count` and `strings.Replace` against a left-to-right scan -/

theorem stringsIndex_nil_of_ne {sub : Bytes} (h : sub ≠ []) : stringsIndex sub [] = none := by
  cases sub with
  | nil => exact absurd rfl h
  | cons a t => simp [stringsIndex, List.isPrefixOf]

/-- An occurrence found by `Index` lies inside the string. -/
theorem stringsIndex_bound {sub : Bytes} :
    ∀ {s : Bytes} {j : Nat}, stringsIndex sub s = some j → j + sub.length ≤ s.length := by
  intro s
  induction s with
  | nil =>
    intro j h
    unfold stringsIndex at h
    split at h
    · rename_i hp
      have := (List.isPrefixOf_iff_prefix.mp hp).length_le
      simp only [Option.some.injEq] at h
      subst h
      simpa using this
    · simp at h
  | cons c t ih =>
    intro j h
    unfold stringsIndex at h
    split at h
    · rename_i hp
      have := (List.isPrefixOf_iff_prefix.mp hp).length_le
      simp only [Option.some.injEq] at h
      subst h
      simpa using this
    · cases hi : stringsIndex sub t with
      | none => simp [hi] at h
      | some k =>
        simp only [hi, Option.map_some', Option.some.injEq] at h
        subst h
        have := ih hi
        simp only [List.length_cons]
        omega

/-- With enough fuel the loop of `Count` does not depend on the fuel: it ends by
finding no further occurrence. -/
theorem countLoop_fuel {sub : Bytes} (hsub : sub ≠ []) :
    ∀ (fuel : Nat) (s : Bytes) (n : Nat), s.length < fuel →
      countLoop sub fuel s n = n + countLoop sub (s.length + 1) s 0 := by
  intro fuel
  induction fuel using Nat.strong_induction_on with
  | _ fuel ih =>
    intro s n hlt
    cases fuel with
    | zero => omega
    | succ f =>
      cases hi : stringsIndex sub s with
      | none => simp [countLoop, hi]
      | some i =>
        have hb := stringsIndex_bound hi
        have hpos : 0 < sub.length := List.length_pos.mpr hsub
        have hd : (s.drop (i + sub.length)).length < s.length := by
          simp only [List.length_drop]; omega
        simp only [countLoop, hi]
        rw [ih f (Nat.lt_succ_self f) _ (n + 1) (by omega),
          ih s.length (by omega) _ (0 + 1) hd]
        omega

theorem stringsCount_of_index_none {sub s : Bytes} (hsub : sub ≠ [])
    (h : stringsIndex sub s = none) : stringsCount s sub = 0 := by
  simp [stringsCount, hsub, countLoop, h]

theorem stringsCount_of_index_some {sub s : Bytes} {j : Nat} (hsub : sub ≠ [])
    (h : stringsIndex sub s = some j) :
    stringsCount s sub = stringsCount (s.drop (j + sub.length)) sub + 1 := by
  have hb := stringsIndex_bound h
  have hpos : 0 < sub.length := List.length_pos.mpr hsub
  have hd : (s.drop (j + sub.length)).length < s.length := by
    simp only [List.length_drop]; omega
  have e1 : stringsCount s sub = countLoop sub (s.length + 1) s 0 := by
    simp [stringsCount, hsub]
  have e2 : stringsCount (s.drop (j + sub.length)) sub =
      countLoop sub ((s.drop (j + sub.length)).length + 1) (s.drop (j + sub.length)) 0 := by
    simp [stringsCount, hsub]
  have e3 : countLoop sub (s.length + 1) s 0 =
      countLoop sub s.length (s.drop (j + sub.length)) (0 + 1) := by
    rw [countLoop]
    simp only [h]
  rw [e1, e2, e3, countLoop_fuel hsub s.length _ (0 + 1) hd]
  omega

theorem specReplaceScan_skip (old new : Bytes) :
    ∀ (k : Nat) (s : Bytes), specReplaceScan old new k s = specReplaceScan old new 0 (s.drop k) := by
  intro k
  induction k with
  | zero => intro s; simp
  | succ k ih =>
    intro s
    cases s with
    | nil => simp [specReplaceScan]
    | cons c t => simp [specReplaceScan, ih]

theorem specReplaceScan_of_index_none {old new : Bytes} :
    ∀ {s : Bytes}, stringsIndex old s = none → specReplaceScan old new 0 s = s := by
  intro s
  induction s with
  | nil => intro _; simp [specReplaceScan]
  | cons c t ih =>
    intro h
    unfold stringsIndex at h
    split at h
    · simp at h
    · rename_i hp
      have ht : stringsIndex old t = none := by
        cases hi : stringsIndex old t with
        | none => rfl
        | some k => simp [hi] at h
      simp [specReplaceScan, hp, ih ht]

theorem specReplaceScan_of_index_some {old new : Bytes} (hold : old ≠ []) :
    ∀ {s : Bytes} {j : Nat}, stringsIndex old s = some j →
      specReplaceScan old new 0 s =
        s.take j ++ new ++ specReplaceScan old new 0 (s.drop (j + old.length)) := by
  intro s
  induction s with
  | nil => intro j h; rw [stringsIndex_nil_of_ne hold] at h; simp at h
  | cons c t ih =>
    intro j h
    unfold stringsIndex at h
    split at h
    · rename_i hp
      simp only [Option.some.injEq] at h
      subst h
      have hpos : 0 < old.length := List.length_pos.mpr hold
      have hl : old.length = (old.length - 1) + 1 := by omega
      simp only [specReplaceScan, hp, if_true, List.take_zero, List.nil_append, Nat.zero_add]
      rw [specReplaceScan_skip old new (old.length - 1) t]
      conv_rhs => rw [hl, List.drop_succ_cons]
    · rename_i hp
      cases hi : stringsIndex old t with
      | none => simp [hi] at h
      | some k =>
        simp only [hi, Option.map_some', Option.some.injEq] at h
        subst h
        simp [specReplaceScan, hp, ih hi, Nat.add_right_comm k 1 old.length]

/-- The loop of `Replace`, run as many times as `Count` counts, replaces every
occurrence that a scan from left to right meets. -/
theorem replaceLoop_eq_scan {old new : Bytes} (hold : old ≠ []) :
    ∀ (n : Nat) (s : Bytes), stringsCount s old = n →
      replaceLoop old new n s = specReplaceScan old new 0 s := by
  intro n
  induction n with
  | zero =>
    intro s hc
    cases hi : stringsIndex old s with
    | none => simp [replaceLoop, specReplaceScan_of_index_none hi]
    | some j => rw [stringsCount_of_index_some hold hi] at hc; omega
  | succ n ih =>
    intro s hc
    cases hi : stringsIndex old s with
    | none => rw [stringsCount_of_index_none hold hi] at hc; omega
    | some j =>
      rw [stringsCount_of_index_some hold hi] at hc
      simp only [replaceLoop, hi]
      rw [ih _ (by omega), specReplaceScan_of_index_some hold hi]

/-- What `Index` finds is an occurrence. -/
theorem stringsIndex_prefix {sub : Bytes} :
    ∀ {s : Bytes} {j : Nat}, stringsIndex sub s = some j → sub <+: s.drop j := by
  intro s
  induction s with
  | nil =>
    intro j h
    unfold stringsIndex at h
    split at h
    · rename_i hp
      simp only [Option.some.injEq] at h
      subst h
      exact List.isPrefixOf_iff_prefix.mp hp
    · simp at h
  | cons c t ih =>
    intro j h
    unfold stringsIndex at h
    split at h
    · rename_i hp
      simp only [Option.some.injEq] at h
      subst h
      exact List.isPrefixOf_iff_prefix.mp hp
    · cases hi : stringsIndex sub t with
      | none => simp [hi] at h
      | some k =>
        simp only [hi, Option.map_some', Option.some.injEq] at h
        subst h
        simpa using ih hi

theorem specReplaceScan_same (old : Bytes) (hold : old ≠ []) :
    ∀ (m : Nat) (s : Bytes), s.length ≤ m → specReplaceScan old old 0 s = s := by
  intro m
  induction m with
  | zero =>
    intro s hs
    have : s = [] := List.length_eq_zero.mp (by omega)
    subst this
    simp [specReplaceScan]
  | succ m ih =>
    intro s hs
    cases hi : stringsIndex old s with
    | none => exact specReplaceScan_of_index_none hi
    | some j =>
      have hb := stringsIndex_bound hi
      have hpos : 0 < old.length := List.length_pos.mpr hold
      rw [specReplaceScan_of_index_some hold hi, ih _ (by simp only [List.length_drop]; omega)]
      obtain ⟨u, hu⟩ := stringsIndex_prefix hi
      have h1 : s.drop (j + old.length) = u := by
        have : s.drop (j + old.length) = (s.drop j).drop old.length := by
          rw [List.drop_drop, Nat.add_comm]
        rw [this, ← hu]
        simp
      rw [h1, List.append_assoc, hu, List.take_append_drop]

/-- The text that `EditFile` computes when the count is the expected one is the
content with every occurrence met from left to right replaced. -/
theorem stringsReplace_eq_scan {s old new : Bytes} {n : Int} (hold : old ≠ [])
    (hc : (stringsCount s old : Int) = n) :
    stringsReplace s old new n = specReplaceScan old new 0 s := by
  unfold stringsReplace
  split
  · rename_i h
    rcases h with h | h
    · subst h
      exact (specReplaceScan_same old hold s.length s (Nat.le_refl _)).symm
    · subst h
      have h0 : stringsCount s old = 0 := by exact_mod_cast hc
      exact @replaceLoop_eq_scan old new hold 0 s h0
  · simp only
    split
    · rename_i h0
      exact @replaceLoop_eq_scan old new hold 0 s h0
    · have hk : (if n < 0 ∨ (stringsCount s old : Int) < n then stringsCount s old else n.toNat) =
          stringsCount s old := by
        split
        · rfl
        · rw [← hc]; simp
      rw [hk]
      exact replaceLoop_eq_scan hold _ s rfl

/-! ## Paths -/

/-- The segments of a path start with a prefix of the path. -/
theorem splitSep_head (s : Bytes) : ∃ h t, splitSep s = h :: t ∧ h <+: s := by
  induction s with
  | nil => exact ⟨[], [], rfl, List.prefix_refl _⟩
  | cons c t ih =>
    obtain ⟨h, r, hs, hp⟩ := ih
    by_cases hc : c = 47
    · exact ⟨[], splitSep t, by simp [splitSep, hc], List.nil_prefix⟩
    · refine ⟨c :: h, r, by simp [splitSep, hc, hs], ?_⟩
      obtain ⟨u, hu⟩ := hp
      exact ⟨u, by simp [hu]⟩


/-! ## The normal form of cleaned paths -/

theorem joinSep_snoc (rs : List Bytes) (r : Bytes) (h : rs ≠ []) :
    joinSep (rs ++ [r]) = joinSep rs ++ 47 :: r := by
  induction rs with
  | nil => exact absurd rfl h
  | cons a t ih =>
    cases t with
    | nil => simp [joinSep]
    | cons b u =>
      have := ih (by simp)
      simp only [List.cons_append] at this
      have e1 : joinSep (a :: b :: (u ++ [r])) = a ++ 47 :: joinSep (b :: (u ++ [r])) := rfl
      have e2 : joinSep (a :: b :: u) = a ++ 47 :: joinSep (b :: u) := rfl
      simp only [List.cons_append]
      rw [e1, e2, this]
      simp

theorem splitSep_no_sep : ∀ (s : Bytes), ∀ seg ∈ splitSep s, 47 ∉ seg := by
  intro s
  induction s with
  | nil => intro seg h; simp [splitSep] at h; subst h; simp
  | cons c t ih =>
    intro seg h
    by_cases hc : c = 47
    · simp only [splitSep, hc, if_true, List.mem_cons] at h
      rcases h with h | h
      · subst h; simp
      · exact ih seg h
    · simp only [splitSep, hc, if_false] at h
      cases hs : splitSep t with
      | nil => simp [hs] at h; subst h; simpa using Ne.symm hc
      | cons a u =>
        simp only [hs, List.mem_cons] at h
        rcases h with h | h
        · subst h
          have := ih a (by simp [hs])
          simp only [List.mem_cons, not_or]
          exact ⟨Ne.symm hc, this⟩
        · exact ih seg (by simp [hs, h])

theorem splitSep_append_sep (s t : Bytes) (h : 47 ∉ s) :
    splitSep (s ++ 47 :: t) = s :: splitSep t := by
  induction s with
  | nil => simp [splitSep]
  | cons c u ih =>
    have hc : c ≠ 47 := fun e => h (by simp [e])
    have hu : 47 ∉ u := fun e => h (by simp [e])
    simp [splitSep, hc, ih hu]

theorem splitSep_joinSep_sep (rs : List Bytes) (hne : rs ≠ []) (h : ∀ r ∈ rs, 47 ∉ r) :
    splitSep (joinSep rs ++ [47]) = rs ++ [[]] := by
  induction rs with
  | nil => exact absurd rfl hne
  | cons a t ih =>
    cases t with
    | nil =>
      simp only [joinSep]
      rw [splitSep_append_sep a [] (h a (by simp))]
      simp [splitSep]
    | cons b u =>
      have := ih (by simp) (fun r hr => h r (by simp [hr]))
      simp only [joinSep, List.cons_append, List.append_assoc] at this ⊢
      rw [splitSep_append_sep a _ (h a (by simp)), this]

/-- The backtracking loop without a lower bound, on an element without separator:
the whole element goes. -/
theorem backLoop_no_sep (r : Bytes) (h : 47 ∉ r) :
    ∀ w, w < r.length → backLoop r 0 w = 0 := by
  intro w
  induction w with
  | zero => intro _; rfl
  | succ w ih =>
    intro hw
    have hg : r.getD (w + 1) 0 ≠ 47 := by
      rw [List.getD_eq_getElem _ _ hw]
      intro e
      exact h (e ▸ List.getElem_mem _)
    simp only [backLoop, Nat.zero_lt_succ, hg, ne_eq, not_false_eq_true, and_self, if_true]
    exact ih (by omega)

/-- The backtracking loop without a lower bound stops at the last separator. -/
theorem backLoop_last_sep (a r : Bytes) (h : 47 ∉ r) :
    ∀ k, k ≤ r.length → backLoop (a ++ 47 :: r) 0 (a.length + k) = a.length := by
  intro k
  induction k with
  | zero =>
    intro _
    cases ha : a.length with
    | zero => rfl
    | succ n =>
      have hg : (a ++ 47 :: r).getD (n + 1) 0 = 47 := by
        rw [← ha, List.getD_append_right _ _ _ _ (Nat.le_refl _)]
        simp
      simp only [backLoop, hg]
      simp
  | succ k ih =>
    intro hk
    have hg : (a ++ 47 :: r).getD (a.length + (k + 1)) 0 ≠ 47 := by
      have hlt : k < r.length := by omega
      have : (a ++ 47 :: r).getD (a.length + (k + 1)) 0 = r[k] := by
        rw [List.getD_append_right _ _ _ _ (by omega)]
        have e : a.length + (k + 1) - a.length = k + 1 := by omega
        rw [e, List.getD_cons_succ, List.getD_eq_getElem _ _ hlt]
      rw [this]
      intro e
      exact h (e ▸ List.getElem_mem _)
    have : a.length + (k + 1) = (a.length + k) + 1 := by omega
    rw [this] at hg ⊢
    simp only [backLoop, Nat.zero_lt_succ, hg, ne_eq, not_false_eq_true, and_self, if_true]
    exact ih (by omega)

/-- The backtracking loop does not go below `dotdot`. -/
theorem backLoop_ge (out : Bytes) (dotdot : Nat) :
    ∀ w, dotdot ≤ w → dotdot ≤ backLoop out dotdot w := by
  intro w
  induction w with
  | zero => intro h; simpa [backLoop] using h
  | succ w ih =>
    intro h
    unfold backLoop
    split
    · rename_i hc
      exact ih (by omega)
    · exact h

theorem backLoop_le (out : Bytes) (dotdot : Nat) : ∀ w, backLoop out dotdot w ≤ w := by
  intro w
  induction w with
  | zero => simp [backLoop]
  | succ w ih =>
    unfold backLoop
    split
    · omega
    · exact Nat.le_refl _

theorem joinSep_ne_nil {rs : List Bytes} (hne : rs ≠ []) (h : ∀ r ∈ rs, isElement r) :
    joinSep rs ≠ [] := by
  cases rs with
  | nil => exact absurd rfl hne
  | cons a t =>
    have ha : a ≠ [] := (h a (by simp)).1
    cases t with
    | nil => simpa [joinSep] using ha
    | cons b u => simp [joinSep, ha]

theorem joinSep_head {rs : List Bytes} (hne : rs ≠ []) (h : ∀ r ∈ rs, isElement r) :
    (joinSep rs).head? ≠ some 47 := by
  cases rs with
  | nil => exact absurd rfl hne
  | cons a t =>
    have ha := h a (by simp)
    cases a with
    | nil => exact absurd rfl ha.1
    | cons c v =>
      have hc : c ≠ 47 := fun e => ha.2.2.2 (by simp [e])
      cases t with
      | nil => simpa [joinSep] using hc
      | cons b u => simpa [joinSep] using hc

/-- A naming element is appended to a sequence of naming elements. -/
theorem cleanStep_element {rs : List Bytes} {seg : Bytes} (h : ∀ r ∈ rs, isElement r)
    (hs : isElement seg) :
    cleanStep false (joinSep rs, 0) seg = (joinSep (rs ++ [seg]), 0) := by
  have h1 : ¬ (seg = [] ∨ seg = [46]) := not_or.mpr ⟨hs.1, hs.2.1⟩
  unfold cleanStep
  rw [if_neg h1, if_neg hs.2.2.1]
  by_cases hr : rs = []
  · subst hr
    simp [joinSep]
  · have hl : (joinSep rs).length ≠ 0 := by
      intro e
      exact joinSep_ne_nil hr h (List.length_eq_zero.mp e)
    simp [hl, joinSep_snoc rs seg hr]

theorem prefix_take_of_le {out : Bytes} {w : Nat} (h : [46, 46] <+: out) (hw : 2 ≤ w) :
    [46, 46] <+: out.take w := by
  obtain ⟨t, rfl⟩ := h
  obtain ⟨k, rfl⟩ : ∃ k, w = k + 2 := ⟨w - 2, by omega⟩
  exact ⟨t.take k, by simp [List.take_succ_cons]⟩

/-- One turn of `Clean` on a path that is not rooted keeps `cleanInv`. -/
theorem cleanInv_step {st : Bytes × Nat} {seg : Bytes} (hseg : 47 ∉ seg)
    (h : cleanInv st) : cleanInv (cleanStep false st seg) := by
  obtain ⟨out, dd⟩ := st
  by_cases h1 : seg = [] ∨ seg = [46]
  · unfold cleanStep
    rw [if_pos h1]
    exact h
  by_cases h2 : seg = [46, 46]
  · unfold cleanStep
    rw [if_neg h1, if_pos h2]
    rcases h with ⟨hd, rs, hrs, ho⟩ | ⟨hd, hl, hp⟩
    · simp only at hd ho
      subst hd
      by_cases hlen : 0 < out.length
      · simp only [hlen, if_true]
        left
        refine ⟨rfl, ?_⟩
        have hne : rs ≠ [] := by
          intro e
          subst e
          simp [ho, joinSep] at hlen
        rcases List.eq_nil_or_concat rs with e | ⟨rs1, r, e⟩
        · exact absurd e hne
        · rw [List.concat_eq_append] at e
          subst e
          have hr : isElement r := hrs r (by simp)
          have hrs1 : ∀ x ∈ rs1, isElement x := fun x hx => hrs x (by simp [hx])
          refine ⟨rs1, hrs1, ?_⟩
          by_cases e1 : rs1 = []
          · subst e1
            simp only [List.nil_append, joinSep] at ho
            subst ho
            have hpos : out.length - 1 < out.length := by omega
            simp [backLoop_no_sep out hr.2.2.2 _ hpos, joinSep]
          · rw [joinSep_snoc rs1 r e1] at ho
            subst ho
            have e2 : (joinSep rs1 ++ 47 :: r).length - 1 = (joinSep rs1).length + r.length := by
              simp
            show List.take (backLoop (joinSep rs1 ++ 47 :: r) 0
              ((joinSep rs1 ++ 47 :: r).length - 1)) (joinSep rs1 ++ 47 :: r) = joinSep rs1
            rw [e2, backLoop_last_sep (joinSep rs1) r hr.2.2.2 r.length (Nat.le_refl _)]
            simp
      · have ho2 : out = [] := List.length_eq_zero.mp (by omega)
        subst ho2
        right
        simp
    · simp only at hd hl hp
      by_cases hlen : dd < out.length
      · simp only [hlen, if_true]
        right
        have hge := backLoop_ge out dd (out.length - 1) (by omega)
        have hle := backLoop_le out dd (out.length - 1)
        refine ⟨hd, ?_, prefix_take_of_le hp (by omega)⟩
        simp only [List.length_take]
        omega
      · simp only [hlen, if_false]
        right
        have hpos : 0 < out.length := by omega
        simp only [Bool.false_eq_true, if_false, hpos, if_true]
        refine ⟨by simp, Nat.le_refl _, ?_⟩
        obtain ⟨t, rfl⟩ := hp
        exact ⟨t ++ [47] ++ [46, 46], by simp⟩
  · rcases h with ⟨hd, rs, hrs, ho⟩ | ⟨hd, hl, hp⟩
    · simp only at hd ho
      subst hd
      subst ho
      have hel : isElement seg := ⟨fun e => h1 (Or.inl e), fun e => h1 (Or.inr e), h2, hseg⟩
      rw [cleanStep_element hrs hel]
      left
      refine ⟨rfl, rs ++ [seg], ?_, rfl⟩
      intro r hr
      rcases List.mem_append.mp hr with hr | hr
      · exact hrs r hr
      · simp only [List.mem_singleton] at hr
        subst hr
        exact hel
    · simp only at hd hl hp
      unfold cleanStep
      rw [if_neg h1, if_neg h2]
      right
      have hpos : out.length ≠ 0 := by omega
      simp only [Bool.false_eq_true, false_and, not_false_eq_true, true_and, false_or, hpos,
        ne_eq, if_true]
      refine ⟨hd, by simp only [List.length_append]; omega, ?_⟩
      obtain ⟨t, rfl⟩ := hp
      exact ⟨t ++ [47] ++ seg, by simp⟩

theorem cleanInv_foldl :
    ∀ (segs : List Bytes) (st : Bytes × Nat), (∀ s ∈ segs, 47 ∉ s) → cleanInv st →
      cleanInv (segs.foldl (cleanStep false) st) := by
  intro segs
  induction segs with
  | nil => intro st _ h; exact h
  | cons a t ih =>
    intro st hs h
    simp only [List.foldl_cons]
    exact ih _ (fun s hm => hs s (by simp [hm])) (cleanInv_step (hs a (by simp)) h)

/-- One turn of `Clean` on a rooted path keeps the leading separator. -/
theorem cleanStep_rooted {st : Bytes × Nat} (seg : Bytes)
    (h : st.2 = 1 ∧ st.1.head? = some 47) :
    (cleanStep true st seg).2 = 1 ∧ (cleanStep true st seg).1.head? = some 47 := by
  obtain ⟨out, dd⟩ := st
  obtain ⟨hd, hh⟩ := h
  simp only at hd hh
  subst hd
  have hne : out ≠ [] := by
    intro e
    subst e
    simp at hh
  unfold cleanStep
  split
  · exact ⟨rfl, hh⟩
  · split
    · split
      · rename_i hlen
        simp only at hlen
        have hge := backLoop_ge out 1 (out.length - 1) (by omega)
        refine ⟨rfl, ?_⟩
        simp only [List.head?_take]
        rw [if_neg (by omega)]
        exact hh
      · exact ⟨rfl, hh⟩
    · refine ⟨rfl, ?_⟩
      simp only
      split
      · rw [List.append_assoc, List.head?_append_of_ne_nil _ hne]
        exact hh
      · rw [List.head?_append_of_ne_nil _ hne]
        exact hh

theorem foldl_cleanStep_rooted :
    ∀ (segs : List Bytes) (st : Bytes × Nat), (st.2 = 1 ∧ st.1.head? = some 47) →
      (segs.foldl (cleanStep true) st).1.head? = some 47 := by
  intro segs
  induction segs with
  | nil => intro st h; exact h.2
  | cons a t ih =>
    intro st h
    simp only [List.foldl_cons]
    exact ih _ (cleanStep_rooted a h)

/-- Cleaning a rooted path gives an absolute path. -/
theorem filepathClean_rooted {x : Bytes} (h : x.head? = some 47) :
    filepathIsAbs (filepathClean x) = true := by
  have hx : x ≠ [] := by
    intro e
    subst e
    simp at h
  have hf := foldl_cleanStep_rooted (splitSep x) ([47], 1) ⟨rfl, rfl⟩
  unfold filepathClean
  rw [if_neg hx]
  simp only [h, if_true, decide_True]
  have hne : ((splitSep x).foldl (cleanStep true) ([47], 1)).1 ≠ [] := by
    intro e
    rw [e] at hf
    simp at hf
  rw [if_neg hne]
  unfold filepathIsAbs stringsHasPrefix
  cases hout : ((splitSep x).foldl (cleanStep true) ([47], 1)).1 with
  | nil => exact absurd hout hne
  | cons c u =>
    rw [hout] at hf
    simp only [List.head?_cons, Option.some.injEq] at hf
    subst hf
    simp [List.isPrefixOf]

/-- The normal form: a cleaned path that is not rooted begins with `..`, or is `.`,
or is a sequence of naming elements joined by separators. -/
theorem filepathClean_normal {x : Bytes} (h : x.head? ≠ some 47) :
    stringsHasPrefix (filepathClean x) (str "..") = true ∨
      ∃ rs : List Bytes, (∀ r ∈ rs, isElement r) ∧
        filepathClean x = if rs = [] then [46] else joinSep rs := by
  by_cases hx : x = []
  · subst hx
    exact Or.inr ⟨[], by simp, by simp [filepathClean]⟩
  · have hinv := cleanInv_foldl (splitSep x) ([], 0) (splitSep_no_sep x)
      (Or.inl ⟨rfl, [], by simp, rfl⟩)
    unfold filepathClean
    rw [if_neg hx]
    simp only [h, if_false, decide_False, Bool.false_eq_true]
    rcases hinv with ⟨_, rs, hrs, ho⟩ | ⟨hd, hl, hp⟩
    · right
      refine ⟨rs, hrs, ?_⟩
      rw [ho]
      by_cases hr : rs = []
      · subst hr
        simp [joinSep]
      · rw [if_neg (joinSep_ne_nil hr hrs), if_neg hr]
    · left
      have hne : ((splitSep x).foldl (cleanStep false) ([], 0)).1 ≠ [] := by
        intro e
        rw [e] at hl
        simp at hl
        omega
      rw [if_neg hne]
      unfold stringsHasPrefix
      exact List.isPrefixOf_iff_prefix.mpr hp

theorem foldl_cleanStep_elements :
    ∀ (segs acc : List Bytes), (∀ r ∈ acc, isElement r) → (∀ r ∈ segs, isElement r) →
      segs.foldl (cleanStep false) (joinSep acc, 0) = (joinSep (acc ++ segs), 0) := by
  intro segs
  induction segs with
  | nil => intro acc _ _; simp
  | cons a t ih =>
    intro acc hacc hs
    simp only [List.foldl_cons]
    rw [cleanStep_element hacc (hs a (by simp)), ih (acc ++ [a])]
    · simp
    · intro r hr
      rcases List.mem_append.mp hr with hr | hr
      · exact hacc r hr
      · simp only [List.mem_singleton] at hr
        subst hr
        exact hs r (by simp)
    · exact fun r hr => hs r (by simp [hr])

/-- Cleaning a sequence of naming elements followed by a separator gives the
sequence. -/
theorem filepathClean_joinSep_sep {rs : List Bytes} (hne : rs ≠ [])
    (h : ∀ r ∈ rs, isElement r) : filepathClean (joinSep rs ++ [47]) = joinSep rs := by
  have hx : joinSep rs ++ [47] ≠ [] := by simp
  have hhead : (joinSep rs ++ [47]).head? ≠ some 47 := by
    rw [List.head?_append_of_ne_nil _ (joinSep_ne_nil hne h)]
    exact joinSep_head hne h
  unfold filepathClean
  rw [if_neg hx]
  simp only [hhead, if_false, decide_False, Bool.false_eq_true]
  rw [splitSep_joinSep_sep rs hne (fun r hr => (h r hr).2.2.2), List.foldl_append]
  have := foldl_cleanStep_elements rs [] (by simp) h
  simp only [joinSep, List.nil_append] at this
  rw [this]
  simp [cleanStep, joinSep_ne_nil hne h]

theorem dropWhile_no_sep (l rest : Bytes) (h : 47 ∉ l) :
    (l ++ 47 :: rest).dropWhile (· ≠ 47) = 47 :: rest := by
  induction l with
  | nil => simp
  | cons c u ih =>
    have hc : decide (c ≠ 47) = true := decide_eq_true (fun e => h (by simp [e]))
    have hu : 47 ∉ u := fun e => h (by simp [e])
    rw [List.cons_append, List.dropWhile_cons, if_pos hc]
    exact ih hu

theorem dropWhile_no_sep_all (l : Bytes) (h : 47 ∉ l) : l.dropWhile (· ≠ 47) = [] := by
  induction l with
  | nil => simp
  | cons c u ih =>
    have hc : decide (c ≠ 47) = true := decide_eq_true (fun e => h (by simp [e]))
    have hu : 47 ∉ u := fun e => h (by simp [e])
    rw [List.dropWhile_cons, if_pos hc]
    exact ih hu

/-- The directory of a path that `safePath` accepted is `.` or the path without its
last element and the separator before it; it is neither absolute nor begins with
two dots. -/
theorem filepathDir_of_safePath {x p : Bytes} (h : safePath x = Except.ok p) :
    (filepathDir p = [46] ∨ ∃ r, isElement r ∧ p = filepathDir p ++ 47 :: r) ∧
      stringsHasPrefix (filepathDir p) (str "..") = false ∧
      filepathIsAbs (filepathDir p) = false := by
  obtain ⟨hp, hpre, habs⟩ := safePath_ok h
  have hroot : x.head? ≠ some 47 := by
    intro e
    have := filepathClean_rooted e
    rw [← hp, habs] at this
    exact absurd this (by decide)
  have hdot : filepathDir [46] = [46] := by decide
  have hdot1 : stringsHasPrefix [46] (str "..") = false := by decide
  have hdot2 : filepathIsAbs [46] = false := by decide
  rcases filepathClean_normal hroot with hn | ⟨rs, hrs, hn⟩
  · rw [← hp, hpre] at hn
    exact absurd hn (by decide)
  · rw [← hp] at hn
    rcases List.eq_nil_or_concat rs with e | ⟨rs1, r, e⟩
    · subst e
      simp only [if_true] at hn
      subst hn
      rw [hdot]
      exact ⟨Or.inl rfl, hdot1, hdot2⟩
    · rw [List.concat_eq_append] at e
      subst e
      have hr : isElement r := hrs r (by simp)
      have hrs1 : ∀ y ∈ rs1, isElement y := fun y hy => hrs y (by simp [hy])
      rw [if_neg (by simp)] at hn
      by_cases e1 : rs1 = []
      · subst e1
        simp only [List.nil_append, joinSep] at hn
        have hd : filepathDir p = [46] := by
          unfold filepathDir
          rw [hn, dropWhile_no_sep_all r.reverse (by simpa using hr.2.2.2)]
          decide
        rw [hd]
        exact ⟨Or.inl rfl, hdot1, hdot2⟩
      · rw [joinSep_snoc rs1 r e1] at hn
        have hd : filepathDir p = joinSep rs1 := by
          unfold filepathDir
          rw [hn, List.reverse_append, List.reverse_cons, List.append_assoc,
            List.singleton_append,
            dropWhile_no_sep r.reverse _ (by simpa using hr.2.2.2)]
          have : (47 :: (joinSep rs1).reverse).reverse = joinSep rs1 ++ [47] := by simp
          rw [this, filepathClean_joinSep_sep e1 hrs1]
        have hpfx : joinSep rs1 <+: p := ⟨47 :: r, hn.symm⟩
        rw [hd]
        refine ⟨Or.inr ⟨r, hr, hn⟩, ?_, ?_⟩
        · cases hb : stringsHasPrefix (joinSep rs1) (str "..") with
          | false => rfl
          | true =>
            have h1 := List.isPrefixOf_iff_prefix.mp hb
            have h2 : stringsHasPrefix p (str "..") = true :=
              List.isPrefixOf_iff_prefix.mpr (h1.trans hpfx)
            rw [hpre] at h2
            exact absurd h2 (by decide)
        · cases hb : filepathIsAbs (joinSep rs1) with
          | false => rfl
          | true =>
            have h1 := List.isPrefixOf_iff_prefix.mp hb
            have h2 : filepathIsAbs p = true :=
              List.isPrefixOf_iff_prefix.mpr (h1.trans hpfx)
            rw [habs] at h2
            exact absurd h2 (by decide)


/-! ## Idempotence and frame (C1, C2) -/

/-- C1, refuted as stated, in the two modes that read the file they change, without
`expect_hash`. Appending `bar` to the file `notes` (content `foo`) succeeds with
`changed=true`, and the same request against the resulting state succeeds with
`changed=true` again and writes the file a second time, leaving `foo`, `bar`, `bar`
on three lines. Replacing the two `X` of `f.txt` (content `aXbXc`) by `XY` succeeds
with `changed=true` and leaves `aXYbXYc`, in which `X` occurs twice again: the same
request against the resulting state succeeds with `changed=true` again and writes
`aXYYbXYYc`. -/
theorem second_call_changes_again :
    ((EditFile (reqAppend []) fsDemo).result =
        Except.ok ⟨true, str "2c26b46b68ffc68ff99b453c1d30413413422d706483bfa0f98a5e886266e7ae",
          str "807eff6267f3f926a21d234f7b0cf867a86f47e07a532f15e8cc39ed110ca776", 0,
          str "appended"⟩ ∧
      (EditFile (reqAppend []) (EditFile (reqAppend []) fsDemo).fs).result =
        Except.ok ⟨true, str "807eff6267f3f926a21d234f7b0cf867a86f47e07a532f15e8cc39ed110ca776",
          str "d982626498b5f1fcbeb1b008e4bb7770e662c66450b84a04ad766ec44c3f2f5f", 0,
          str "appended"⟩ ∧
      (EditFile (reqAppend []) (EditFile (reqAppend []) fsDemo).fs).ops =
        [FsOp.read (str "notes"), FsOp.write (str "notes") (str "foo\nbar\nbar")] ∧
      (EditFile (reqAppend []) (EditFile (reqAppend []) fsDemo).fs).fs (str "notes") =
        some (Node.file (str "foo\nbar\nbar"))) ∧
    ((EditFile reqGrow fsDemo).result =
        Except.ok ⟨true, fileHash (str "aXbXc"), fileHash (str "aXYbXYc"), 2, str "replaced"⟩ ∧
      (EditFile reqGrow fsDemo).fs (str "f.txt") = some (Node.file (str "aXYbXYc")) ∧
      (EditFile reqGrow (EditFile reqGrow fsDemo).fs).result =
        Except.ok ⟨true, fileHash (str "aXYbXYc"), fileHash (str "aXYYbXYYc"), 2,
          str "replaced"⟩ ∧
      (EditFile reqGrow (EditFile reqGrow fsDemo).fs).ops =
        [FsOp.read (str "f.txt"), FsOp.write (str "f.txt") (str "aXYYbXYYc")] ∧
      (EditFile reqGrow (EditFile reqGrow fsDemo).fs).fs (str "f.txt") =
        some (Node.file (str "aXYYbXYYc"))) := by
  decide

/-- C1, amended. Let a first call return a result, on the checked path `p`, and let
`after` be the content it leaves there. The same request against the state left by
the first call returns a result with `changed=false`, leaves that state as it is
and only reads the file, except when the request has no `expect_hash`, the first call
reported `changed=true`, and the mode is `append` with a `new_str` that is not empty,
or the mode is `replace_once` and `old_str` occurs in `after` the expected number of
times. In these two cases the second call has a candidate of its own, `after` with
`new_str` appended, or `after` with the occurrences of `old_str` replaced; when the
hash of this candidate is not the hash of `after`, the second call never returns
`changed=false`, and when moreover its write-back succeeds, it returns
`changed=true` and the file holds the candidate. -/
theorem EditFile_second_call_no_change (req : EditFileInput) (fs : FS) (r1 : EditResult)
    (h1 : (EditFile req fs).result = Except.ok r1) :
    ∃ p after, checkRequest req = Except.ok p ∧
      currentContent (EditFile req fs).fs p = some after ∧
      (¬ (req.ExpectHash = [] ∧ r1.Changed = true ∧
            ((req.Mode = ModeAppend ∧ req.NewStr ≠ []) ∨
              (req.Mode = ModeReplaceOnce ∧
                (stringsCount after req.OldStr : Int) = expectCount req))) →
        ∃ r2, (EditFile req (EditFile req fs).fs).result = Except.ok r2 ∧
          r2.Changed = false ∧
          (EditFile req (EditFile req fs).fs).fs = (EditFile req fs).fs ∧
          (EditFile req (EditFile req fs).fs).ops = [FsOp.read p]) ∧
      (req.ExpectHash = [] → req.Mode = ModeAppend →
        fileHash (specAppendCandidate req.EnsureNL after req.NewStr) ≠ fileHash after →
        (∀ r2, (EditFile req (EditFile req fs).fs).result = Except.ok r2 → r2.Changed = true) ∧
          ((writeBack (EditFile req fs).fs p
              (specAppendCandidate req.EnsureNL after req.NewStr)).1 = Except.ok () →
            (EditFile req (EditFile req fs).fs).result =
                Except.ok ⟨true, fileHash after,
                  fileHash (specAppendCandidate req.EnsureNL after req.NewStr), 0,
                  str "appended"⟩ ∧
              currentContent (EditFile req (EditFile req fs).fs).fs p =
                some (specAppendCandidate req.EnsureNL after req.NewStr))) ∧
      (req.ExpectHash = [] → req.Mode = ModeReplaceOnce →
        (stringsCount after req.OldStr : Int) = expectCount req →
        fileHash (specReplaceScan req.OldStr req.NewStr 0 after) ≠ fileHash after →
        (∀ r2, (EditFile req (EditFile req fs).fs).result = Except.ok r2 → r2.Changed = true) ∧
          ((writeBack (EditFile req fs).fs p
              (specReplaceScan req.OldStr req.NewStr 0 after)).1 = Except.ok () →
            (EditFile req (EditFile req fs).fs).result =
                Except.ok ⟨true, fileHash after,
                  fileHash (specReplaceScan req.OldStr req.NewStr 0 after), expectCount req,
                  str "replaced"⟩ ∧
              currentContent (EditFile req (EditFile req fs).fs).fs p =
                some (specReplaceScan req.OldStr req.NewStr 0 after))) := by
  obtain ⟨p, cur, hv, hr, hcase⟩ := EditFile_ok_cases h1
  have hagain : ∀ (fs2 : FS) (after : Bytes), currentContent fs2 p = some after →
      (req.ExpectHash = [] → req.Mode = ModeAppend →
        fileHash (specAppendCandidate req.EnsureNL after req.NewStr) ≠ fileHash after →
        (∀ r2, (EditFile req fs2).result = Except.ok r2 → r2.Changed = true) ∧
          ((writeBack fs2 p (specAppendCandidate req.EnsureNL after req.NewStr)).1 =
              Except.ok () →
            (EditFile req fs2).result =
                Except.ok ⟨true, fileHash after,
                  fileHash (specAppendCandidate req.EnsureNL after req.NewStr), 0,
                  str "appended"⟩ ∧
              currentContent (EditFile req fs2).fs p =
                some (specAppendCandidate req.EnsureNL after req.NewStr))) ∧
      (req.ExpectHash = [] → req.Mode = ModeReplaceOnce →
        (stringsCount after req.OldStr : Int) = expectCount req →
        fileHash (specReplaceScan req.OldStr req.NewStr 0 after) ≠ fileHash after →
        (∀ r2, (EditFile req fs2).result = Except.ok r2 → r2.Changed = true) ∧
          ((writeBack fs2 p (specReplaceScan req.OldStr req.NewStr 0 after)).1 =
              Except.ok () →
            (EditFile req fs2).result =
                Except.ok ⟨true, fileHash after,
                  fileHash (specReplaceScan req.OldStr req.NewStr 0 after), expectCount req,
                  str "replaced"⟩ ∧
              currentContent (EditFile req fs2).fs p =
                some (specReplaceScan req.OldStr req.NewStr 0 after))) := by
    intro fs2 after ha
    constructor
    · intro he hm hd
      obtain ⟨c1, c2, _⟩ := EditFile_candidate_changes hv ha (Or.inl he)
        (applyMode_append after (fileHash after) hm) hd
      refine ⟨fun r2 h2 => ?_, fun hw => ?_⟩
      · rw [(c2 r2 h2).1]
      · have h := c1 hw
        rw [finalMessage_append hm hd] at h
        exact h
    · intro he hm hc hd
      have hscan := @stringsReplace_eq_scan after req.OldStr req.NewStr (expectCount req)
        (oldStr_of_checkRequest hv hm) hc
      have hs := applyMode_match after (fileHash after) hm hc
      rw [hscan] at hs
      have hne : specReplaceScan req.OldStr req.NewStr 0 after ≠ after :=
        fun e => hd (by rw [e])
      rw [if_neg hne] at hs
      obtain ⟨c1, c2, _⟩ := EditFile_candidate_changes hv ha (Or.inl he) hs hd
      refine ⟨fun r2 h2 => ?_, fun hw => ?_⟩
      · rw [(c2 r2 h2).1]
      · have h := c1 hw
        rw [finalMessage_replace hm hd] at h
        exact h
  rcases hcase with ⟨hch, he⟩ | ⟨new, n, fs1, ops, hh, hs, hd, hw, hch, he⟩
  · have hfs : (EditFile req fs).fs = fs := by rw [he]
    rw [hfs]
    refine ⟨p, cur, hv, hr, ?_, (hagain fs cur hr).1, (hagain fs cur hr).2⟩
    intro _
    exact ⟨r1, by rw [he], hch, by rw [he], by rw [he]⟩
  · have hfs : (EditFile req fs).fs = fs1 := by rw [he]
    rw [hfs]
    have hr2 := currentContent_of_writeBack hw
    refine ⟨p, new, hv, hr2, ?_, (hagain fs1 new hr2).1, (hagain fs1 new hr2).2⟩
    intro hm
    by_cases hg : req.ExpectHash ≠ [] ∧ req.ExpectHash ≠ fileHash new
    · have h2 := EditFile_hash_mismatch hv hr2 hg.1 hg.2
      exact ⟨_, by rw [h2], rfl, by rw [h2], by rw [h2]⟩
    · have hh2 := guard_passed hg
      have hempty : req.ExpectHash = [] := by
        by_contra hne
        rcases hh with hh | hh
        · exact hne hh
        · rcases hh2 with hh2 | hh2
          · exact hne hh2
          · exact hd (hh2.symm.trans hh)
      by_cases hwf : req.Mode = ModeWriteFull
      · have hnew : req.NewStr = new := by
          have := applyMode_write_full cur (fileHash cur) hwf
          rw [this] at hs
          injection hs
        have hs2 : applyMode req new (fileHash new) = ModeStep.candidate new 0 := by
          rw [applyMode_write_full new (fileHash new) hwf, hnew]
        have h2 := EditFile_same_hash hv hr2 hh2 hs2 rfl
        exact ⟨_, by rw [h2], rfl, by rw [h2], by rw [h2]⟩
      · by_cases hap : req.Mode = ModeAppend
        · have hnil : req.NewStr = [] := by
            by_contra hne
            exact hm ⟨hempty, hch, Or.inl ⟨hap, hne⟩⟩
          have hnew : new = specAppendCandidate req.EnsureNL cur [] := by
            have := applyMode_append cur (fileHash cur) hap
            rw [this, hnil] at hs
            injection hs with e1 _
            exact e1.symm
          have hs2 : applyMode req new (fileHash new) = ModeStep.candidate new 0 := by
            rw [applyMode_append new (fileHash new) hap, hnil]
            rw [hnew, specAppendCandidate_twice]
          have h2 := EditFile_same_hash hv hr2 hh2 hs2 rfl
          exact ⟨_, by rw [h2], rfl, by rw [h2], by rw [h2]⟩
        · by_cases hro : req.Mode = ModeReplaceOnce
          · have hc : (stringsCount new req.OldStr : Int) ≠ expectCount req :=
              fun e => hm ⟨hempty, hch, Or.inr ⟨hro, e⟩⟩
            have h2 := EditFile_done hv hr2 hh2 (applyMode_mismatch new (fileHash new) hro hc)
            exact ⟨_, by rw [h2], rfl, by rw [h2], by rw [h2]⟩
          · exfalso
            have hstep : applyMode req cur (fileHash cur) = ModeStep.candidate cur 0 := by
              unfold applyMode
              rw [if_neg hwf, if_neg hap, if_neg hro]
            rw [hstep] at hs
            injection hs with e1 _
            exact hd (by rw [e1])

/-- The request of the specification, replace the two `X` of `aXbXc` by `Y`: the
first call leaves `aYbYc`, in which `X` no longer occurs, and the second call
reports `changed=false` and leaves the state of the first call. -/
theorem EditFile_second_call_no_change_witness :
    (EditFile (reqReplace 2 []) fsDemo).result =
        Except.ok ⟨true, fileHash (str "aXbXc"), fileHash (str "aYbYc"), 2, str "replaced"⟩ ∧
      (EditFile (reqReplace 2 []) (EditFile (reqReplace 2 []) fsDemo).fs).result =
        Except.ok ⟨false, fileHash (str "aYbYc"), fileHash (str "aYbYc"), 0,
          str "match_count_mismatch: have=0 expect=2"⟩ ∧
      ∃ r2, (EditFile (reqReplace 2 []) (EditFile (reqReplace 2 []) fsDemo).fs).result =
          Except.ok r2 ∧
        r2.Changed = false ∧
        (EditFile (reqReplace 2 []) (EditFile (reqReplace 2 []) fsDemo).fs).fs =
          (EditFile (reqReplace 2 []) fsDemo).fs ∧
        (EditFile (reqReplace 2 []) (EditFile (reqReplace 2 []) fsDemo).fs).ops =
          [FsOp.read (str "f.txt")] := by
  refine ⟨by decide, by decide, ?_⟩
  obtain ⟨p, after, hv, ha, hpart, _, _⟩ :=
    EditFile_second_call_no_change (reqReplace 2 []) fsDemo
      ⟨true, fileHash (str "aXbXc"), fileHash (str "aYbYc"), 2, str "replaced"⟩ (by decide)
  have hp : p = str "f.txt" := by
    have h0 : checkRequest (reqReplace 2 []) = Except.ok (str "f.txt") := by decide
    rw [h0] at hv
    injection hv with e
    exact e.symm
  subst hp
  have hafter : after = str "aYbYc" := by
    have h0 : currentContent (EditFile (reqReplace 2 []) fsDemo).fs (str "f.txt") =
        some (str "aYbYc") := by decide
    rw [h0] at ha
    injection ha with e
    exact e.symm
  subst hafter
  exact hpart (by decide)

/-- C2: whenever `EditFile` returns a result with `changed=false`, the file system
after the call is the one before it, and the only call made to the operating system
is the read of the file: nothing is written and no directory is created. -/
theorem EditFile_unchanged_when_not_changed (req : EditFileInput) (fs : FS) (r : EditResult)
    (hres : (EditFile req fs).result = Except.ok r) (hch : r.Changed = false) :
    (EditFile req fs).fs = fs ∧ ∃ p, (EditFile req fs).ops = [FsOp.read p] := by
  obtain ⟨p, cur, _, _, hcase⟩ := EditFile_ok_cases hres
  rcases hcase with ⟨_, he⟩ | ⟨_, _, _, _, _, _, _, _, hch2, _⟩
  · rw [he]
    exact ⟨rfl, p, rfl⟩
  · rw [hch] at hch2
    exact absurd hch2 (by decide)

/-- Replacing one `X` in `aXbXc`, where there are two: a result with `changed=false`,
the state untouched. -/
theorem EditFile_unchanged_when_not_changed_witness :
    (EditFile (reqReplace 1 []) fsDemo).result =
        Except.ok ⟨false, str "3527549b4b237f00962c615fc2f3234a05b78938a1f36204e4a7e87ac7ae56d5",
          str "3527549b4b237f00962c615fc2f3234a05b78938a1f36204e4a7e87ac7ae56d5", 0,
          str "match_count_mismatch: have=2 expect=1"⟩ ∧
      (EditFile (reqReplace 1 []) fsDemo).fs = fsDemo ∧
      ∃ p, (EditFile (reqReplace 1 []) fsDemo).ops = [FsOp.read p] :=
  ⟨by decide,
    EditFile_unchanged_when_not_changed (reqReplace 1 []) fsDemo
      ⟨false, str "3527549b4b237f00962c615fc2f3234a05b78938a1f36204e4a7e87ac7ae56d5",
        str "3527549b4b237f00962c615fc2f3234a05b78938a1f36204e4a7e87ac7ae56d5", 0,
        str "match_count_mismatch: have=2 expect=1"⟩ (by decide) rfl⟩

/-! ## Paths (C3, C4) -/

/-- C3: a request whose cleaned path is absolute or begins with the element `..` gets
an error, and `EditFile` makes no call to the operating system for it: nothing is
read, created or written. -/
theorem EditFile_rejects_escaping_path (req : EditFileInput) (fs : FS)
    (h : filepathIsAbs (filepathClean req.Path) = true ∨
      (splitSep (filepathClean req.Path)).head? = some (str "..")) :
    (∃ e, (EditFile req fs).result = Except.error e) ∧ (EditFile req fs).ops = [] ∧
      (EditFile req fs).fs = fs := by
  have hsafe : safePath req.Path = Except.error ToolError.unsafePath := by
    unfold safePath
    rcases h with h | h
    · simp [h]
    · obtain ⟨hd, t, hs, hp⟩ := splitSep_head (filepathClean req.Path)
      rw [hs] at h
      simp only [List.head?_cons, Option.some.injEq] at h
      subst h
      have : stringsHasPrefix (filepathClean req.Path) (str "..") = true := by
        unfold stringsHasPrefix
        exact List.isPrefixOf_iff_prefix.mpr hp
      simp [this]
  have hv : ∃ e, checkRequest req = Except.error e := by
    unfold checkRequest
    split
    · exact ⟨_, rfl⟩
    · split
      · exact ⟨_, rfl⟩
      · split
        · exact ⟨_, rfl⟩
        · exact ⟨_, hsafe⟩
  obtain ⟨e, he⟩ := hv
  rw [EditFile_check_error fs he]
  exact ⟨⟨e, rfl⟩, rfl, rfl⟩

/-- The paths `a/../../b` (cleaned to `../b`) and `/etc/passwd` are rejected before
any call to the operating system. -/
theorem EditFile_rejects_escaping_path_witness :
    filepathClean (str "a/../../b") = str "../b" ∧
      ((∃ e, (EditFile (reqWrite (str "a/../../b") []) fsDemo).result = Except.error e) ∧
        (EditFile (reqWrite (str "a/../../b") []) fsDemo).ops = [] ∧
        (EditFile (reqWrite (str "a/../../b") []) fsDemo).fs = fsDemo) ∧
      ((∃ e, (EditFile (reqWrite (str "/etc/passwd") []) fsDemo).result = Except.error e) ∧
        (EditFile (reqWrite (str "/etc/passwd") []) fsDemo).ops = [] ∧
        (EditFile (reqWrite (str "/etc/passwd") []) fsDemo).fs = fsDemo) :=
  ⟨by decide,
    EditFile_rejects_escaping_path (reqWrite (str "a/../../b") []) fsDemo (Or.inr (by decide)),
    EditFile_rejects_escaping_path (reqWrite (str "/etc/passwd") []) fsDemo (Or.inl (by decide))⟩

/-- C4, refuted as stated: `read_file` hands the path of the request to
`os.ReadFile` as it is. For the absolute path `/etc/passwd`, which `safePath`
rejects, it reads that file and returns its content. -/
theorem ReadFile_reads_outside_working_directory :
    safePath (str "/etc/passwd") = Except.error ToolError.unsafePath ∧
      (ReadFile ⟨str "/etc/passwd"⟩ fsDemo).ops = [FsOp.read (str "/etc/passwd")] ∧
      (ReadFile ⟨str "/etc/passwd"⟩ fsDemo).result = Except.ok (str "root") := by
  decide

/-- C4, amended: every call that `edit_file` makes to the operating system is made
on the path that `safePath` accepted for the request (the read and the write) or on
its `filepath.Dir` (the creation of directories), and the path of the call is
neither absolute nor begins with `..`. -/
theorem EditFile_ops_on_safe_path (req : EditFileInput) (fs : FS) (op : FsOp)
    (h : op ∈ (EditFile req fs).ops) :
    (∃ p, safePath req.Path = Except.ok p ∧
        (op = FsOp.read p ∨ op = FsOp.mkdirAll (filepathDir p) ∨ ∃ c, op = FsOp.write p c)) ∧
      stringsHasPrefix op.path (str "..") = false ∧ filepathIsAbs op.path = false := by
  obtain ⟨p, hv, hop⟩ := EditFile_ops_cases h
  have hs := safePath_of_checkRequest hv
  obtain ⟨_, h1, h2⟩ := safePath_ok hs
  obtain ⟨_, h3, h4⟩ := filepathDir_of_safePath hs
  rcases hop with hop | ⟨c, hop⟩
  · subst hop
    exact ⟨⟨p, hs, Or.inl rfl⟩, h1, h2⟩
  · rcases writeBack_ops hop with hop | hop
    · subst hop
      exact ⟨⟨p, hs, Or.inr (Or.inl rfl)⟩, h3, h4⟩
    · subst hop
      exact ⟨⟨p, hs, Or.inr (Or.inr ⟨c, rfl⟩)⟩, h1, h2⟩

/-- Writing `hello` to the new file `out/new.txt`: the directory `out` is made and
the file written, both below the working directory. -/
theorem EditFile_ops_on_safe_path_witness :
    (EditFile (reqWrite (str "out/new.txt") []) fsDemo).ops =
        [FsOp.read (str "out/new.txt"), FsOp.mkdirAll (str "out"),
          FsOp.write (str "out/new.txt") (str "hello")] ∧
      (∃ p, safePath (str "out/new.txt") = Except.ok p ∧
        (FsOp.mkdirAll (str "out") = FsOp.read p ∨
          FsOp.mkdirAll (str "out") = FsOp.mkdirAll (filepathDir p) ∨
          ∃ c, FsOp.mkdirAll (str "out") = FsOp.write p c)) ∧
      stringsHasPrefix (str "out") (str "..") = false ∧ filepathIsAbs (str "out") = false :=
  ⟨by decide,
    EditFile_ops_on_safe_path (reqWrite (str "out/new.txt") []) fsDemo (FsOp.mkdirAll (str "out"))
      (by decide)⟩

/-! ## The three modes (C5 to C8) -/

/-- C5, refuted as stated: the hash guard comes before the count. For `aXbXc`,
`old_str` `X` and `expect_count` 1 the count is 2, but with the `expect_hash` `00`
the message is `expect_hash_mismatch`, not `match_count_mismatch`. -/
theorem mismatch_hidden_by_expect_hash :
    checkRequest (reqReplace 1 (str "00")) = Except.ok (str "f.txt") ∧
      currentContent fsDemo (str "f.txt") = some (str "aXbXc") ∧
      stringsCount (str "aXbXc") (str "X") = 2 ∧ expectCount (reqReplace 1 (str "00")) = 1 ∧
      (EditFile (reqReplace 1 (str "00")) fsDemo).result =
        Except.ok ⟨false, str "3527549b4b237f00962c615fc2f3234a05b78938a1f36204e4a7e87ac7ae56d5",
          str "3527549b4b237f00962c615fc2f3234a05b78938a1f36204e4a7e87ac7ae56d5", 0,
          str "expect_hash_mismatch"⟩ := by
  decide

/-- C5, amended: for a `replace_once` request that passes the checks and whose
`expect_hash` is absent or the hash of the current content `cur`, if the number of
occurrences of `old_str` in `cur` differs from the expected count (1 when unset),
the result is `changed=false` with both hashes the hash of `cur`, `replacements=0`
and the message `match_count_mismatch: have=<observed> expect=<expected>`; the file
system is left as it was and the file is only read. -/
theorem EditFile_match_count_mismatch (req : EditFileInput) (fs : FS) (p cur : Bytes)
    (hv : checkRequest req = Except.ok p) (hm : req.Mode = ModeReplaceOnce)
    (hr : currentContent fs p = some cur)
    (hh : req.ExpectHash = [] ∨ req.ExpectHash = fileHash cur)
    (hc : (stringsCount cur req.OldStr : Int) ≠ expectCount req) :
    (EditFile req fs).result =
        Except.ok ⟨false, fileHash cur, fileHash cur, 0,
          str "match_count_mismatch: have=" ++ fmtInt (stringsCount cur req.OldStr) ++
            str " expect=" ++ fmtInt (expectCount req)⟩ ∧
      (EditFile req fs).fs = fs ∧ (EditFile req fs).ops = [FsOp.read p] := by
  rw [EditFile_done hv hr hh (applyMode_mismatch cur (fileHash cur) hm hc)]
  exact ⟨rfl, rfl, rfl⟩

/-- Content `aXbXc`, `old_str` `X`, `expect_count` unset: `have=2 expect=1`, and the
file is left alone. -/
theorem EditFile_match_count_mismatch_witness :
    (EditFile (reqReplace 0 []) fsDemo).result =
        Except.ok ⟨false, str "3527549b4b237f00962c615fc2f3234a05b78938a1f36204e4a7e87ac7ae56d5",
          str "3527549b4b237f00962c615fc2f3234a05b78938a1f36204e4a7e87ac7ae56d5", 0,
          str "match_count_mismatch: have=2 expect=1"⟩ ∧
      (EditFile (reqReplace 0 []) fsDemo).fs = fsDemo ∧
      (EditFile (reqReplace 0 []) fsDemo).ops = [FsOp.read (str "f.txt")] :=
  have h := EditFile_match_count_mismatch (reqReplace 0 []) fsDemo (str "f.txt") (str "aXbXc")
    (by decide) (by decide) (by decide) (Or.inl rfl) (by decide)
  ⟨h.1.trans (by decide), h.2⟩

/-- C6, refuted as stated: with `expect_count` 2 the two occurrences of `X` in `aXbXc`
match and the candidate `aYbYc` differs from the content, but under the
`expect_hash` `00` the result is `changed=false`, `expect_hash_mismatch`, and the
file keeps `aXbXc`. -/
theorem replace_hidden_by_expect_hash :
    checkRequest (reqReplace 2 (str "00")) = Except.ok (str "f.txt") ∧
      currentContent fsDemo (str "f.txt") = some (str "aXbXc") ∧
      stringsCount (str "aXbXc") (str "X") = 2 ∧ expectCount (reqReplace 2 (str "00")) = 2 ∧
      stringsReplace (str "aXbXc") (str "X") (str "Y") 2 = str "aYbYc" ∧
      (EditFile (reqReplace 2 (str "00")) fsDemo).result =
        Except.ok ⟨false, str "3527549b4b237f00962c615fc2f3234a05b78938a1f36204e4a7e87ac7ae56d5",
          str "3527549b4b237f00962c615fc2f3234a05b78938a1f36204e4a7e87ac7ae56d5", 0,
          str "expect_hash_mismatch"⟩ ∧
      currentContent (EditFile (reqReplace 2 (str "00")) fsDemo).fs (str "f.txt") =
        some (str "aXbXc") := by
  decide

/-- C6, amended: for a `replace_once` request that passes the checks and whose
`expect_hash` is absent or the hash of the current content `cur`, if `old_str`
occurs in `cur` exactly the expected number of times, the text computed by
`strings.Replace` is `cur` with each occurrence, taken from left to right without
overlap, replaced by `new_str`. If that text is `cur` itself the result is
`changed=false`, `no_change`, and nothing is written. If its hash differs from the
hash of `cur` and the write-back succeeds, the result is `changed=true`, `replaced`,
`replacements` the expected count, and the file then holds exactly that text. -/
theorem EditFile_replace_once_matching (req : EditFileInput) (fs : FS) (p cur : Bytes)
    (hv : checkRequest req = Except.ok p) (hm : req.Mode = ModeReplaceOnce)
    (hr : currentContent fs p = some cur)
    (hh : req.ExpectHash = [] ∨ req.ExpectHash = fileHash cur)
    (hc : (stringsCount cur req.OldStr : Int) = expectCount req) :
    stringsReplace cur req.OldStr req.NewStr (expectCount req) =
        specReplaceScan req.OldStr req.NewStr 0 cur ∧
      (specReplaceScan req.OldStr req.NewStr 0 cur = cur →
        (EditFile req fs).result =
            Except.ok ⟨false, fileHash cur, fileHash cur, 0, str "no_change"⟩ ∧
          (EditFile req fs).fs = fs ∧ (EditFile req fs).ops = [FsOp.read p]) ∧
      (fileHash (specReplaceScan req.OldStr req.NewStr 0 cur) ≠ fileHash cur →
        (writeBack fs p (specReplaceScan req.OldStr req.NewStr 0 cur)).1 = Except.ok () →
        (EditFile req fs).result =
            Except.ok ⟨true, fileHash cur,
              fileHash (specReplaceScan req.OldStr req.NewStr 0 cur), expectCount req,
              str "replaced"⟩ ∧
          currentContent (EditFile req fs).fs p =
            some (specReplaceScan req.OldStr req.NewStr 0 cur)) := by
  have hscan := @stringsReplace_eq_scan cur req.OldStr req.NewStr (expectCount req)
    (oldStr_of_checkRequest hv hm) hc
  have hs := applyMode_match cur (fileHash cur) hm hc
  rw [hscan] at hs
  refine ⟨hscan, ?_, ?_⟩
  · intro hsame
    rw [if_pos hsame] at hs
    rw [EditFile_done hv hr hh hs]
    exact ⟨rfl, rfl, rfl⟩
  · intro hd hw
    have hne : specReplaceScan req.OldStr req.NewStr 0 cur ≠ cur := fun e => hd (by rw [e])
    rw [if_neg hne] at hs
    rcases hwb : writeBack fs p (specReplaceScan req.OldStr req.NewStr 0 cur) with ⟨res, fs1, ops⟩
    rw [hwb] at hw
    simp only at hw
    subst hw
    rw [EditFile_write_ok hv hr hh hs hd hwb, finalMessage_replace hm hd]
    exact ⟨rfl, currentContent_of_writeBack hwb⟩

/-- Content `aXbXc`, `old_str` `X`, `new_str` `Y`, `expect_count` 2: the file then
holds `aYbYc`, with `changed=true`, `replaced` and `replacements=2`. -/
theorem EditFile_replace_once_matching_witness :
    specReplaceScan (str "X") (str "Y") 0 (str "aXbXc") = str "aYbYc" ∧
      (EditFile (reqReplace 2 []) fsDemo).result =
        Except.ok ⟨true, str "3527549b4b237f00962c615fc2f3234a05b78938a1f36204e4a7e87ac7ae56d5",
          str "8720444abff8eef17b8c0ddcb8ab4edf525dfb01a68c6a994713c3b9743bf4d0", 2,
          str "replaced"⟩ ∧
      currentContent (EditFile (reqReplace 2 []) fsDemo).fs (str "f.txt") =
        some (str "aYbYc") :=
  have h := (EditFile_replace_once_matching (reqReplace 2 []) fsDemo (str "f.txt")
    (str "aXbXc") (by decide) (by decide) (by decide) (Or.inl rfl) (by decide)).2.2
    (by decide) (by decide)
  ⟨by decide, h.1.trans (by decide), h.2.trans (by decide)⟩

/-- C7, refuted as stated: appending `bar` to `foo` with `ensure_trailing_newline`
has the candidate `foo`, newline, `bar`, which differs from the content, but under
the `expect_hash` `00` the result is `changed=false`, `expect_hash_mismatch`, and
the file keeps `foo`. -/
theorem append_hidden_by_expect_hash :
    checkRequest (reqAppend (str "00")) = Except.ok (str "notes") ∧
      currentContent fsDemo (str "notes") = some (str "foo") ∧
      specAppendCandidate true (str "foo") (str "bar") = str "foo\nbar" ∧
      (EditFile (reqAppend (str "00")) fsDemo).result =
        Except.ok ⟨false, str "2c26b46b68ffc68ff99b453c1d30413413422d706483bfa0f98a5e886266e7ae",
          str "2c26b46b68ffc68ff99b453c1d30413413422d706483bfa0f98a5e886266e7ae", 0,
          str "expect_hash_mismatch"⟩ ∧
      currentContent (EditFile (reqAppend (str "00")) fsDemo).fs (str "notes") =
        some (str "foo") := by
  decide

/-- C7, amended: for an `append` request that passes the checks and whose
`expect_hash` is absent or the hash of the current content `cur`, the candidate is
`cur`, then one newline exactly when `ensure_trailing_newline` is set and `cur` is not
empty and does not end in a newline, then `new_str`. If the hash of the candidate is
the hash of `cur`, nothing is written and the result is `changed=false`,
`no_change`. If the hashes differ and the write-back succeeds, the result is
`changed=true`, `appended`, and the file then holds exactly the candidate. -/
theorem EditFile_append (req : EditFileInput) (fs : FS) (p cur : Bytes)
    (hv : checkRequest req = Except.ok p) (hm : req.Mode = ModeAppend)
    (hr : currentContent fs p = some cur)
    (hh : req.ExpectHash = [] ∨ req.ExpectHash = fileHash cur) :
    (fileHash (specAppendCandidate req.EnsureNL cur req.NewStr) = fileHash cur →
        (EditFile req fs).result =
            Except.ok ⟨false, fileHash cur,
              fileHash (specAppendCandidate req.EnsureNL cur req.NewStr), 0, str "no_change"⟩ ∧
          (EditFile req fs).fs = fs ∧ (EditFile req fs).ops = [FsOp.read p]) ∧
      (fileHash (specAppendCandidate req.EnsureNL cur req.NewStr) ≠ fileHash cur →
        (writeBack fs p (specAppendCandidate req.EnsureNL cur req.NewStr)).1 = Except.ok () →
        (EditFile req fs).result =
            Except.ok ⟨true, fileHash cur,
              fileHash (specAppendCandidate req.EnsureNL cur req.NewStr), 0, str "appended"⟩ ∧
          currentContent (EditFile req fs).fs p =
            some (specAppendCandidate req.EnsureNL cur req.NewStr)) := by
  have hs := applyMode_append cur (fileHash cur) hm
  refine ⟨?_, ?_⟩
  · intro he
    rw [EditFile_same_hash hv hr hh hs he]
    exact ⟨rfl, rfl, rfl⟩
  · intro hd hw
    rcases hwb : writeBack fs p (specAppendCandidate req.EnsureNL cur req.NewStr)
      with ⟨res, fs1, ops⟩
    rw [hwb] at hw
    simp only at hw
    subst hw
    rw [EditFile_write_ok hv hr hh hs hd hwb, finalMessage_append hm hd]
    exact ⟨rfl, currentContent_of_writeBack hwb⟩

/-- Content `foo`, `new_str` `bar`, `ensure_trailing_newline` set: the file then holds
`foo`, newline, `bar`. -/
theorem EditFile_append_witness :
    (EditFile (reqAppend []) fsDemo).result =
        Except.ok ⟨true, str "2c26b46b68ffc68ff99b453c1d30413413422d706483bfa0f98a5e886266e7ae",
          str "807eff6267f3f926a21d234f7b0cf867a86f47e07a532f15e8cc39ed110ca776", 0,
          str "appended"⟩ ∧
      currentContent (EditFile (reqAppend []) fsDemo).fs (str "notes") = some (str "foo\nbar") :=
  have h := (EditFile_append (reqAppend []) fsDemo (str "notes") (str "foo")
    (by decide) (by decide) (by decide) (Or.inl rfl)).2 (by decide) (by decide)
  ⟨h.1.trans (by decide), h.2.trans (by decide)⟩

/-- C8, refuted as stated: writing `hello` over `notes` under the `expect_hash` `00`
returns a successful result, `changed=false` and `expect_hash_mismatch`, after which
the content of the file is `foo`, not `hello`. -/
theorem write_full_hidden_by_expect_hash :
    checkRequest (reqWrite (str "notes") (str "00")) = Except.ok (str "notes") ∧
      (EditFile (reqWrite (str "notes") (str "00")) fsDemo).result =
        Except.ok ⟨false, str "2c26b46b68ffc68ff99b453c1d30413413422d706483bfa0f98a5e886266e7ae",
          str "2c26b46b68ffc68ff99b453c1d30413413422d706483bfa0f98a5e886266e7ae", 0,
          str "expect_hash_mismatch"⟩ ∧
      currentContent (EditFile (reqWrite (str "notes") (str "00")) fsDemo).fs (str "notes") =
        some (str "foo") := by
  decide

/-- C8, amended: for a `write_full` request that passes the checks and whose
`expect_hash` is absent or the hash of the current content `cur` (empty for a
missing file): if the hash of `new_str` differs from the hash of `cur` and the
write-back succeeds, the result is `changed=true`, `wrote_full`, `old_hash` the hash
of `cur`, `new_hash` the hash of `new_str`, and the file then holds exactly
`new_str`; if the hashes are equal, nothing is written and the result is
`changed=false`, `no_change`. The content of a missing file is the empty one. -/
theorem EditFile_write_full (req : EditFileInput) (fs : FS) (p cur : Bytes)
    (hv : checkRequest req = Except.ok p) (hm : req.Mode = ModeWriteFull)
    (hr : currentContent fs p = some cur)
    (hh : req.ExpectHash = [] ∨ req.ExpectHash = fileHash cur) :
    (fileHash req.NewStr ≠ fileHash cur → (writeBack fs p req.NewStr).1 = Except.ok () →
        (EditFile req fs).result =
            Except.ok ⟨true, fileHash cur, fileHash req.NewStr, 0, str "wrote_full"⟩ ∧
          currentContent (EditFile req fs).fs p = some req.NewStr) ∧
      (fileHash req.NewStr = fileHash cur →
        (EditFile req fs).result =
            Except.ok ⟨false, fileHash cur, fileHash req.NewStr, 0, str "no_change"⟩ ∧
          (EditFile req fs).fs = fs ∧ (EditFile req fs).ops = [FsOp.read p]) ∧
      (osReadFile fs p = ReadResult.notExist → cur = []) := by
  have hs := @applyMode_write_full req cur (fileHash cur) hm
  refine ⟨?_, ?_, ?_⟩
  · intro hd hw
    rcases hwb : writeBack fs p req.NewStr with ⟨res, fs1, ops⟩
    rw [hwb] at hw
    simp only at hw
    subst hw
    rw [EditFile_write_ok hv hr hh hs hd hwb, finalMessage_write_full hm hd]
    exact ⟨rfl, currentContent_of_writeBack hwb⟩
  · intro he
    rw [EditFile_same_hash hv hr hh hs he]
    exact ⟨rfl, rfl, rfl⟩
  · intro hn
    simp only [currentContent, hn, Option.some.injEq] at hr
    exact hr.symm

/-- No file `new.txt`, `new_str` `hello`: the file is created with the content
`hello`; `old_hash` is the hash of the empty sequence. -/
theorem EditFile_write_full_witness :
    osReadFile fsDemo (str "new.txt") = ReadResult.notExist ∧
      (EditFile (reqWrite (str "new.txt") []) fsDemo).result =
        Except.ok ⟨true, str "e3b0c44298fc1c149afbf4c8996fb92427ae41e4649b934ca495991b7852b855",
          str "2cf24dba5fb0a30e26e83b2ac5b9e29e1b161e5c1fa7425e73043362938b9824", 0,
          str "wrote_full"⟩ ∧
      osReadFile (EditFile (reqWrite (str "new.txt") []) fsDemo).fs (str "new.txt") =
        ReadResult.ok (str "hello") :=
  have h := (EditFile_write_full (reqWrite (str "new.txt") []) fsDemo (str "new.txt") []
    (by decide) (by decide) (by decide) (Or.inl rfl)).1 (by decide) (by decide)
  ⟨by decide, h.1.trans (by decide), by decide⟩

/-! ## Preconditions (C9, C10) -/

/-- C9: for a request that passes the checks of fields and path, and a file whose
current content is `cur` (empty when the file is missing), an `expect_hash` that is
supplied and differs from the hash of `cur` gives the successful result
`changed=false`, `expect_hash_mismatch`, both hashes the current one, and the file
system is left as it was, with the read as the only call. -/
theorem EditFile_expect_hash_mismatch (req : EditFileInput) (fs : FS) (p cur : Bytes)
    (hv : checkRequest req = Except.ok p) (hr : currentContent fs p = some cur)
    (hne : req.ExpectHash ≠ []) (hd : req.ExpectHash ≠ fileHash cur) :
    (EditFile req fs).result =
        Except.ok ⟨false, fileHash cur, fileHash cur, 0, str "expect_hash_mismatch"⟩ ∧
      (EditFile req fs).fs = fs ∧ (EditFile req fs).ops = [FsOp.read p] := by
  rw [EditFile_hash_mismatch hv hr hne hd]
  exact ⟨rfl, rfl, rfl⟩

/-- Appending to `notes` under the hash of another content: `expect_hash_mismatch`
with the hash of `foo`, and `notes` keeps `foo`. -/
theorem EditFile_expect_hash_mismatch_witness :
    (EditFile (reqAppend (fileHash (str "other"))) fsDemo).result =
        Except.ok ⟨false, str "2c26b46b68ffc68ff99b453c1d30413413422d706483bfa0f98a5e886266e7ae",
          str "2c26b46b68ffc68ff99b453c1d30413413422d706483bfa0f98a5e886266e7ae", 0,
          str "expect_hash_mismatch"⟩ ∧
      (EditFile (reqAppend (fileHash (str "other"))) fsDemo).fs = fsDemo ∧
      (EditFile (reqAppend (fileHash (str "other"))) fsDemo).ops = [FsOp.read (str "notes")] :=
  have h := EditFile_expect_hash_mismatch (reqAppend (fileHash (str "other"))) fsDemo
    (str "notes") (str "foo") (by decide) (by decide) (by decide) (by decide)
  ⟨h.1.trans (by decide), h.2⟩

/-- C10: a request with an empty path, an empty mode, mode `replace_once` and an empty
`old_str`, or mode `write_full` or `replace_once` and an empty `new_str` gets an
error, without any call to the operating system; an `append` request with an empty
`new_str` never gets the error for a missing `new_str`, and with a path that is not
empty it passes the checks exactly when `safePath` accepts the path. -/
theorem EditFile_required_fields (req : EditFileInput) (fs : FS) :
    ((req.Path = [] ∨ req.Mode = [] ∨ (req.Mode = ModeReplaceOnce ∧ req.OldStr = []) ∨
        ((req.Mode = ModeWriteFull ∨ req.Mode = ModeReplaceOnce) ∧ req.NewStr = [])) →
      (∃ e, (EditFile req fs).result = Except.error e) ∧ (EditFile req fs).ops = [] ∧
        (EditFile req fs).fs = fs) ∧
    (req.Mode = ModeAppend → req.NewStr = [] →
      (∀ m, (EditFile req fs).result ≠ Except.error (ToolError.newStrRequired m)) ∧
        (req.Path ≠ [] → checkRequest req = safePath req.Path)) := by
  constructor
  · intro h
    have hv : ∃ e, checkRequest req = Except.error e := by
      unfold checkRequest
      split
      · exact ⟨_, rfl⟩
      · split
        · exact ⟨_, rfl⟩
        · split
          · exact ⟨_, rfl⟩
          · rename_i h1 h2 h3
            exfalso
            rcases h with h | h | h | ⟨h | h, hn⟩
            · exact h1 (Or.inl h)
            · exact h1 (Or.inr h)
            · exact h2 h
            · exact h3 ⟨by rw [h]; decide, hn⟩
            · exact h3 ⟨by rw [h]; decide, hn⟩
    obtain ⟨e, he⟩ := hv
    rw [EditFile_check_error fs he]
    exact ⟨⟨e, rfl⟩, rfl, rfl⟩
  · intro hm hn
    have hmne : req.Mode ≠ [] := by rw [hm]; decide
    have hmr : req.Mode ≠ ModeReplaceOnce := by rw [hm]; decide
    have hchk : req.Path ≠ [] → checkRequest req = safePath req.Path := by
      intro hp
      have h1 : ¬ (req.Path = [] ∨ req.Mode = []) := not_or.mpr ⟨hp, hmne⟩
      have h2 : ¬ (req.Mode = ModeReplaceOnce ∧ req.OldStr = []) := fun h => hmr h.1
      have h3 : ¬ (req.Mode ≠ ModeAppend ∧ req.NewStr = []) := fun h => h.1 hm
      unfold checkRequest
      rw [if_neg h1, if_neg h2, if_neg h3]
    have hsafe : ∀ m, safePath req.Path ≠ Except.error (ToolError.newStrRequired m) := by
      intro m
      unfold safePath
      simp only
      split <;> simp
    refine ⟨?_, hchk⟩
    intro m hres
    cases hv : checkRequest req with
    | error e =>
      rw [EditFile_check_error fs hv] at hres
      simp only [Except.error.injEq] at hres
      subst hres
      by_cases hp : req.Path = []
      · simp [checkRequest, hp] at hv
      · rw [hchk hp] at hv
        exact hsafe m hv
    | ok p =>
      cases hr : currentContent fs p with
      | none => rw [EditFile_read_failed hv hr] at hres; simp at hres
      | some cur =>
        by_cases hg : req.ExpectHash ≠ [] ∧ req.ExpectHash ≠ fileHash cur
        · rw [EditFile_hash_mismatch hv hr hg.1 hg.2] at hres; simp at hres
        · have hh : req.ExpectHash = [] ∨ req.ExpectHash = fileHash cur := by
            by_cases h1 : req.ExpectHash = []
            · exact Or.inl h1
            · exact Or.inr (by_contra fun h2 => hg ⟨h1, h2⟩)
          cases hs : applyMode req cur (fileHash cur) with
          | done r1 => rw [EditFile_done hv hr hh hs] at hres; simp at hres
          | candidate new n =>
            by_cases he : fileHash new = fileHash cur
            · rw [EditFile_same_hash hv hr hh hs he] at hres; simp at hres
            · rcases hw : writeBack fs p new with ⟨res, fs1, ops⟩
              cases res with
              | error e =>
                rw [EditFile_write_error hv hr hh hs he hw] at hres
                simp only [Except.error.injEq] at hres
                subst hres
                unfold writeBack at hw
                split at hw
                · split at hw
                  · simp at hw
                  · split at hw <;> simp at hw
                · split at hw <;> simp at hw
              | ok u => rw [EditFile_write_ok hv hr hh hs he hw] at hres; simp at hres

/-- A `write_full` request without `new_str` gets an error before any call to the
operating system; an `append` request without `new_str` passes the checks and ends
in `no_change`. -/
theorem EditFile_required_fields_witness :
    ((∃ e, (EditFile ⟨str "notes", ModeWriteFull, [], [], 0, [], false⟩ fsDemo).result =
          Except.error e) ∧
        (EditFile ⟨str "notes", ModeWriteFull, [], [], 0, [], false⟩ fsDemo).ops = [] ∧
        (EditFile ⟨str "notes", ModeWriteFull, [], [], 0, [], false⟩ fsDemo).fs = fsDemo) ∧
      ((∀ m, (EditFile ⟨str "notes", ModeAppend, [], [], 0, [], false⟩ fsDemo).result ≠
          Except.error (ToolError.newStrRequired m)) ∧
        (str "notes" ≠ [] →
          checkRequest ⟨str "notes", ModeAppend, [], [], 0, [], false⟩ =
            safePath (str "notes"))) ∧
      (EditFile ⟨str "notes", ModeAppend, [], [], 0, [], false⟩ fsDemo).result =
        Except.ok ⟨false, str "2c26b46b68ffc68ff99b453c1d30413413422d706483bfa0f98a5e886266e7ae",
          str "2c26b46b68ffc68ff99b453c1d30413413422d706483bfa0f98a5e886266e7ae", 0,
          str "no_change"⟩ :=
  ⟨(EditFile_required_fields ⟨str "notes", ModeWriteFull, [], [], 0, [], false⟩ fsDemo).1
      (Or.inr (Or.inr (Or.inr ⟨Or.inl rfl, rfl⟩))),
    (EditFile_required_fields ⟨str "notes", ModeAppend, [], [], 0, [], false⟩ fsDemo).2 rfl rfl,
    by decide⟩

/-! ## The agent loop and the remaining properties of the editor -/

/-! ## Counting without overlap (C16) -/

theorem specCountScan_skip (old : Bytes) :
    ∀ (k : Nat) (s : Bytes), specCountScan old k s = specCountScan old 0 (s.drop k) := by
  intro k
  induction k with
  | zero => intro s; simp
  | succ k ih =>
    intro s
    cases s with
    | nil => simp [specCountScan]
    | cons c t => simp [specCountScan, ih]

theorem specCountScan_of_index_none {old : Bytes} :
    ∀ {s : Bytes}, stringsIndex old s = none → specCountScan old 0 s = 0 := by
  intro s
  induction s with
  | nil => intro _; simp [specCountScan]
  | cons c t ih =>
    intro h
    unfold stringsIndex at h
    split at h
    · simp at h
    · rename_i hp
      have ht : stringsIndex old t = none := by
        cases hi : stringsIndex old t with
        | none => rfl
        | some k => simp [hi] at h
      simp [specCountScan, hp, ih ht]

theorem specCountScan_of_index_some {old : Bytes} (hold : old ≠ []) :
    ∀ {s : Bytes} {j : Nat}, stringsIndex old s = some j →
      specCountScan old 0 s = specCountScan old 0 (s.drop (j + old.length)) + 1 := by
  intro s
  induction s with
  | nil => intro j h; rw [stringsIndex_nil_of_ne hold] at h; simp at h
  | cons c t ih =>
    intro j h
    unfold stringsIndex at h
    split at h
    · rename_i hp
      simp only [Option.some.injEq] at h
      subst h
      have hpos : 0 < old.length := List.length_pos.mpr hold
      have hl : old.length = (old.length - 1) + 1 := by omega
      simp only [specCountScan, hp, if_true, Nat.zero_add]
      rw [specCountScan_skip old (old.length - 1) t]
      conv_rhs => rw [hl, List.drop_succ_cons]
    · rename_i hp
      cases hi : stringsIndex old t with
      | none => simp [hi] at h
      | some k =>
        simp only [hi, Option.map_some', Option.some.injEq] at h
        subst h
        simp [specCountScan, hp, ih hi, Nat.add_right_comm k 1 old.length]

/-- The loop of `Count` counts what the scan from left to right counts. -/
theorem stringsCount_eq_scan {old : Bytes} (hold : old ≠ []) :
    ∀ (m : Nat) (s : Bytes), s.length ≤ m → stringsCount s old = specCountScan old 0 s := by
  intro m
  induction m with
  | zero =>
    intro s hs
    have : s = [] := List.length_eq_zero.mp (by omega)
    subst this
    rw [stringsCount_of_index_none hold (stringsIndex_nil_of_ne hold)]
    simp [specCountScan]
  | succ m ih =>
    intro s hs
    cases hi : stringsIndex old s with
    | none => rw [stringsCount_of_index_none hold hi, specCountScan_of_index_none hi]
    | some j =>
      have hb := stringsIndex_bound hi
      have hpos : 0 < old.length := List.length_pos.mpr hold
      rw [stringsCount_of_index_some hold hi, specCountScan_of_index_some hold hi,
        ih _ (by simp only [List.length_drop]; omega)]

/-- C16: for a `replace_once` request with a non-empty `old_str`, the count that
`EditFile` compares with the expected count is the number of occurrences found by
scanning the content from left to right and resuming just after the end of each
match: with another number expected the outcome is `match_count_mismatch` with that
number as `have`, with that number expected the occurrences met by the scan are
replaced. -/
theorem replace_once_counts_without_overlap (req : EditFileInput) (cur oldHash : Bytes)
    (hm : req.Mode = ModeReplaceOnce) (hold : req.OldStr ≠ []) :
    stringsCount cur req.OldStr = specCountScan req.OldStr 0 cur ∧
      ((specCountScan req.OldStr 0 cur : Int) ≠ expectCount req →
        applyMode req cur oldHash =
          ModeStep.done ⟨false, oldHash, oldHash, 0,
            str "match_count_mismatch: have=" ++ fmtInt (specCountScan req.OldStr 0 cur) ++
              str " expect=" ++ fmtInt (expectCount req)⟩) ∧
      ((specCountScan req.OldStr 0 cur : Int) = expectCount req →
        applyMode req cur oldHash =
          if specReplaceScan req.OldStr req.NewStr 0 cur = cur then
            ModeStep.done ⟨false, oldHash, oldHash, 0, str "no_change"⟩
          else
            ModeStep.candidate (specReplaceScan req.OldStr req.NewStr 0 cur)
              (expectCount req)) := by
  have hcount := stringsCount_eq_scan hold cur.length cur (Nat.le_refl _)
  refine ⟨hcount, ?_, ?_⟩
  · intro hne
    rw [← hcount] at hne ⊢
    exact applyMode_mismatch cur oldHash hm hne
  · intro he
    rw [← hcount] at he
    rw [applyMode_match cur oldHash hm he,
      @stringsReplace_eq_scan cur req.OldStr req.NewStr (expectCount req) hold he]

/-- The count of `aa` in `aaa` is 1, though `aa` occurs at 2 positions: expecting 1
replaces the first `aa` and leaves `ba`; expecting 2 gives `have=1 expect=2`. -/
theorem replace_once_counts_without_overlap_witness :
    (stringsCount (str "aaa") (str "aa") = 1 ∧ specCountScan (str "aa") 0 (str "aaa") = 1 ∧
        countPositions (str "aa") (str "aaa") = 2) ∧
      (EditFile (reqOverlap 1) fsOverlap).result =
        Except.ok ⟨true, fileHash (str "aaa"), fileHash (str "ba"), 1, str "replaced"⟩ ∧
      currentContent (EditFile (reqOverlap 1) fsOverlap).fs (str "a.txt") = some (str "ba") ∧
      (EditFile (reqOverlap 2) fsOverlap).result =
        Except.ok ⟨false, fileHash (str "aaa"), fileHash (str "aaa"), 0,
          str "match_count_mismatch: have=1 expect=2"⟩ ∧
      applyMode (reqOverlap 2) (str "aaa") (fileHash (str "aaa")) =
        ModeStep.done ⟨false, fileHash (str "aaa"), fileHash (str "aaa"), 0,
          str "match_count_mismatch: have=" ++
            fmtInt (specCountScan (reqOverlap 2).OldStr 0 (str "aaa")) ++
            str " expect=" ++ fmtInt (expectCount (reqOverlap 2))⟩ :=
  ⟨by decide, by decide, by decide, by decide,
    (replace_once_counts_without_overlap (reqOverlap 2) (str "aaa") (fileHash (str "aaa"))
      (by decide) (by decide)).2.1 (by decide)⟩

/-! ## The prefix test of `safePath` (C17) -/

/-- C17, the code at the failing input: the path `..cache/x` is clean, is not
absolute, and its first element is `..cache`, not `..`; `safePath` rejects it all
the same, because it tests the cleaned path for the prefix `..`. -/
theorem safePath_rejects_name_with_two_dots :
    filepathClean (str "..cache/x") = str "..cache/x" ∧
      filepathIsAbs (filepathClean (str "..cache/x")) = false ∧
      (splitSep (filepathClean (str "..cache/x"))).head? = some (str "..cache") ∧
      safePath (str "..cache/x") = Except.error ToolError.unsafePath ∧
      (EditFile (reqWrite (str "..cache/x") []) fsDemo).result =
        Except.error ToolError.unsafePath := by
  decide

/-! ## The shape of accepted paths and the outcome of a call -/

theorem mem_properAncestors_iff {p a : Bytes} :
    a ∈ properAncestors p ↔ ∃ i, i < p.length ∧ 0 < i ∧ p.getD i 0 = 47 ∧ a = p.take i := by
  simp only [properAncestors, List.mem_map, List.mem_filter, List.mem_range,
    decide_eq_true_eq]
  constructor
  · rintro ⟨i, ⟨hi, h0, h47⟩, rfl⟩
    exact ⟨i, hi, h0, h47, rfl⟩
  · rintro ⟨i, hi, h0, h47, rfl⟩
    exact ⟨i, ⟨hi, h0, h47⟩, rfl⟩

theorem properAncestors_of_no_sep {p : Bytes} (h : 47 ∉ p) (a : Bytes) :
    a ∉ properAncestors p := by
  intro ha
  obtain ⟨i, hi, _, h47, _⟩ := mem_properAncestors_iff.mp ha
  rw [List.getD_eq_getElem _ _ hi] at h47
  exact h (h47 ▸ List.getElem_mem _)

/-- The directories above `d/r`, for an element `r`, are `d` and those above `d`. -/
theorem mem_properAncestors_snoc {d r a : Bytes} (hd : d ≠ []) (hr : 47 ∉ r) :
    a ∈ properAncestors (d ++ 47 :: r) ↔ a ∈ properAncestors d ∨ a = d := by
  have hdl : 0 < d.length := List.length_pos.mpr hd
  constructor
  · intro ha
    obtain ⟨i, hi, h0, h47, rfl⟩ := mem_properAncestors_iff.mp ha
    rcases Nat.lt_trichotomy i d.length with hlt | heq | hgt
    · left
      refine mem_properAncestors_iff.mpr ⟨i, hlt, h0, ?_, ?_⟩
      · rw [List.getD_eq_getElem _ _ hi] at h47
        rw [List.getD_eq_getElem _ _ hlt, ← h47]
        exact (List.getElem_append_left hlt).symm
      · rw [List.take_append_of_le_length (Nat.le_of_lt hlt)]
    · right
      rw [heq]
      simp
    · exfalso
      simp only [List.length_append, List.length_cons] at hi
      obtain ⟨k, hk⟩ : ∃ k, i - d.length = k + 1 := ⟨i - d.length - 1, by omega⟩
      have hkr : k < r.length := by omega
      rw [List.getD_append_right _ _ _ _ (by omega), hk, List.getD_cons_succ,
        List.getD_eq_getElem _ _ hkr] at h47
      exact hr (h47 ▸ List.getElem_mem _)
  · intro ha
    rcases ha with ha | rfl
    · obtain ⟨i, hi, h0, h47, rfl⟩ := mem_properAncestors_iff.mp ha
      refine mem_properAncestors_iff.mpr ⟨i, by simp only [List.length_append]; omega, h0, ?_, ?_⟩
      · rw [List.getD_eq_getElem _ _ hi] at h47
        rw [List.getD_eq_getElem _ _ (by simp only [List.length_append]; omega), ← h47]
        exact List.getElem_append_left hi
      · rw [List.take_append_of_le_length (Nat.le_of_lt hi)]
    · refine mem_properAncestors_iff.mpr
        ⟨a.length, by simp, hdl, ?_, by simp⟩
      rw [List.getD_append_right _ _ _ _ (Nat.le_refl _)]
      simp

theorem joinSep_ne_dot {rs : List Bytes} (hne : rs ≠ []) (h : ∀ r ∈ rs, isElement r) :
    joinSep rs ≠ [46] := by
  cases rs with
  | nil => exact absurd rfl hne
  | cons a t =>
    have ha := h a (by simp)
    cases t with
    | nil => simpa [joinSep] using ha.2.1
    | cons b u =>
      intro e
      have hl := congrArg List.length e
      simp only [joinSep, List.length_append, List.length_cons, List.length_nil] at hl
      have : 0 < a.length := List.length_pos.mpr ha.1
      omega

/-- The shape of a path that `safePath` accepted, with its directory: the path `.`,
a single element with directory `.`, or a directory `d` and an element below it. -/
theorem safePath_shape {x p : Bytes} (h : safePath x = Except.ok p) :
    p = [46] ∨ (isElement p ∧ filepathDir p = [46]) ∨
      ∃ d r, isElement r ∧ d ≠ [] ∧ d ≠ [46] ∧ p = d ++ 47 :: r ∧ filepathDir p = d := by
  obtain ⟨hp, hpre, habs⟩ := safePath_ok h
  have hroot : x.head? ≠ some 47 := by
    intro e
    have := filepathClean_rooted e
    rw [← hp, habs] at this
    exact absurd this (by decide)
  rcases filepathClean_normal hroot with hn | ⟨rs, hrs, hn⟩
  · rw [← hp, hpre] at hn
    exact absurd hn (by decide)
  · rw [← hp] at hn
    rcases List.eq_nil_or_concat rs with e | ⟨rs1, r, e⟩
    · subst e
      simp only [if_true] at hn
      exact Or.inl hn
    · rw [List.concat_eq_append] at e
      subst e
      have hr : isElement r := hrs r (by simp)
      have hrs1 : ∀ y ∈ rs1, isElement y := fun y hy => hrs y (by simp [hy])
      rw [if_neg (by simp)] at hn
      right
      by_cases e1 : rs1 = []
      · subst e1
        simp only [List.nil_append, joinSep] at hn
        left
        refine ⟨hn ▸ hr, ?_⟩
        unfold filepathDir
        rw [hn, dropWhile_no_sep_all r.reverse (by simpa using hr.2.2.2)]
        decide
      · rw [joinSep_snoc rs1 r e1] at hn
        right
        refine ⟨joinSep rs1, r, hr, joinSep_ne_nil e1 hrs1, joinSep_ne_dot e1 hrs1, hn, ?_⟩
        unfold filepathDir
        rw [hn, List.reverse_append, List.reverse_cons, List.append_assoc,
          List.singleton_append,
          dropWhile_no_sep r.reverse _ (by simpa using hr.2.2.2)]
        have : (47 :: (joinSep rs1).reverse).reverse = joinSep rs1 ++ [47] := by simp
        rw [this, filepathClean_joinSep_sep e1 hrs1]

/-- What a successful read tells about the file system: nothing above the path is a
regular file, and the path is no directory. -/
theorem currentContent_some {fs : FS} {p cur : Bytes} (h : currentContent fs p = some cur) :
    (∀ a ∈ properAncestors p, isFile (fs.node a) = false) ∧ fs.node p ≠ some Node.dir := by
  by_cases hany : (properAncestors p).any (fun a => isFile (fs.node a)) = true
  · simp [currentContent, osReadFile, hany] at h
  · constructor
    · intro a ha
      cases hf : isFile (fs.node a) with
      | false => rfl
      | true => exact absurd (List.any_eq_true.mpr ⟨a, ha, hf⟩) hany
    · intro hd
      simp [currentContent, osReadFile, hany, hd] at h

/-- A call that returns a result, after a successful read: the result and the
content left are those that follow from the request and the content read. -/
theorem EditFile_ok_editOutcome {req : EditFileInput} {fs : FS} {p cur : Bytes}
    {r : EditResult}
    (hv : checkRequest req = Except.ok p) (hr : currentContent fs p = some cur)
    (h : (EditFile req fs).result = Except.ok r) :
    r = (editOutcome req cur).1 ∧
      currentContent (EditFile req fs).fs p = some (editOutcome req cur).2 := by
  unfold editOutcome
  by_cases hg : req.ExpectHash ≠ [] ∧ req.ExpectHash ≠ fileHash cur
  · rw [if_pos hg]
    rw [EditFile_hash_mismatch hv hr hg.1 hg.2] at h ⊢
    simp only [Except.ok.injEq] at h
    exact ⟨h.symm, hr⟩
  · rw [if_neg hg]
    have hh := guard_passed hg
    cases hs : applyMode req cur (fileHash cur) with
    | done r1 =>
      rw [EditFile_done hv hr hh hs] at h ⊢
      simp only [Except.ok.injEq] at h
      exact ⟨h.symm, hr⟩
    | candidate new n =>
      simp only
      by_cases hd : fileHash new = fileHash cur
      · rw [if_neg (not_not.mpr hd)]
        rw [EditFile_same_hash hv hr hh hs hd] at h ⊢
        simp only [Except.ok.injEq] at h
        refine ⟨?_, hr⟩
        rw [← h]
        simp [finalMessage, hd]
      · rw [if_pos hd]
        exact (EditFile_candidate_changes hv hr hh hs hd).2.1 r h

/-- After a successful read, a call whose write-back succeeds, where the outcome
asks for one, returns the result and leaves the content that follow from the request
and the content read. -/
theorem EditFile_of_editOutcome {req : EditFileInput} {fs : FS} {p cur : Bytes}
    (hv : checkRequest req = Except.ok p) (hr : currentContent fs p = some cur)
    (hw : (editOutcome req cur).1.Changed = true →
      (writeBack fs p (editOutcome req cur).2).1 = Except.ok ()) :
    (EditFile req fs).result = Except.ok (editOutcome req cur).1 ∧
      currentContent (EditFile req fs).fs p = some (editOutcome req cur).2 := by
  unfold editOutcome at hw ⊢
  by_cases hg : req.ExpectHash ≠ [] ∧ req.ExpectHash ≠ fileHash cur
  · rw [if_pos hg, EditFile_hash_mismatch hv hr hg.1 hg.2]
    exact ⟨rfl, hr⟩
  · rw [if_neg hg] at hw ⊢
    have hh := guard_passed hg
    cases hs : applyMode req cur (fileHash cur) with
    | done r1 =>
      rw [EditFile_done hv hr hh hs]
      exact ⟨rfl, hr⟩
    | candidate new n =>
      rw [hs] at hw
      simp only at hw ⊢
      by_cases hd : fileHash new = fileHash cur
      · rw [if_neg (not_not.mpr hd), EditFile_same_hash hv hr hh hs hd]
        refine ⟨?_, hr⟩
        simp [finalMessage, hd]
      · rw [if_pos hd] at hw ⊢
        exact (EditFile_candidate_changes hv hr hh hs hd).1 (hw rfl)

/-- After a successful read, the only errors of a call are those of the
write-back. -/
theorem EditFile_error_after_read {req : EditFileInput} {fs : FS} {p cur : Bytes}
    {e : ToolError}
    (hv : checkRequest req = Except.ok p) (hr : currentContent fs p = some cur)
    (h : (EditFile req fs).result = Except.error e) :
    e = ToolError.mkdirFailed ∨ e = ToolError.writeFailed := by
  by_cases hg : req.ExpectHash ≠ [] ∧ req.ExpectHash ≠ fileHash cur
  · rw [EditFile_hash_mismatch hv hr hg.1 hg.2] at h
    simp at h
  · have hh := guard_passed hg
    cases hs : applyMode req cur (fileHash cur) with
    | done r1 =>
      rw [EditFile_done hv hr hh hs] at h
      simp at h
    | candidate new n =>
      by_cases hd : fileHash new = fileHash cur
      · rw [EditFile_same_hash hv hr hh hs hd] at h
        simp at h
      · exact (EditFile_candidate_changes hv hr hh hs hd).2.2 e h

theorem applyMode_done_message {req : EditFileInput} {cur oldHash : Bytes} {r : EditResult}
    (h : applyMode req cur oldHash = ModeStep.done r) :
    r.Message ≠ str "expect_hash_mismatch" := by
  have h1 : str "match_count_mismatch: have=" =
      109 :: (str "match_count_mismatch: have=").tail := by decide
  have h2 : str "expect_hash_mismatch" = 101 :: (str "expect_hash_mismatch").tail := by decide
  unfold applyMode at h
  split at h
  · simp at h
  · split at h
    · simp at h
    · split at h
      · simp only at h
        split at h
        · simp only [ModeStep.done.injEq] at h
          subst h
          simp only
          rw [h1, h2]
          simp
        · split at h
          · simp only [ModeStep.done.injEq] at h
            subst h
            have h3 : str "no_change" ≠ str "expect_hash_mismatch" := by decide
            exact h3
          · simp at h
      · simp at h

theorem finalMessage_ne_mismatch (req : EditFileInput) (a b : Bytes) :
    finalMessage req a b ≠ str "expect_hash_mismatch" := by
  unfold finalMessage
  split
  · decide
  · split
    · decide
    · split
      · decide
      · decide

/-- The hashes of the outcome: `old_hash` is the hash of the content before,
`new_hash` the hash of the content after, and `changed` says whether they differ. -/
theorem editOutcome_hashes (req : EditFileInput) (cur : Bytes) :
    (editOutcome req cur).1.OldHash = fileHash cur ∧
      (editOutcome req cur).1.NewHash = fileHash (editOutcome req cur).2 ∧
      ((editOutcome req cur).1.Changed = true ↔
        (editOutcome req cur).1.OldHash ≠ (editOutcome req cur).1.NewHash) := by
  unfold editOutcome
  split
  · simp
  · cases hs : applyMode req cur (fileHash cur) with
    | done r =>
      obtain ⟨h1, h2, h3, _⟩ := applyMode_done hs
      simp [h1, h2, h3]
    | candidate new n =>
      simp only
      split
      · rename_i hd
        refine ⟨rfl, rfl, ?_⟩
        simp only [true_iff]
        exact fun e => hd e.symm
      · rename_i hd
        have hd2 : fileHash new = fileHash cur := not_not.mp hd
        refine ⟨rfl, hd2, ?_⟩
        simp [hd2]

/-- Past the hash guard the message is never `expect_hash_mismatch`. -/
theorem editOutcome_message {req : EditFileInput} {cur : Bytes}
    (hh : req.ExpectHash = [] ∨ req.ExpectHash = fileHash cur) :
    (editOutcome req cur).1.Message ≠ str "expect_hash_mismatch" := by
  have hg : ¬ (req.ExpectHash ≠ [] ∧ req.ExpectHash ≠ fileHash cur) := by
    rcases hh with h | h <;> simp [h]
  unfold editOutcome
  rw [if_neg hg]
  cases hs : applyMode req cur (fileHash cur) with
  | done r => exact applyMode_done_message hs
  | candidate new n =>
    simp only
    split
    · exact finalMessage_ne_mismatch req _ _
    · exact finalMessage_ne_mismatch req _ _

/-! ## Missing files, hashes and unknown modes (C15, C18, C19) -/

/-- C15: for a request that passes the checks, on a state `fs1` on which the read of
the path reports that no file exists and a state `fs2` on which it gives an empty
file. The missing file is no error: the only errors of the call on `fs1` are those
of its write-back, and every result it returns has the hash of the empty byte
sequence as `old_hash`. When both calls return a result, it is the same result, and the same
content is left at the path. Whatever result the call on the empty file returns,
the call on the missing file returns it too and leaves the same content, provided
its own write-back succeeds where the result says `changed=true`; and the same with
the two states exchanged. -/
theorem EditFile_missing_file_as_empty (req : EditFileInput) (p : Bytes) (fs1 fs2 : FS)
    (hv : checkRequest req = Except.ok p)
    (h1 : osReadFile fs1 p = ReadResult.notExist) (h2 : osReadFile fs2 p = ReadResult.ok []) :
    (∀ e, (EditFile req fs1).result = Except.error e →
        e = ToolError.mkdirFailed ∨ e = ToolError.writeFailed) ∧
      (∀ r1, (EditFile req fs1).result = Except.ok r1 → r1.OldHash = fileHash []) ∧
      (∀ r1 r2, (EditFile req fs1).result = Except.ok r1 →
        (EditFile req fs2).result = Except.ok r2 →
        r1 = r2 ∧
          currentContent (EditFile req fs1).fs p = currentContent (EditFile req fs2).fs p) ∧
      (∀ r2 after, (EditFile req fs2).result = Except.ok r2 →
        currentContent (EditFile req fs2).fs p = some after →
        (r2.Changed = true → (writeBack fs1 p after).1 = Except.ok ()) →
        (EditFile req fs1).result = Except.ok r2 ∧
          currentContent (EditFile req fs1).fs p = some after) ∧
      (∀ r1 after, (EditFile req fs1).result = Except.ok r1 →
        currentContent (EditFile req fs1).fs p = some after →
        (r1.Changed = true → (writeBack fs2 p after).1 = Except.ok ()) →
        (EditFile req fs2).result = Except.ok r1 ∧
          currentContent (EditFile req fs2).fs p = some after) := by
  have hr1 : currentContent fs1 p = some [] := by simp [currentContent, h1]
  have hr2 : currentContent fs2 p = some [] := by simp [currentContent, h2]
  refine ⟨fun e h => EditFile_error_after_read hv hr1 h, ?_, ?_, ?_, ?_⟩
  · intro r1 h
    rw [(EditFile_ok_editOutcome hv hr1 h).1]
    exact (editOutcome_hashes req []).1
  · intro r1 r2 ha hb
    obtain ⟨e1, c1⟩ := EditFile_ok_editOutcome hv hr1 ha
    obtain ⟨e2, c2⟩ := EditFile_ok_editOutcome hv hr2 hb
    exact ⟨e1.trans e2.symm, c1.trans c2.symm⟩
  · intro r2 after hb hc hw
    obtain ⟨e2, c2⟩ := EditFile_ok_editOutcome hv hr2 hb
    have hafter : after = (editOutcome req []).2 := by
      rw [c2] at hc
      injection hc with e
      exact e.symm
    subst hafter
    subst e2
    exact EditFile_of_editOutcome hv hr1 hw
  · intro r1 after ha hc hw
    obtain ⟨e1, c1⟩ := EditFile_ok_editOutcome hv hr1 ha
    have hafter : after = (editOutcome req []).2 := by
      rw [c1] at hc
      injection hc with e
      exact e.symm
    subst hafter
    subst e1
    exact EditFile_of_editOutcome hv hr2 hw

/-- Writing `hello` where no file `new.txt` exists and where `new.txt` is an empty
file: the same result, with the hash of the empty sequence as `old_hash`, and the
same content afterwards. -/
theorem EditFile_missing_file_as_empty_witness :
    osReadFile fsOverlap (str "new.txt") = ReadResult.notExist ∧
      osReadFile (fun q => if q = str "new.txt" then some (Node.file []) else fsOverlap q)
        (str "new.txt") = ReadResult.ok [] ∧
      (EditFile (reqWrite (str "new.txt") [])
          (fun q => if q = str "new.txt" then some (Node.file []) else fsOverlap q)).result =
        Except.ok ⟨true, str "e3b0c44298fc1c149afbf4c8996fb92427ae41e4649b934ca495991b7852b855",
          str "2cf24dba5fb0a30e26e83b2ac5b9e29e1b161e5c1fa7425e73043362938b9824", 0,
          str "wrote_full"⟩ ∧
      (EditFile (reqWrite (str "new.txt") []) fsOverlap).result =
        Except.ok ⟨true, str "e3b0c44298fc1c149afbf4c8996fb92427ae41e4649b934ca495991b7852b855",
          str "2cf24dba5fb0a30e26e83b2ac5b9e29e1b161e5c1fa7425e73043362938b9824", 0,
          str "wrote_full"⟩ ∧
      currentContent (EditFile (reqWrite (str "new.txt") []) fsOverlap).fs (str "new.txt") =
        some (str "hello") :=
  have h := (EditFile_missing_file_as_empty (reqWrite (str "new.txt") []) (str "new.txt")
    fsOverlap (fun q => if q = str "new.txt" then some (Node.file []) else fsOverlap q)
    (by decide) (by decide) (by decide)).2.2.2.1
    ⟨true, str "e3b0c44298fc1c149afbf4c8996fb92427ae41e4649b934ca495991b7852b855",
      str "2cf24dba5fb0a30e26e83b2ac5b9e29e1b161e5c1fa7425e73043362938b9824", 0,
      str "wrote_full"⟩ (str "hello") (by decide) (by decide) (fun _ => by decide)
  ⟨by decide, by decide, by decide, h.1, h.2⟩

/-- C18: in every result that `EditFile` returns, `old_hash` is the hash of the
content of the file before the call (the empty content for a missing file),
`new_hash` is the hash of its content after the call, and `changed` holds exactly
when the two differ; a next request on the same path that carries this `new_hash`
as `expect_hash` is never answered with `expect_hash_mismatch`. -/
theorem EditFile_hash_accounting (req : EditFileInput) (fs : FS) (r : EditResult)
    (h : (EditFile req fs).result = Except.ok r) :
    ∃ p before after, checkRequest req = Except.ok p ∧ currentContent fs p = some before ∧
      currentContent (EditFile req fs).fs p = some after ∧
      r.OldHash = fileHash before ∧ r.NewHash = fileHash after ∧
      (r.Changed = true ↔ r.OldHash ≠ r.NewHash) ∧
      ∀ req2 r2, checkRequest req2 = Except.ok p → req2.ExpectHash = r.NewHash →
        (EditFile req2 (EditFile req fs).fs).result = Except.ok r2 →
        r2.Message ≠ str "expect_hash_mismatch" := by
  obtain ⟨p, cur, hv, hr, _⟩ := EditFile_ok_cases h
  obtain ⟨ha, hb⟩ := EditFile_ok_editOutcome hv hr h
  subst ha
  obtain ⟨h1, h2, h3⟩ := editOutcome_hashes req cur
  refine ⟨p, cur, (editOutcome req cur).2, hv, hr, hb, h1, h2, h3, ?_⟩
  intro req2 r2 hv2 he hres
  obtain ⟨ha2, _⟩ := EditFile_ok_editOutcome hv2 hb hres
  subst ha2
  exact editOutcome_message (Or.inr (he.trans h2))

/-- Appending `bar` to `notes`: the hashes of `foo` and of the new content, and
`changed=true`. -/
theorem EditFile_hash_accounting_witness :
    (EditFile (reqAppend []) fsDemo).result =
        Except.ok ⟨true, fileHash (str "foo"), fileHash (str "foo\nbar"), 0, str "appended"⟩ ∧
      ∃ p before after, checkRequest (reqAppend []) = Except.ok p ∧
        currentContent fsDemo p = some before ∧
        currentContent (EditFile (reqAppend []) fsDemo).fs p = some after ∧
        fileHash (str "foo") = fileHash before ∧ fileHash (str "foo\nbar") = fileHash after ∧
        (true = true ↔ fileHash (str "foo") ≠ fileHash (str "foo\nbar")) ∧
        ∀ req2 r2, checkRequest req2 = Except.ok p →
          req2.ExpectHash = fileHash (str "foo\nbar") →
          (EditFile req2 (EditFile (reqAppend []) fsDemo).fs).result = Except.ok r2 →
          r2.Message ≠ str "expect_hash_mismatch" :=
  ⟨by decide,
    EditFile_hash_accounting (reqAppend []) fsDemo
      ⟨true, fileHash (str "foo"), fileHash (str "foo\nbar"), 0, str "appended"⟩ (by decide)⟩

/-- C19, refuted as stated: the empty string is none of the three modes, and a
request with it, with a path that `safePath` accepts, a `new_str` and no
`expect_hash`, gets the error `path and mode are required`. -/
theorem empty_mode_is_an_error :
    safePath (str "notes") = Except.ok (str "notes") ∧
      ([] : EditMode) ≠ ModeReplaceOnce ∧ ([] : EditMode) ≠ ModeWriteFull ∧
      ([] : EditMode) ≠ ModeAppend ∧
      (EditFile ⟨str "notes", [], [], str "x", 0, [], false⟩ fsDemo).result =
        Except.error ToolError.pathAndModeRequired := by
  decide

/-- C19, amended: for a request with a non-empty path that `safePath` accepts, a
non-empty `new_str`, an `expect_hash` that is absent or matches, and a non-empty
mode that is none of `replace_once`, `write_full`, `append`, on a file that is read
or missing, `EditFile` returns no error but the result `changed=false`,
`no_change`, `replacements=0`, both hashes the hash of the content, and leaves the
file system as it was. -/
theorem EditFile_unknown_mode (req : EditFileInput) (fs : FS) (p cur : Bytes)
    (hp : req.Path ≠ []) (hs : safePath req.Path = Except.ok p) (hn : req.NewStr ≠ [])
    (hm0 : req.Mode ≠ [])
    (hm : req.Mode ≠ ModeReplaceOnce ∧ req.Mode ≠ ModeWriteFull ∧ req.Mode ≠ ModeAppend)
    (hr : currentContent fs p = some cur)
    (hh : req.ExpectHash = [] ∨ req.ExpectHash = fileHash cur) :
    (EditFile req fs).result =
        Except.ok ⟨false, fileHash cur, fileHash cur, 0, str "no_change"⟩ ∧
      (EditFile req fs).fs = fs ∧ (EditFile req fs).ops = [FsOp.read p] := by
  have hv : checkRequest req = Except.ok p := by
    unfold checkRequest
    rw [if_neg (not_or.mpr ⟨hp, hm0⟩), if_neg (fun h => hm.1 h.1), if_neg (fun h => hn h.2)]
    exact hs
  have hstep : applyMode req cur (fileHash cur) = ModeStep.candidate cur 0 := by
    unfold applyMode
    rw [if_neg hm.2.1, if_neg hm.2.2, if_neg hm.1]
  rw [EditFile_same_hash hv hr hh hstep rfl]
  exact ⟨rfl, rfl, rfl⟩

/-- The mode `rewrite` on `notes`: `no_change`, and `notes` keeps `foo`. -/
theorem EditFile_unknown_mode_witness :
    (EditFile ⟨str "notes", str "rewrite", [], str "x", 0, [], false⟩ fsDemo).result =
        Except.ok ⟨false, str "2c26b46b68ffc68ff99b453c1d30413413422d706483bfa0f98a5e886266e7ae",
          str "2c26b46b68ffc68ff99b453c1d30413413422d706483bfa0f98a5e886266e7ae", 0,
          str "no_change"⟩ ∧
      (EditFile ⟨str "notes", str "rewrite", [], str "x", 0, [], false⟩ fsDemo).fs = fsDemo ∧
      (EditFile ⟨str "notes", str "rewrite", [], str "x", 0, [], false⟩ fsDemo).ops =
        [FsOp.read (str "notes")] :=
  have h := EditFile_unknown_mode ⟨str "notes", str "rewrite", [], str "x", 0, [], false⟩
    fsDemo (str "notes") (str "foo") (by decide) (by decide) (by decide) (by decide)
    (by decide) (by decide) (Or.inl rfl)
  ⟨h.1.trans (by decide), h.2⟩

/-! ## Tool resolution and dispatch (C11, C12, C13) -/

theorem findTool_none {tools : List ToolDefinition} {name : Bytes}
    (h : ∀ t ∈ tools, t.Name ≠ name) : findTool tools name = none := by
  induction tools with
  | nil => rfl
  | cons t rest ih =>
    have ht : t.Name ≠ name := h t (by simp)
    simp only [findTool, ht, if_false]
    exact ih (fun u hu => h u (by simp [hu]))

theorem findTool_first {pre post : List ToolDefinition} {t : ToolDefinition} {name : Bytes}
    (hpre : ∀ u ∈ pre, u.Name ≠ name) (ht : t.Name = name) :
    findTool (pre ++ t :: post) name = some t := by
  induction pre with
  | nil => simp [findTool, ht]
  | cons u rest ih =>
    have hu : u.Name ≠ name := hpre u (by simp)
    simp only [List.cons_append, findTool, hu, if_false]
    exact ih (fun v hv => hpre v (by simp [hv]))

/-- C13: `executeTool` runs the function of the first registered tool with the
requested name, on the given input, and turns what the function returns into a tool
result with the given identifier: an output into a result that is no error, an
error into an error result with the text of the error (a panic of the function is
a panic of `executeTool`). When no registered tool has the name, no function is
run, the file system is untouched, and the result is the error result
`tool not found` with the identifier, with which the loop goes on. -/
theorem executeTool_resolves_first (a : Agent) (id name : Bytes) (input : RawMessage)
    (fs : FS) :
    ((∀ t ∈ a.tools, t.Name ≠ name) →
        executeTool a id name input fs =
          (some (NewToolResultBlock id (str "tool not found") true), fs, [])) ∧
      (∀ pre t post, a.tools = pre ++ t :: post → (∀ u ∈ pre, u.Name ≠ name) →
        t.Name = name →
        (∀ out fs1, t.Function input fs = (ToolReturn.value out, fs1) →
          executeTool a id name input fs =
            (some (NewToolResultBlock id out false), fs1,
              [Event.toolCall name input (ToolReturn.value out)])) ∧
        (∀ text fs1, t.Function input fs = (ToolReturn.error text, fs1) →
          executeTool a id name input fs =
            (some (NewToolResultBlock id text true), fs1,
              [Event.toolCall name input (ToolReturn.error text)])) ∧
        (∀ fs1, t.Function input fs = (ToolReturn.panic, fs1) →
          executeTool a id name input fs =
            (none, fs1, [Event.toolCall name input ToolReturn.panic]))) := by
  constructor
  · intro h
    simp [executeTool, findTool_none h]
  · intro pre t post htools hpre ht
    have hf : findTool a.tools name = some t := by
      rw [htools]
      exact findTool_first hpre ht
    refine ⟨?_, ?_, ?_⟩
    · intro out fs1 h
      simp [executeTool, hf, h]
    · intro text fs1 h
      simp [executeTool, hf, h]
    · intro fs1 h
      simp [executeTool, hf, h]

/-- With the registered tools: `read_file` on `notes` gives the content as a result
that is no error, the unknown tool `nope` gives `tool not found`, and the run goes
on to the next call of the model and ends with the end of the input. -/
theorem executeTool_resolves_first_witness :
    (executeTool agentDemo (str "t2") (str "nope") payloadNotes fsDemo).1 =
        some (NewToolResultBlock (str "t2") (str "tool not found") true) ∧
      (executeTool agentDemo (str "t1") (str "read_file") payloadNotes fsDemo).1 =
        some (NewToolResultBlock (str "t1") (str "foo") false) ∧
      (Run agentDemo 3 fsDemo).1 = RunResult.returned none ∧
      (Run agentDemo 3 fsDemo).2.calls = 2 :=
  ⟨congrArg Prod.fst
      ((executeTool_resolves_first agentDemo (str "t2") (str "nope") payloadNotes fsDemo).1
        (by decide)),
    congrArg Prod.fst
      (((executeTool_resolves_first agentDemo (str "t1") (str "read_file") payloadNotes
        fsDemo).2 [] (ReadFileDefinition libDemo)
        [ListFilesDefinition libDemo, EditFileDefinition libDemo] rfl (by simp)
        (by decide)).1 (str "foo") fsDemo rfl),
    by decide, by decide⟩

/-- C12, the code at the failing input: on the payload with a number for the path,
which does not decode, `ReadFile` and `ListFiles` panic, whatever the library and
the file system, while `EditFile` returns the error; a model response that asks for
`read_file` with this payload ends the run in a panic, after the read of the user
input and the call of the model, with no tool result appended. -/
theorem malformed_payload_panics (lib : Library) (fs : FS) :
    (ReadFileFunction lib payloadBad fs).1 = ToolReturn.panic ∧
      (ListFilesFunction lib payloadBad fs).1 = ToolReturn.panic ∧
      (EditFileFunction lib payloadBad fs).1 =
        ToolReturn.error (lib.unmarshalError payloadBad) ∧
      (executeTool agentBadPayload (str "t1") (str "read_file") payloadBad fsDemo).1 = none ∧
      (Run agentBadPayload 1 fsDemo).1 = RunResult.panicked ∧
      (Run agentBadPayload 1 fsDemo).2.trace =
        [Event.userRead (some (str "go")),
          Event.inference [NewUserMessage [NewTextBlock (str "go")]]
            (Except.ok ⟨[ContentBlock.toolUse (str "t1") (str "read_file") payloadBad]⟩),
          Event.toolCall (str "read_file") payloadBad ToolReturn.panic] ∧
      (Run agentBadPayload 1 fsDemo).2.conversation =
        [NewUserMessage [NewTextBlock (str "go")],
          (⟨[ContentBlock.toolUse (str "t1") (str "read_file") payloadBad]⟩ :
            Message).ToParam] :=
  ⟨rfl, rfl, rfl, by decide, by decide, by decide, by decide⟩

/-- What `executeTool` gives: a result with the identifier, after at most one call
of a tool function that did not panic, or nothing, after a call that did. -/
theorem executeTool_cases (a : Agent) (id name : Bytes) (input : RawMessage) (fs : FS) :
    (∃ block, (executeTool a id name input fs).1 = some block ∧ isResultFor id block ∧
        ∀ e ∈ (executeTool a id name input fs).2.2,
          e.ends = none ∧ ∃ n i ret, e = Event.toolCall n i ret) ∨
      ((executeTool a id name input fs).1 = none ∧
        (executeTool a id name input fs).2.2 = [Event.toolCall name input ToolReturn.panic]) := by
  cases hf : findTool a.tools name with
  | none =>
    have he : executeTool a id name input fs =
        (some (NewToolResultBlock id (str "tool not found") true), fs, []) := by
      simp [executeTool, hf]
    rw [he]
    left
    exact ⟨_, rfl, ⟨_, _, rfl⟩, by simp⟩
  | some t =>
    rcases hr : t.Function input fs with ⟨ret, fs1⟩
    cases ret with
    | value out =>
      have he : executeTool a id name input fs =
          (some (NewToolResultBlock id out false), fs1,
            [Event.toolCall name input (ToolReturn.value out)]) := by
        simp [executeTool, hf, hr]
      rw [he]
      left
      refine ⟨_, rfl, ⟨_, _, rfl⟩, ?_⟩
      intro e he
      simp only [List.mem_singleton] at he
      subst he
      exact ⟨rfl, _, _, _, rfl⟩
    | error text =>
      have he : executeTool a id name input fs =
          (some (NewToolResultBlock id text true), fs1,
            [Event.toolCall name input (ToolReturn.error text)]) := by
        simp [executeTool, hf, hr]
      rw [he]
      left
      refine ⟨_, rfl, ⟨_, _, rfl⟩, ?_⟩
      intro e he
      simp only [List.mem_singleton] at he
      subst he
      exact ⟨rfl, _, _, _, rfl⟩
    | panic =>
      have he : executeTool a id name input fs =
          (none, fs1, [Event.toolCall name input ToolReturn.panic]) := by
        simp [executeTool, hf, hr]
      rw [he]
      right
      exact ⟨rfl, rfl⟩

theorem collectToolResults_no_uses (a : Agent) :
    ∀ (blocks : List ContentBlock) (fs : FS) (acc : List ContentBlockParam),
      toolUseIDs blocks = [] → collectToolResults a blocks fs acc = (some acc, fs, []) := by
  intro blocks
  induction blocks with
  | nil => intro fs acc _; rfl
  | cons b rest ih =>
    intro fs acc h
    cases b with
    | text s => exact ih fs acc h
    | toolUse id name input => simp [toolUseIDs] at h
    | other ty => exact ih fs acc h

/-- When the loop over the content ends with results, there is one new result for
each `tool_use` block, in order and with its identifier, and no tool function
panicked. -/
theorem collectToolResults_some (a : Agent) :
    ∀ (blocks : List ContentBlock) (fs : FS) (acc results : List ContentBlockParam)
      (fs1 : FS) (ev : List Event),
      collectToolResults a blocks fs acc = (some results, fs1, ev) →
      (∃ new, results = acc ++ new ∧ List.Forall₂ isResultFor (toolUseIDs blocks) new) ∧
        ∀ e ∈ ev, e.ends = none ∧ ∃ n i ret, e = Event.toolCall n i ret := by
  intro blocks
  induction blocks with
  | nil =>
    intro fs acc results fs1 ev h
    simp only [collectToolResults, Prod.mk.injEq, Option.some.injEq] at h
    obtain ⟨rfl, _, rfl⟩ := h
    exact ⟨⟨[], by simp, by simp [toolUseIDs]⟩, by simp⟩
  | cons b rest ih =>
    intro fs acc results fs1 ev h
    cases b with
    | text s => exact ih fs acc results fs1 ev h
    | other ty => exact ih fs acc results fs1 ev h
    | toolUse id name input =>
      simp only [collectToolResults] at h
      rcases hx : executeTool a id name input fs with ⟨r, fsx, evx⟩
      rw [hx] at h
      have hcases := executeTool_cases a id name input fs
      rw [hx] at hcases
      cases r with
      | none => simp at h
      | some block =>
        simp only at h
        rcases hc : collectToolResults a rest fsx (acc ++ [block]) with ⟨r2, fs2, ev2⟩
        rw [hc] at h
        simp only [Prod.mk.injEq] at h
        obtain ⟨rfl, rfl, rfl⟩ := h
        obtain ⟨⟨new, hnew, hall⟩, hev⟩ := ih fsx (acc ++ [block]) results fs2 ev2 hc
        rcases hcases with ⟨block1, hb1, hres, hevx⟩ | ⟨hnone, _⟩
        · simp only [Option.some.injEq] at hb1
          subst hb1
          refine ⟨⟨block :: new, by simp [hnew], ?_⟩, ?_⟩
          · simp only [toolUseIDs]
            exact List.Forall₂.cons hres hall
          · intro e he
            rcases List.mem_append.mp he with he | he
            · exact hevx e he
            · exact hev e he
        · simp at hnone

/-- When the loop over the content ends without results, the last thing that
happened is a panic of a tool function. -/
theorem collectToolResults_none (a : Agent) :
    ∀ (blocks : List ContentBlock) (fs : FS) (acc : List ContentBlockParam)
      (fs1 : FS) (ev : List Event),
      collectToolResults a blocks fs acc = (none, fs1, ev) →
      ∃ pre n i, ev = pre ++ [Event.toolCall n i ToolReturn.panic] ∧
        ∀ e ∈ pre, e.ends = none ∧ ∃ n i ret, e = Event.toolCall n i ret := by
  intro blocks
  induction blocks with
  | nil =>
    intro fs acc fs1 ev h
    simp [collectToolResults] at h
  | cons b rest ih =>
    intro fs acc fs1 ev h
    cases b with
    | text s => exact ih fs acc fs1 ev h
    | other ty => exact ih fs acc fs1 ev h
    | toolUse id name input =>
      simp only [collectToolResults] at h
      rcases hx : executeTool a id name input fs with ⟨r, fsx, evx⟩
      rw [hx] at h
      have hcases := executeTool_cases a id name input fs
      rw [hx] at hcases
      cases r with
      | none =>
        simp only [Prod.mk.injEq, true_and] at h
        obtain ⟨_, rfl⟩ := h
        rcases hcases with ⟨block1, hb1, _⟩ | ⟨_, hevx⟩
        · simp at hb1
        · simp only at hevx
          exact ⟨[], name, input, by simp [hevx], by simp⟩
      | some block =>
        simp only at h
        rcases hc : collectToolResults a rest fsx (acc ++ [block]) with ⟨r2, fs2, ev2⟩
        rw [hc] at h
        simp only [Prod.mk.injEq] at h
        obtain ⟨rfl, rfl, rfl⟩ := h
        obtain ⟨pre, n, i, hev2, hpre⟩ := ih fsx (acc ++ [block]) fs2 ev2 hc
        rcases hcases with ⟨block1, _, _, hevx⟩ | ⟨hnone, _⟩
        · refine ⟨evx ++ pre, n, i, by simp [hev2], ?_⟩
          intro e he
          rcases List.mem_append.mp he with he | he
          · exact hevx e he
          · exact hpre e he
        · simp at hnone

/-- The dispatch of a turn whose tool functions return. After a read of user input
(when one was due) and an answer `message` of the model: if the answer has no
`tool_use` block, the turn appends the answer only and the loop waits for user input
again; if it has N of them and no tool function panics, exactly N tool results are
produced, in the order of the blocks, each with the identifier of its block, and the
turn appends the answer and one user message with these results, after which the
next turn reads no user input and calls the model on this conversation. Results are
missing only after a panic of a tool function. -/
theorem iteration_dispatches_tool_uses (a : Agent) (st st1 : RunState) (message : Message)
    (hread : readInput a st = some st1)
    (hinf : a.client st1.calls st1.conversation = Except.ok message) :
    (toolUseIDs message.Content = [] →
        (iteration a st).1 = none ∧
          (iteration a st).2.conversation = st1.conversation ++ [message.ToParam] ∧
          (iteration a st).2.readUserInput = true) ∧
      (toolUseIDs message.Content ≠ [] →
        ∀ results fs1 ev,
          collectToolResults a message.Content st1.fs [] = (some results, fs1, ev) →
          List.Forall₂ isResultFor (toolUseIDs message.Content) results ∧
            results.length = (toolUseIDs message.Content).length ∧
            (iteration a st).1 = none ∧
            (iteration a st).2.conversation =
              st1.conversation ++ [message.ToParam, NewUserMessage results] ∧
            (iteration a st).2.readUserInput = false ∧
            readInput a (iteration a st).2 = some (iteration a st).2 ∧
            (iteration a st).2.trace =
              st1.trace ++ [Event.inference st1.conversation (Except.ok message)] ++ ev ∧
            ∀ e ∈ ev, ∃ n i ret, e = Event.toolCall n i ret) ∧
      (∀ fs1 ev, collectToolResults a message.Content st1.fs [] = (none, fs1, ev) →
        (iteration a st).1 = some RunResult.panicked ∧
          ∃ pre n i, ev = pre ++ [Event.toolCall n i ToolReturn.panic]) := by
  refine ⟨?_, ?_, ?_⟩
  · intro h0
    have hc := collectToolResults_no_uses a message.Content st1.fs [] h0
    simp [iteration, hread, hinf, hc]
  · intro hne results fs1 ev hc
    obtain ⟨⟨new, hnew, hall⟩, hev⟩ := collectToolResults_some a _ _ _ _ _ _ hc
    simp only [List.nil_append] at hnew
    subst hnew
    have hlen : results.length = (toolUseIDs message.Content).length := hall.length_eq.symm
    have hpos : results.length ≠ 0 := by
      rw [hlen]
      exact fun e => hne (List.length_eq_zero.mp e)
    have hit : iteration a st =
        (none,
          { st1 with
            conversation :=
              st1.conversation ++ [message.ToParam] ++ [NewUserMessage results]
            readUserInput := false
            calls := st1.calls + 1
            fs := fs1
            trace :=
              st1.trace ++ [Event.inference st1.conversation (Except.ok message)] ++ ev }) := by
      simp only [iteration, hread, hinf, hc, if_neg hpos]
    rw [hit]
    refine ⟨hall, hlen, rfl, by simp, rfl, by simp [readInput], rfl, ?_⟩
    intro e he
    exact (hev e he).2
  · intro fs1 ev hc
    obtain ⟨pre, n, i, hev, _⟩ := collectToolResults_none a _ _ _ _ _ hc
    exact ⟨by simp [iteration, hread, hinf, hc], pre, n, i, hev⟩

/-- The first answer of the sample model has two `tool_use` blocks: the turn appends
the answer and one user message with the results for `t1` and `t2`, in this
order. -/
theorem iteration_dispatches_tool_uses_witness :
    toolUseIDs (⟨[ContentBlock.text (str "reading"),
        ContentBlock.toolUse (str "t1") (str "read_file") payloadNotes,
        ContentBlock.toolUse (str "t2") (str "nope") payloadNotes]⟩ : Message).Content =
        [str "t1", str "t2"] ∧
      (iteration agentDemo ⟨[], true, 0, 0, fsDemo, []⟩).2.conversation =
        [NewUserMessage [NewTextBlock (str "show notes")]] ++
          [(⟨[ContentBlock.text (str "reading"),
              ContentBlock.toolUse (str "t1") (str "read_file") payloadNotes,
              ContentBlock.toolUse (str "t2") (str "nope") payloadNotes]⟩ : Message).ToParam,
            NewUserMessage [NewToolResultBlock (str "t1") (str "foo") false,
              NewToolResultBlock (str "t2") (str "tool not found") true]] ∧
      (iteration agentDemo ⟨[], true, 0, 0, fsDemo, []⟩).2.readUserInput = false :=
  have h := (iteration_dispatches_tool_uses agentDemo ⟨[], true, 0, 0, fsDemo, []⟩
    ⟨[NewUserMessage [NewTextBlock (str "show notes")]], true, 1, 0, fsDemo,
      [Event.userRead (some (str "show notes"))]⟩
    ⟨[ContentBlock.text (str "reading"),
      ContentBlock.toolUse (str "t1") (str "read_file") payloadNotes,
      ContentBlock.toolUse (str "t2") (str "nope") payloadNotes]⟩ rfl rfl).2.1 (by decide)
    [NewToolResultBlock (str "t1") (str "foo") false,
      NewToolResultBlock (str "t2") (str "tool not found") true] fsDemo
    [Event.toolCall (str "read_file") payloadNotes (ToolReturn.value (str "foo"))] rfl
  ⟨by decide, h.2.2.2.1, h.2.2.2.2.1⟩

/-- C11, the code at the failing input: the answer of the model has one `tool_use`
block, `t1`, for `read_file` with the payload that does not decode. The loop over
the blocks ends in the panic of `ReadFile` without a result, the turn leaves the
loop of `Run`, and however long the run is observed it has ended in the panic after
one call of the model, the conversation holding the line of the user and the answer
of the model only: no tool result carries `t1`, and no user message with results
was appended. -/
theorem tool_use_without_result :
    agentBadPayload.client 0 [NewUserMessage [NewTextBlock (str "go")]] =
        Except.ok ⟨[ContentBlock.toolUse (str "t1") (str "read_file") payloadBad]⟩ ∧
      toolUseIDs [ContentBlock.toolUse (str "t1") (str "read_file") payloadBad] = [str "t1"] ∧
      (collectToolResults agentBadPayload
        [ContentBlock.toolUse (str "t1") (str "read_file") payloadBad] fsDemo []).1 = none ∧
      (iteration agentBadPayload ⟨[], true, 0, 0, fsDemo, []⟩).1 = some RunResult.panicked ∧
      ∀ fuel, (Run agentBadPayload (fuel + 1) fsDemo).1 = RunResult.panicked ∧
        (Run agentBadPayload (fuel + 1) fsDemo).2.calls = 1 ∧
        (Run agentBadPayload (fuel + 1) fsDemo).2.conversation =
          [NewUserMessage [NewTextBlock (str "go")],
            (⟨[ContentBlock.toolUse (str "t1") (str "read_file") payloadBad]⟩ :
              Message).ToParam] := by
  refine ⟨rfl, by decide, by decide, by decide, ?_⟩
  intro fuel
  have h : Run agentBadPayload (fuel + 1) fsDemo = Run agentBadPayload 1 fsDemo := rfl
  rw [h]
  exact ⟨by decide, by decide, by decide⟩

/-! ## The causes of termination (C14) -/

/-- The read at the start of a turn: none was due, or a line was read and appended
as a user message, or the input was at its end. -/
theorem readInput_cases (a : Agent) (st : RunState) :
    (st.readUserInput = false ∧ readInput a st = some st) ∨
      (st.readUserInput = true ∧ ∃ line, a.getUserMessage st.reads = some line ∧
        readInput a st = some { st with
          conversation := st.conversation ++ [NewUserMessage [NewTextBlock line]]
          reads := st.reads + 1
          trace := st.trace ++ [Event.userRead (some line)] }) ∨
      (st.readUserInput = true ∧ a.getUserMessage st.reads = none ∧ readInput a st = none) := by
  cases hr : st.readUserInput with
  | false => exact Or.inl ⟨rfl, by simp [readInput, hr]⟩
  | true =>
    right
    cases hg : a.getUserMessage st.reads with
    | none => exact Or.inr ⟨rfl, rfl, by simp [readInput, hr, hg]⟩
    | some line => exact Or.inl ⟨rfl, line, rfl, by simp [readInput, hr, hg]⟩

theorem readInput_trace {a : Agent} {st st1 : RunState} (h : readInput a st = some st1) :
    ∃ r, st1.trace = st.trace ++ r ∧ ∀ x ∈ r, x.ends = none ∧ ∀ c res, x ≠ Event.inference c res := by
  rcases readInput_cases a st with ⟨_, h1⟩ | ⟨_, line, _, h1⟩ | ⟨_, _, h1⟩
  · rw [h1] at h
    simp only [Option.some.injEq] at h
    subst h
    exact ⟨[], by simp, by simp⟩
  · rw [h1] at h
    simp only [Option.some.injEq] at h
    subst h
    refine ⟨[Event.userRead (some line)], rfl, ?_⟩
    intro x hx
    simp only [List.mem_singleton] at hx
    subst hx
    exact ⟨rfl, by simp⟩
  · rw [h1] at h
    simp at h

/-- The events of one turn: when the loop goes on none of them ends a run; when the
loop is left, the last of them, and only the last, is the cause. -/
theorem iteration_trace (a : Agent) (st : RunState) :
    ∃ added, (iteration a st).2.trace = st.trace ++ added ∧
      ((iteration a st).1 = none → ∀ x ∈ added, x.ends = none) ∧
      (∀ res, (iteration a st).1 = some res →
        ∃ pre e, added = pre ++ [e] ∧ (∀ x ∈ pre, x.ends = none) ∧ e.ends = some res) := by
  cases hread : readInput a st with
  | none =>
    refine ⟨[Event.userRead none], by simp [iteration, hread], by simp [iteration, hread], ?_⟩
    intro res hres
    simp only [iteration, hread, Option.some.injEq] at hres
    subst hres
    exact ⟨[], _, rfl, by simp, rfl⟩
  | some st1 =>
    obtain ⟨r, hr, hrends⟩ := readInput_trace hread
    cases hinf : a.client st1.calls st1.conversation with
    | error err =>
      refine ⟨r ++ [Event.inference st1.conversation (Except.error err)],
        by simp [iteration, hread, hinf, hr], by simp [iteration, hread, hinf], ?_⟩
      intro res hres
      simp only [iteration, hread, hinf, Option.some.injEq] at hres
      subst hres
      exact ⟨r, _, rfl, fun x hx => (hrends x hx).1, rfl⟩
    | ok message =>
      rcases hc : collectToolResults a message.Content st1.fs [] with ⟨res0, fs1, ev⟩
      cases res0 with
      | none =>
        obtain ⟨pre, n, i, hev, hpre⟩ := collectToolResults_none a _ _ _ _ _ hc
        refine ⟨r ++ [Event.inference st1.conversation (Except.ok message)] ++ ev,
          by simp [iteration, hread, hinf, hc, hr], by simp [iteration, hread, hinf, hc], ?_⟩
        intro res hres
        simp only [iteration, hread, hinf, hc, Option.some.injEq] at hres
        subst hres
        refine ⟨r ++ [Event.inference st1.conversation (Except.ok message)] ++ pre,
          Event.toolCall n i ToolReturn.panic, by simp [hev], ?_, rfl⟩
        intro x hx
        simp only [List.mem_append, List.mem_singleton] at hx
        rcases hx with (hx | hx) | hx
        · exact (hrends x hx).1
        · subst hx
          rfl
        · exact (hpre x hx).1
      | some results =>
        obtain ⟨_, hev⟩ := collectToolResults_some a _ _ _ _ _ _ hc
        have hall : ∀ x ∈ r ++ [Event.inference st1.conversation (Except.ok message)] ++ ev,
            x.ends = none := by
          intro x hx
          simp only [List.mem_append, List.mem_singleton] at hx
          rcases hx with (hx | hx) | hx
          · exact (hrends x hx).1
          · subst hx
            rfl
          · exact (hev x hx).1
        refine ⟨r ++ [Event.inference st1.conversation (Except.ok message)] ++ ev, ?_,
          fun _ => hall, ?_⟩
        · simp only [iteration, hread, hinf, hc]
          split <;> simp [hr]
        · intro res hres
          simp only [iteration, hread, hinf, hc] at hres
          split at hres <;> simp at hres

/-- The events of a run: while the loop is running none of them ends a run; once
the loop is left, the last event, and only the last, is the cause. -/
theorem runLoop_trace (a : Agent) :
    ∀ (fuel : Nat) (st : RunState), (∀ x ∈ st.trace, x.ends = none) →
      ((runLoop a fuel st).1 = RunResult.running ∧
          ∀ x ∈ (runLoop a fuel st).2.trace, x.ends = none) ∨
        ∃ pre e, (runLoop a fuel st).2.trace = pre ++ [e] ∧ (∀ x ∈ pre, x.ends = none) ∧
          e.ends = some (runLoop a fuel st).1 := by
  intro fuel
  induction fuel with
  | zero =>
    intro st h
    exact Or.inl ⟨rfl, h⟩
  | succ fuel ih =>
    intro st h
    obtain ⟨added, htr, hgo, hend⟩ := iteration_trace a st
    rcases hit : iteration a st with ⟨r, st1⟩
    rw [hit] at htr hgo hend
    simp only at htr hgo hend
    cases r with
    | none =>
      have hst1 : ∀ x ∈ st1.trace, x.ends = none := by
        intro x hx
        rw [htr] at hx
        rcases List.mem_append.mp hx with hx | hx
        · exact h x hx
        · exact hgo rfl x hx
      have := ih st1 hst1
      simpa [runLoop, hit] using this
    | some res =>
      obtain ⟨pre, e, hadd, hpre, he⟩ := hend res rfl
      right
      refine ⟨st.trace ++ pre, e, by simp [runLoop, hit, htr, hadd], ?_, by simp [runLoop, hit, he]⟩
      intro x hx
      rcases List.mem_append.mp hx with hx | hx
      · exact h x hx
      · exact hpre x hx

theorem Event.ends_returned_nil {e : Event} (h : e.ends = some (RunResult.returned none)) :
    e = Event.userRead none := by
  cases e with
  | userRead line =>
    cases line with
    | none => rfl
    | some l => simp [Event.ends] at h
  | inference c r =>
    cases r with
    | error err => simp [Event.ends] at h
    | ok m => simp [Event.ends] at h
  | toolCall n i ret =>
    cases ret <;> simp [Event.ends] at h

theorem Event.ends_returned_error {e : Event} {err : Bytes}
    (h : e.ends = some (RunResult.returned (some err))) :
    ∃ conv, e = Event.inference conv (Except.error err) := by
  cases e with
  | userRead line =>
    cases line <;> simp [Event.ends] at h
  | inference c r =>
    cases r with
    | error err1 =>
      simp only [Event.ends, Option.some.injEq, RunResult.returned.injEq] at h
      subst h
      exact ⟨c, rfl⟩
    | ok m => simp [Event.ends] at h
  | toolCall n i ret =>
    cases ret <;> simp [Event.ends] at h

theorem last_of_append_singleton {α : Type} {pre1 post pre : List α} {e e0 : α}
    (h : pre1 ++ e :: post = pre ++ [e0]) (hne : e ∉ pre) : post = [] ∧ e = e0 := by
  rcases List.eq_nil_or_concat post with hp | ⟨post1, z, hp⟩
  · subst hp
    have := List.append_inj' h rfl
    simp only [List.cons.injEq, and_true] at this
    exact ⟨rfl, this.2⟩
  · rw [List.concat_eq_append] at hp
    subst hp
    have h2 : (pre1 ++ e :: post1) ++ [z] = pre ++ [e0] := by simpa using h
    have := List.append_inj' h2 rfl
    exact absurd (this.1 ▸ (by simp : e ∈ pre1 ++ e :: post1)) hne

/-- A turn never leaves the loop with the mark of a loop that is still running. -/
theorem iteration_ne_running (a : Agent) (st : RunState) :
    (iteration a st).1 ≠ some RunResult.running := by
  cases hread : readInput a st with
  | none => simp [iteration, hread]
  | some st1 =>
    cases hinf : a.client st1.calls st1.conversation with
    | error err => simp [iteration, hread, hinf]
    | ok message =>
      rcases hc : collectToolResults a message.Content st1.fs [] with ⟨res0, fs1, ev⟩
      cases res0 with
      | none => simp [iteration, hread, hinf, hc]
      | some results =>
        simp only [iteration, hread, hinf, hc]
        split <;> simp

/-- A turn at which a read is due and the input is at its end leaves the loop with
`nil`; nothing else happens in it. -/
theorem iteration_end_of_input {a : Agent} {st : RunState}
    (h1 : st.readUserInput = true) (h2 : a.getUserMessage st.reads = none) :
    iteration a st =
      (some (RunResult.returned none), { st with trace := st.trace ++ [Event.userRead none] }) := by
  simp [iteration, readInput, h1, h2]

/-- A turn leaves the loop with `nil` only when a read was due and the input was at
its end. -/
theorem iteration_returned_nil {a : Agent} {st : RunState}
    (h : (iteration a st).1 = some (RunResult.returned none)) :
    st.readUserInput = true ∧ a.getUserMessage st.reads = none ∧
      (iteration a st).2 = { st with trace := st.trace ++ [Event.userRead none] } := by
  cases hread : readInput a st with
  | none =>
    rcases readInput_cases a st with ⟨_, h1⟩ | ⟨_, line, _, h1⟩ | ⟨h0, h1, _⟩
    · rw [h1] at hread
      simp at hread
    · rw [h1] at hread
      simp at hread
    · exact ⟨h0, h1, by rw [iteration_end_of_input h0 h1]⟩
  | some st1 =>
    exfalso
    cases hinf : a.client st1.calls st1.conversation with
    | error err => simp [iteration, hread, hinf] at h
    | ok message =>
      rcases hc : collectToolResults a message.Content st1.fs [] with ⟨res0, fs1, ev⟩
      cases res0 with
      | none => simp [iteration, hread, hinf, hc] at h
      | some results =>
        simp only [iteration, hread, hinf, hc] at h
        split at h <;> simp at h

/-- A turn in which the call of the model fails leaves the loop with the error of
the call, right after the call: no tool runs and the file system is untouched. -/
theorem iteration_client_error {a : Agent} {st st1 : RunState} {err : Bytes}
    (hread : readInput a st = some st1)
    (hinf : a.client st1.calls st1.conversation = Except.error err) :
    iteration a st =
      (some (RunResult.returned (some err)),
        { st1 with
          calls := st1.calls + 1
          trace := st1.trace ++ [Event.inference st1.conversation (Except.error err)] }) := by
  simp [iteration, hread, hinf]

/-- A turn leaves the loop with an error only when its call of the model failed with
this error. -/
theorem iteration_returned_error {a : Agent} {st : RunState} {err : Bytes}
    (h : (iteration a st).1 = some (RunResult.returned (some err))) :
    ∃ st1, readInput a st = some st1 ∧
      a.client st1.calls st1.conversation = Except.error err ∧
      (iteration a st).2 =
        { st1 with
          calls := st1.calls + 1
          trace := st1.trace ++ [Event.inference st1.conversation (Except.error err)] } := by
  cases hread : readInput a st with
  | none => simp [iteration, hread] at h
  | some st1 =>
    cases hinf : a.client st1.calls st1.conversation with
    | error err1 =>
      have he : err1 = err := by
        simpa [iteration, hread, hinf] using h
      subst he
      exact ⟨st1, rfl, hinf, by rw [iteration_client_error hread hinf]⟩
    | ok message =>
      exfalso
      rcases hc : collectToolResults a message.Content st1.fs [] with ⟨res0, fs1, ev⟩
      cases res0 with
      | none => simp [iteration, hread, hinf, hc] at h
      | some results =>
        simp only [iteration, hread, hinf, hc] at h
        split at h <;> simp at h

/-- A turn whose tool functions all returned, be it with errors, goes on to the next
turn. -/
theorem iteration_goes_on {a : Agent} {st st1 : RunState} {message : Message}
    {results : List ContentBlockParam} {fs1 : FS} {ev : List Event}
    (hread : readInput a st = some st1)
    (hinf : a.client st1.calls st1.conversation = Except.ok message)
    (hc : collectToolResults a message.Content st1.fs [] = (some results, fs1, ev)) :
    (iteration a st).1 = none := by
  simp only [iteration, hread, hinf, hc]
  split <;> rfl

/-- One more turn of a loop that is still running. -/
theorem runLoop_step (a : Agent) :
    ∀ (fuel : Nat) (st : RunState), (runLoop a fuel st).1 = RunResult.running →
      runLoop a (fuel + 1) st =
        match iteration a (runLoop a fuel st).2 with
        | (some result, st1) => (result, st1)
        | (none, st1) => (RunResult.running, st1) := by
  intro fuel
  induction fuel with
  | zero =>
    intro st _
    simp only [runLoop]
  | succ fuel ih =>
    intro st h
    rcases hit : iteration a st with ⟨r, s1⟩
    cases r with
    | some res =>
      exfalso
      have h2 : runLoop a (fuel + 1) st = (res, s1) := by simp [runLoop, hit]
      rw [h2] at h
      simp only at h
      subst h
      exact iteration_ne_running a st (by rw [hit])
    | none =>
      have h2 : runLoop a (fuel + 1) st = runLoop a fuel s1 := by simp [runLoop, hit]
      have h3 : runLoop a (fuel + 1 + 1) st = runLoop a (fuel + 1) s1 := by
        simp [runLoop, hit]
      rw [h2] at h
      rw [h3, h2]
      exact ih s1 h

/-- A loop left with `nil` was left at a read that was due, with the input at its
end. -/
theorem runLoop_returned_nil (a : Agent) :
    ∀ (fuel : Nat) (st : RunState), (runLoop a fuel st).1 = RunResult.returned none →
      (runLoop a fuel st).2.readUserInput = true ∧
        a.getUserMessage (runLoop a fuel st).2.reads = none := by
  intro fuel
  induction fuel with
  | zero =>
    intro st h
    simp [runLoop] at h
  | succ fuel ih =>
    intro st h
    rcases hit : iteration a st with ⟨r, s1⟩
    cases r with
    | some res =>
      have h2 : runLoop a (fuel + 1) st = (res, s1) := by simp [runLoop, hit]
      rw [h2] at h ⊢
      simp only at h
      subst h
      obtain ⟨c1, c2, c3⟩ := @iteration_returned_nil a st (by rw [hit])
      rw [hit] at c3
      simp only at c3
      subst c3
      exact ⟨c1, c2⟩
    | none =>
      have h2 : runLoop a (fuel + 1) st = runLoop a fuel s1 := by simp [runLoop, hit]
      rw [h2] at h ⊢
      exact ih s1 h

/-- A loop left with an error was left at a call of the model, the last one counted,
that failed with this error on the conversation as it stands. -/
theorem runLoop_returned_error (a : Agent) :
    ∀ (fuel : Nat) (st : RunState) (err : Bytes),
      (runLoop a fuel st).1 = RunResult.returned (some err) →
      0 < (runLoop a fuel st).2.calls ∧
        a.client ((runLoop a fuel st).2.calls - 1) (runLoop a fuel st).2.conversation =
          Except.error err := by
  intro fuel
  induction fuel with
  | zero =>
    intro st err h
    simp [runLoop] at h
  | succ fuel ih =>
    intro st err h
    rcases hit : iteration a st with ⟨r, s1⟩
    cases r with
    | some res =>
      have h2 : runLoop a (fuel + 1) st = (res, s1) := by simp [runLoop, hit]
      rw [h2] at h ⊢
      simp only at h
      subst h
      obtain ⟨st1, _, c2, c3⟩ := @iteration_returned_error a st err (by rw [hit])
      rw [hit] at c3
      simp only at c3
      subst c3
      exact ⟨Nat.succ_pos _, by simpa using c2⟩
    | none =>
      have h2 : runLoop a (fuel + 1) st = runLoop a fuel s1 := by simp [runLoop, hit]
      rw [h2] at h ⊢
      exact ih s1 err h

/-- C14: `Run` has returned `nil` exactly when a read of user input signalled the end
of the input, and has returned an error exactly when a call to the model failed,
the error being that of the call; either event is the last one of the run, so that
after it no tool runs and no input is read; and when the last event is a tool
function returning an error, the run has not ended. The events are those of the
agent: a run that returned `nil` stands at a read that was due and for which
`getUserMessage` gave no line, and a run that returned an error stands right after
the call of the model, on the conversation as it is, that failed with this error.
In the other direction, a loop still running after `fuel` turns that is due to read
when `getUserMessage` gives no line returns `nil` in the next turn, with nothing
else done; one whose call of the model fails returns this error in the next turn,
with no tool run and the file system as it was; and one whose tool functions all
return, be it with errors, is still running after the next turn. -/
theorem Run_termination_causes (a : Agent) (fuel : Nat) (fs : FS) :
    ((Run a fuel fs).1 = RunResult.returned none ↔
        Event.userRead none ∈ (Run a fuel fs).2.trace) ∧
      (∀ err, (Run a fuel fs).1 = RunResult.returned (some err) ↔
        ∃ conv, Event.inference conv (Except.error err) ∈ (Run a fuel fs).2.trace) ∧
      (∀ pre e post, (Run a fuel fs).2.trace = pre ++ e :: post →
        (e = Event.userRead none ∨ ∃ conv err, e = Event.inference conv (Except.error err)) →
        post = []) ∧
      (∀ n i text,
        (Run a fuel fs).2.trace.getLast? = some (Event.toolCall n i (ToolReturn.error text)) →
        (Run a fuel fs).1 = RunResult.running) ∧
      ((Run a fuel fs).1 = RunResult.returned none →
        (Run a fuel fs).2.readUserInput = true ∧
          a.getUserMessage (Run a fuel fs).2.reads = none) ∧
      (∀ err, (Run a fuel fs).1 = RunResult.returned (some err) →
        0 < (Run a fuel fs).2.calls ∧
          a.client ((Run a fuel fs).2.calls - 1) (Run a fuel fs).2.conversation =
            Except.error err) ∧
      ((Run a fuel fs).1 = RunResult.running →
        ((Run a fuel fs).2.readUserInput = true →
          a.getUserMessage (Run a fuel fs).2.reads = none →
          Run a (fuel + 1) fs =
            (RunResult.returned none,
              { (Run a fuel fs).2 with
                trace := (Run a fuel fs).2.trace ++ [Event.userRead none] })) ∧
        (∀ st1 err, readInput a (Run a fuel fs).2 = some st1 →
          a.client st1.calls st1.conversation = Except.error err →
          Run a (fuel + 1) fs =
            (RunResult.returned (some err),
              { st1 with
                calls := st1.calls + 1
                trace := st1.trace ++ [Event.inference st1.conversation (Except.error err)] })) ∧
        (∀ st1 message results fs1 ev, readInput a (Run a fuel fs).2 = some st1 →
          a.client st1.calls st1.conversation = Except.ok message →
          collectToolResults a message.Content st1.fs [] = (some results, fs1, ev) →
          (Run a (fuel + 1) fs).1 = RunResult.running)) := by
  have hmain := runLoop_trace a fuel ⟨[], true, 0, 0, fs, []⟩ (by simp)
  have hnil := runLoop_returned_nil a fuel ⟨[], true, 0, 0, fs, []⟩
  have herr := runLoop_returned_error a fuel ⟨[], true, 0, 0, fs, []⟩
  have hstep := runLoop_step a fuel ⟨[], true, 0, 0, fs, []⟩
  unfold Run
  have hnext : (runLoop a fuel ⟨[], true, 0, 0, fs, []⟩).1 = RunResult.running →
      ((runLoop a fuel ⟨[], true, 0, 0, fs, []⟩).2.readUserInput = true →
        a.getUserMessage (runLoop a fuel ⟨[], true, 0, 0, fs, []⟩).2.reads = none →
        runLoop a (fuel + 1) ⟨[], true, 0, 0, fs, []⟩ =
          (RunResult.returned none,
            { (runLoop a fuel ⟨[], true, 0, 0, fs, []⟩).2 with
              trace := (runLoop a fuel ⟨[], true, 0, 0, fs, []⟩).2.trace ++
                [Event.userRead none] })) ∧
      (∀ st1 err, readInput a (runLoop a fuel ⟨[], true, 0, 0, fs, []⟩).2 = some st1 →
        a.client st1.calls st1.conversation = Except.error err →
        runLoop a (fuel + 1) ⟨[], true, 0, 0, fs, []⟩ =
          (RunResult.returned (some err),
            { st1 with
              calls := st1.calls + 1
              trace := st1.trace ++ [Event.inference st1.conversation (Except.error err)] })) ∧
      (∀ st1 message results fs1 ev,
        readInput a (runLoop a fuel ⟨[], true, 0, 0, fs, []⟩).2 = some st1 →
        a.client st1.calls st1.conversation = Except.ok message →
        collectToolResults a message.Content st1.fs [] = (some results, fs1, ev) →
        (runLoop a (fuel + 1) ⟨[], true, 0, 0, fs, []⟩).1 = RunResult.running) := by
    intro hrun
    have hs := hstep hrun
    refine ⟨?_, ?_, ?_⟩
    · intro h1 h2
      rw [hs, iteration_end_of_input h1 h2]
    · intro st1 err hread hinf
      rw [hs, iteration_client_error hread hinf]
    · intro st1 message results fs1 ev hread hinf hc
      have hgo := iteration_goes_on hread hinf hc
      rw [hs]
      rcases hit : iteration a (runLoop a fuel ⟨[], true, 0, 0, fs, []⟩).2 with ⟨r, s1⟩
      rw [hit] at hgo
      simp only at hgo
      subst hgo
      rfl
  rcases hmain with ⟨hrun, hnone⟩ | ⟨pre, e, htr, hpre, he⟩
  · refine ⟨?_, ?_, ?_, ?_, hnil, herr, hnext⟩
    · constructor
      · intro h
        rw [hrun] at h
        exact absurd h (by simp)
      · intro h
        exact absurd (hnone _ h) (by simp [Event.ends])
    · intro err
      constructor
      · intro h
        rw [hrun] at h
        exact absurd h (by simp)
      · rintro ⟨conv, h⟩
        exact absurd (hnone _ h) (by simp [Event.ends])
    · intro pre1 e1 post h1 he1
      have hmem : e1 ∈ (runLoop a fuel ⟨[], true, 0, 0, fs, []⟩).2.trace := by
        rw [h1]
        simp
      have := hnone e1 hmem
      rcases he1 with rfl | ⟨conv, err, rfl⟩
      · simp [Event.ends] at this
      · simp [Event.ends] at this
    · intro _ _ _ _
      exact hrun
  · refine ⟨?_, ?_, ?_, ?_, hnil, herr, hnext⟩
    · constructor
      · intro h
        rw [h] at he
        rw [htr, Event.ends_returned_nil he]
        simp
      · intro h
        rw [htr] at h
        rcases List.mem_append.mp h with h | h
        · exact absurd (hpre _ h) (by simp [Event.ends])
        · simp only [List.mem_singleton] at h
          rw [← h] at he
          simp only [Event.ends, Option.some.injEq] at he
          exact he.symm
    · intro err
      constructor
      · intro h
        rw [h] at he
        obtain ⟨conv, hc⟩ := Event.ends_returned_error he
        exact ⟨conv, by rw [htr, hc]; simp⟩
      · rintro ⟨conv, h⟩
        rw [htr] at h
        rcases List.mem_append.mp h with h | h
        · exact absurd (hpre _ h) (by simp [Event.ends])
        · simp only [List.mem_singleton] at h
          rw [← h] at he
          simp only [Event.ends, Option.some.injEq] at he
          exact he.symm
    · intro pre1 e1 post h1 he1
      rw [htr] at h1
      have hne : e1 ∉ pre := by
        intro hm
        have := hpre e1 hm
        rcases he1 with rfl | ⟨conv, err, rfl⟩
        · simp [Event.ends] at this
        · simp [Event.ends] at this
      exact (last_of_append_singleton h1.symm hne).1
    · intro n i text hlast
      rw [htr] at hlast
      simp only [List.getLast?_append, List.getLast?_singleton] at hlast
      have hor : (some e).or pre.getLast? = some e := rfl
      rw [hor, Option.some.injEq] at hlast
      rw [hlast] at he
      simp [Event.ends] at he

/-- Two runs to their end and one in its course: the end of the input gives `nil`,
at the second read, for which the user gave no line; a failed call of the model
gives its error, the third call being the one that failed; and a tool function that
returned an error leaves the loop running. -/
theorem Run_termination_causes_witness :
    Event.userRead none ∈ (Run agentDemo 3 fsDemo).2.trace ∧
      ((Run agentDemo 3 fsDemo).2.readUserInput = true ∧
        agentDemo.getUserMessage (Run agentDemo 3 fsDemo).2.reads = none) ∧
      (Run agentDemo 3 fsDemo).2.reads = 1 ∧
      (∃ conv, Event.inference conv (Except.error (str "overloaded")) ∈
        (Run agentTalkative 3 fsDemo).2.trace) ∧
      (0 < (Run agentTalkative 3 fsDemo).2.calls ∧
        agentTalkative.client ((Run agentTalkative 3 fsDemo).2.calls - 1)
          (Run agentTalkative 3 fsDemo).2.conversation = Except.error (str "overloaded")) ∧
      (Run agentTalkative 3 fsDemo).2.calls = 3 ∧
      (Run agentToolError 1 fsDemo).2.trace.getLast? =
        some (Event.toolCall (str "read_file") payloadMissing (ToolReturn.error (str "error"))) ∧
      (Run agentToolError 1 fsDemo).1 = RunResult.running ∧
      (Run agentToolError 3 fsDemo).1 = RunResult.returned none :=
  ⟨(Run_termination_causes agentDemo 3 fsDemo).1.mp (by decide),
    (Run_termination_causes agentDemo 3 fsDemo).2.2.2.2.1 (by decide),
    by decide,
    ((Run_termination_causes agentTalkative 3 fsDemo).2.1 (str "overloaded")).mp (by decide),
    (Run_termination_causes agentTalkative 3 fsDemo).2.2.2.2.2.1 (str "overloaded") (by decide),
    by decide,
    by decide,
    (Run_termination_causes agentToolError 1 fsDemo).2.2.2.1 (str "read_file") payloadMissing
      (str "error") (by decide),
    by decide⟩

/-! ## The shape of the conversation (C20) -/

theorem alternates_nil : alternates [] := by
  intro i m h
  simp at h

theorem alternates_snoc {conv : List MessageParam} {m : MessageParam}
    (h : alternates conv)
    (hm : m.role = if conv.length % 2 = 0 then Role.user else Role.assistant) :
    alternates (conv ++ [m]) := by
  intro i x hx
  by_cases hi : i < conv.length
  · rw [List.getElem?_append_left hi] at hx
    exact h i x hx
  · rw [List.getElem?_append_right (by omega)] at hx
    by_cases h0 : i - conv.length = 0
    · have hic : i = conv.length := by omega
      rw [h0] at hx
      simp only [List.getElem?_cons_zero, Option.some.injEq] at hx
      subst hx
      rw [hic]
      exact hm
    · obtain ⟨k, hk⟩ : ∃ k, i - conv.length = k + 1 := ⟨i - conv.length - 1, by omega⟩
      rw [hk] at hx
      simp at hx

theorem alternates_prefix {c conv : List MessageParam} (hp : c <+: conv)
    (h : alternates conv) : alternates c := by
  obtain ⟨t, rfl⟩ := hp
  intro i m hm
  have hi : i < c.length := by
    by_contra hn
    rw [List.getElem?_eq_none (by omega)] at hm
    simp at hm
  exact h i m (by rw [List.getElem?_append_left hi]; exact hm)

/-- An alternating conversation of odd length is not empty and begins and ends with
a message of the user. -/
theorem alternates_odd {conv : List MessageParam} (h : alternates conv)
    (hodd : conv.length % 2 = 1) :
    conv ≠ [] ∧ (∃ m, conv.head? = some m ∧ m.role = Role.user) ∧
      (∃ m, conv.getLast? = some m ∧ m.role = Role.user) := by
  have hne : conv ≠ [] := by
    intro e
    subst e
    simp at hodd
  refine ⟨hne, ?_, ?_⟩
  · cases conv with
    | nil => exact absurd rfl hne
    | cons m t =>
      refine ⟨m, rfl, ?_⟩
      have := h 0 m (by simp)
      simpa using this
  · have hlast : conv.getLast? = conv[conv.length - 1]? := List.getLast?_eq_getElem? conv
    have hlt : conv.length - 1 < conv.length := by
      have : 0 < conv.length := List.length_pos.mpr hne
      omega
    refine ⟨conv[conv.length - 1], by rw [hlast, List.getElem?_eq_getElem hlt], ?_⟩
    have := h (conv.length - 1) _ (List.getElem?_eq_getElem hlt)
    rw [this, if_pos (by omega)]

theorem Event.before_of_not_inference_left {e1 e2 : Event}
    (h : ∀ c r, e1 ≠ Event.inference c r) : Event.before e1 e2 :=
  fun c1 r1 _ _ h1 _ => absurd h1 (h c1 r1)

theorem Event.before_of_not_inference_right {e1 e2 : Event}
    (h : ∀ c r, e2 ≠ Event.inference c r) : Event.before e1 e2 :=
  fun _ _ c2 r2 _ h2 => absurd h2 (h c2 r2)

theorem pairwise_before_of_no_inference {l : List Event}
    (h : ∀ x ∈ l, ∀ c r, x ≠ Event.inference c r) : List.Pairwise Event.before l := by
  induction l with
  | nil => exact List.Pairwise.nil
  | cons x t ih =>
    refine List.Pairwise.cons ?_ (ih (fun y hy => h y (by simp [hy])))
    intro y _
    exact Event.before_of_not_inference_left (h x (by simp))

/-- A single call to the model among events that are none. -/
theorem pairwise_before_one {l1 l2 : List Event} (e : Event)
    (h1 : ∀ x ∈ l1, ∀ c r, x ≠ Event.inference c r)
    (h2 : ∀ x ∈ l2, ∀ c r, x ≠ Event.inference c r) :
    List.Pairwise Event.before (l1 ++ [e] ++ l2) := by
  rw [List.pairwise_append, List.pairwise_append]
  refine ⟨⟨pairwise_before_of_no_inference h1, List.pairwise_singleton _ _, ?_⟩,
    pairwise_before_of_no_inference h2, ?_⟩
  · intro x hx y _
    exact Event.before_of_not_inference_left (h1 x hx)
  · intro x _ y hy
    exact Event.before_of_not_inference_right (h2 y hy)

/-- One turn of the loop, on a conversation that alternates and whose length is even
exactly when user input is due: the conversation is extended and still alternates;
the turn makes at most one call to the model, on an extension of odd length of the
old conversation that the new conversation extends; and when the loop goes on, the
length of the new conversation is even exactly when user input is due. -/
theorem iteration_shape (a : Agent) (st : RunState) (halt : alternates st.conversation)
    (hpar : st.readUserInput = true ↔ st.conversation.length % 2 = 0) :
    alternates (iteration a st).2.conversation ∧
      st.conversation <+: (iteration a st).2.conversation ∧
      ((iteration a st).1 = none →
        ((iteration a st).2.readUserInput = true ↔
          (iteration a st).2.conversation.length % 2 = 0)) ∧
      ∃ added, (iteration a st).2.trace = st.trace ++ added ∧
        (∀ c r, Event.inference c r ∈ added →
          st.conversation <+: c ∧ c <+: (iteration a st).2.conversation ∧
            c.length % 2 = 1) ∧
        List.Pairwise Event.before added := by
  rcases readInput_cases a st with ⟨hf, h1⟩ | ⟨ht, line, _, h1⟩ | ⟨_, _, h1⟩
  case inr.inr =>
    have hit : iteration a st =
        (some (RunResult.returned none),
          { st with trace := st.trace ++ [Event.userRead none] }) := by
      simp [iteration, h1]
    rw [hit]
    refine ⟨halt, List.prefix_refl _, by simp, [Event.userRead none], rfl, by simp, ?_⟩
    exact List.pairwise_singleton _ _
  all_goals
    obtain ⟨st1, hread, hpre1, halt1, hodd1, r, htr1, hr1⟩ :
        ∃ st1, readInput a st = some st1 ∧ st.conversation <+: st1.conversation ∧
          alternates st1.conversation ∧ st1.conversation.length % 2 = 1 ∧
          ∃ r, st1.trace = st.trace ++ r ∧ ∀ x ∈ r, ∀ c res, x ≠ Event.inference c res := by
      first
        | refine ⟨st, h1, List.prefix_refl _, halt, ?_, [], by simp, by simp⟩
          have hnp : ¬ st.conversation.length % 2 = 0 := fun e => by
            have := hpar.mpr e
            rw [hf] at this
            exact absurd this (by decide)
          omega
        | refine ⟨_, h1, List.prefix_append _ _,
            alternates_snoc halt (by rw [if_pos (hpar.mp ht)]; rfl), ?_,
            [Event.userRead (some line)], rfl, by simp⟩
          have := hpar.mp ht
          simp only [List.length_append, List.length_singleton]
          omega
    cases hinf : a.client st1.calls st1.conversation with
    | error err =>
      have hit : iteration a st =
          (some (RunResult.returned (some err)),
            { st1 with
              calls := st1.calls + 1
              trace := st1.trace ++ [Event.inference st1.conversation (Except.error err)] }) := by
        simp [iteration, hread, hinf]
      rw [hit]
      refine ⟨halt1, hpre1, by simp,
        r ++ [Event.inference st1.conversation (Except.error err)] ++ [], by simp [htr1], ?_,
        pairwise_before_one _ hr1 (by simp)⟩
      intro c res hc
      simp only [List.append_nil, List.mem_append, List.mem_singleton] at hc
      rcases hc with hc | hc
      · exact absurd rfl (hr1 _ hc c res)
      · simp only [Event.inference.injEq] at hc
        obtain ⟨rfl, _⟩ := hc
        exact ⟨hpre1, List.prefix_refl _, hodd1⟩
    | ok message =>
      have halt2 : alternates (st1.conversation ++ [message.ToParam]) :=
        alternates_snoc halt1 (by rw [if_neg (by omega)]; rfl)
      rcases hc : collectToolResults a message.Content st1.fs [] with ⟨res0, fs1, ev⟩
      have hevno : ∀ x ∈ ev, ∀ c res, x ≠ Event.inference c res := by
        intro x hx c res e
        cases res0 with
        | none =>
          obtain ⟨pre, n, i, hev, hpre⟩ := collectToolResults_none a _ _ _ _ _ hc
          rw [hev] at hx
          rcases List.mem_append.mp hx with hx | hx
          · obtain ⟨_, n1, i1, ret1, he1⟩ := hpre x hx
            rw [e] at he1
            simp at he1
          · simp only [List.mem_singleton] at hx
            rw [e] at hx
            simp at hx
        | some results =>
          obtain ⟨_, hev⟩ := collectToolResults_some a _ _ _ _ _ _ hc
          obtain ⟨_, n1, i1, ret1, he1⟩ := hev x hx
          rw [e] at he1
          simp at he1
      have hinfev : ∀ (final : List MessageParam),
          st1.conversation <+: final →
          ∀ c res, Event.inference c res ∈
            r ++ [Event.inference st1.conversation (Except.ok message)] ++ ev →
          st.conversation <+: c ∧ c <+: final ∧ c.length % 2 = 1 := by
        intro final hfin c res hcm
        simp only [List.mem_append, List.mem_singleton] at hcm
        rcases hcm with (hcm | hcm) | hcm
        · exact absurd rfl (hr1 _ hcm c res)
        · simp only [Event.inference.injEq] at hcm
          obtain ⟨rfl, _⟩ := hcm
          exact ⟨hpre1, hfin, hodd1⟩
        · exact absurd rfl (hevno _ hcm c res)
      cases res0 with
      | none =>
        have hit : iteration a st =
            (some RunResult.panicked,
              { st1 with
                conversation := st1.conversation ++ [message.ToParam]
                calls := st1.calls + 1
                fs := fs1
                trace :=
                  st1.trace ++ [Event.inference st1.conversation (Except.ok message)] ++ ev }) := by
          simp [iteration, hread, hinf, hc]
        rw [hit]
        exact ⟨halt2, hpre1.trans (List.prefix_append _ _), by simp,
          r ++ [Event.inference st1.conversation (Except.ok message)] ++ ev, by simp [htr1],
          hinfev _ (List.prefix_append _ _), pairwise_before_one _ hr1 hevno⟩
      | some results =>
        by_cases hlen : results.length = 0
        · have hit : iteration a st =
              (none,
                { st1 with
                  conversation := st1.conversation ++ [message.ToParam]
                  readUserInput := true
                  calls := st1.calls + 1
                  fs := fs1
                  trace :=
                    st1.trace ++ [Event.inference st1.conversation (Except.ok message)] ++
                      ev }) := by
            simp only [iteration, hread, hinf, hc, if_pos hlen]
          rw [hit]
          refine ⟨halt2, hpre1.trans (List.prefix_append _ _), ?_,
            r ++ [Event.inference st1.conversation (Except.ok message)] ++ ev, by simp [htr1],
            hinfev _ (List.prefix_append _ _), pairwise_before_one _ hr1 hevno⟩
          intro _
          simp only [List.length_append, List.length_singleton, true_iff]
          omega
        · have hit : iteration a st =
              (none,
                { st1 with
                  conversation :=
                    st1.conversation ++ [message.ToParam] ++ [NewUserMessage results]
                  readUserInput := false
                  calls := st1.calls + 1
                  fs := fs1
                  trace :=
                    st1.trace ++ [Event.inference st1.conversation (Except.ok message)] ++
                      ev }) := by
            simp only [iteration, hread, hinf, hc, if_neg hlen]
          rw [hit]
          have hfin : st1.conversation <+:
              st1.conversation ++ [message.ToParam] ++ [NewUserMessage results] := by
            rw [List.append_assoc]
            exact List.prefix_append _ _
          refine ⟨alternates_snoc halt2 ?_, hpre1.trans hfin, ?_,
            r ++ [Event.inference st1.conversation (Except.ok message)] ++ ev, by simp [htr1],
            hinfev _ hfin, pairwise_before_one _ hr1 hevno⟩
          · simp only [List.length_append, List.length_singleton]
            rw [if_pos (by omega)]
            rfl
          · intro _
            simp only [List.length_append, List.length_singleton]
            constructor
            · intro h
              exact absurd h (by decide)
            · intro h
              omega

/-- Through a run: the conversation alternates, every call to the model was made on
a prefix of odd length of the present conversation, and the calls are in the order
of their conversations. -/
theorem runLoop_shape (a : Agent) :
    ∀ (fuel : Nat) (st : RunState), alternates st.conversation →
      (st.readUserInput = true ↔ st.conversation.length % 2 = 0) →
      (∀ c r, Event.inference c r ∈ st.trace → c <+: st.conversation ∧ c.length % 2 = 1) →
      List.Pairwise Event.before st.trace →
      alternates (runLoop a fuel st).2.conversation ∧
        (∀ c r, Event.inference c r ∈ (runLoop a fuel st).2.trace →
          c <+: (runLoop a fuel st).2.conversation ∧ c.length % 2 = 1) ∧
        List.Pairwise Event.before (runLoop a fuel st).2.trace := by
  intro fuel
  induction fuel with
  | zero =>
    intro st halt _ hinf hpw
    exact ⟨halt, hinf, hpw⟩
  | succ fuel ih =>
    intro st halt hpar hinf hpw
    obtain ⟨halt1, hpre, hpar1, added, htr, hadd, hpwadd⟩ := iteration_shape a st halt hpar
    have hinf1 : ∀ c r, Event.inference c r ∈ (iteration a st).2.trace →
        c <+: (iteration a st).2.conversation ∧ c.length % 2 = 1 := by
      intro c r hc
      rw [htr] at hc
      rcases List.mem_append.mp hc with hc | hc
      · exact ⟨(hinf c r hc).1.trans hpre, (hinf c r hc).2⟩
      · exact ⟨(hadd c r hc).2.1, (hadd c r hc).2.2⟩
    have hpw1 : List.Pairwise Event.before (iteration a st).2.trace := by
      rw [htr, List.pairwise_append]
      refine ⟨hpw, hpwadd, ?_⟩
      intro x hx y hy c1 r1 c2 r2 e1 e2
      subst e1
      subst e2
      exact (hinf c1 r1 hx).1.trans (hadd c2 r2 hy).1
    rcases hit : iteration a st with ⟨res, st1⟩
    rw [hit] at halt1 hpar1 hinf1 hpw1
    simp only at halt1 hpar1 hinf1 hpw1
    cases res with
    | none =>
      have := ih st1 halt1 (hpar1 rfl) hinf1 hpw1
      simpa [runLoop, hit] using this
    | some result =>
      simp only [runLoop, hit]
      exact ⟨halt1, hinf1, hpw1⟩

/-- C20: at every call to the model during a run the conversation is not empty, its
first and its last message are the user's, and the roles alternate between user and
model; and of two calls the conversation of the earlier is a prefix of the
conversation of the later. -/
theorem Run_conversation_shape (a : Agent) (fuel : Nat) (fs : FS) :
    (∀ conv res, Event.inference conv res ∈ (Run a fuel fs).2.trace →
        conv ≠ [] ∧ (∃ m, conv.head? = some m ∧ m.role = Role.user) ∧
          (∃ m, conv.getLast? = some m ∧ m.role = Role.user) ∧ alternates conv) ∧
      (∀ pre mid post c1 r1 c2 r2,
        (Run a fuel fs).2.trace =
          pre ++ Event.inference c1 r1 :: (mid ++ Event.inference c2 r2 :: post) →
        c1 <+: c2) := by
  obtain ⟨halt, hinf, hpw⟩ := runLoop_shape a fuel ⟨[], true, 0, 0, fs, []⟩ alternates_nil
    (by simp) (by simp) List.Pairwise.nil
  unfold Run
  constructor
  · intro conv res hc
    obtain ⟨hp, hodd⟩ := hinf conv res hc
    have hac := alternates_prefix hp halt
    obtain ⟨h1, h2, h3⟩ := alternates_odd hac hodd
    exact ⟨h1, h2, h3, hac⟩
  · intro pre mid post c1 r1 c2 r2 htr
    rw [htr, List.pairwise_append] at hpw
    have h2 := (List.pairwise_cons.mp hpw.2.1).1
    exact h2 (Event.inference c2 r2) (by simp) c1 r1 c2 r2 rfl rfl

/-- The run of the sample agent calls the model twice: on the line of the user, and
on that line, the answer of the model and the user message with the tool results. -/
theorem Run_conversation_shape_witness :
    (Run agentDemo 3 fsDemo).2.trace.filterMap
        (fun e => match e with
          | Event.inference conv _ => some (conv.map (fun m => m.role))
          | _ => none) =
        [[Role.user], [Role.user, Role.assistant, Role.user]] ∧
      ((∀ conv res, Event.inference conv res ∈ (Run agentDemo 3 fsDemo).2.trace →
          conv ≠ [] ∧ (∃ m, conv.head? = some m ∧ m.role = Role.user) ∧
            (∃ m, conv.getLast? = some m ∧ m.role = Role.user) ∧ alternates conv) ∧
        (∀ pre mid post c1 r1 c2 r2,
          (Run agentDemo 3 fsDemo).2.trace =
            pre ++ Event.inference c1 r1 :: (mid ++ Event.inference c2 r2 :: post) →
          c1 <+: c2)) :=
  ⟨by decide, Run_conversation_shape agentDemo 3 fsDemo⟩

end CodeEditingAgent
